import Mathlib

/-!
Huffman codec (`lib/Huffman.cpp`): shallow embedding and verification.

The C++ codec is translated function by function.  Conventions of the embedding:

* `unsigned char` is `Fin 256`; `size_t` is a natural number below `2 ^ 64` and
  `long long` an integer wrapped to 64 bits (`toLongLong`); objects are stored in
  little-endian byte order (the byte order of the targets the project builds on).
* A `std::istream` is the list of characters not yet extracted plus its `failbit`;
  a `std::ostream` is the list of characters written so far.
* `std::shared_ptr<Node>` is `NodePtr`: either `null` or a node with two child
  pointers and a byte.
* A thrown `ReadCodingTableException` / `DecodeInputException` is an explicit result;
  dereferencing a null pointer or an uncaught exception is the outcome `aborted`.
* The order in which `std::priority_queue` returns entries of equal priority depends
  on the addresses of the nodes; it is a parameter `tie` of the embedding, and every
  theorem quantifies over it.
-/

namespace Huffman

/-- The type `unsigned char`. -/
abbrev Byte := Fin 256

/-- The constant `CHAR_MX`. -/
def CHAR_MX : Nat := 256

/-- The type `Freq = std::array<size_t, CHAR_MX>`. -/
abbrev Freq := Byte → Nat

/-- The type `Codes = std::array<std::optional<std::vector<bool>>, CHAR_MX>`. -/
abbrev Codes := Byte → Option (List Bool)

/-- The enumeration `Error`. -/
inductive Error where
  | OK : Error
  | WRONG_ARGUMENTS : Error
  | MALFORMED_HEADER : Error
  | MALFORMED_DATA : Error
  deriving DecidableEq, Repr

/-- How a call of `compress` or `decompress` ends: it returns a status, or the process
aborts (null pointer dereference, uncaught exception). -/
inductive Outcome where
  | returned (e : Error) : Outcome
  | aborted : Outcome
  deriving DecidableEq, Repr

/-- A `std::shared_ptr<Node>`: `nullptr`, or a `Node` with its `left`, `right` and `c`. -/
inductive NodePtr where
  | null : NodePtr
  | node (left right : NodePtr) (c : Byte) : NodePtr
  deriving DecidableEq, Repr

/-- The test `p == nullptr`. -/
def NodePtr.isNull : NodePtr → Bool
  | .null => true
  | .node _ _ _ => false

/-- The result of `std::make_shared<Node>()`: both children null, `c = 0`. -/
def make_shared_Node : NodePtr := .node .null .null 0

/-! ## Streams and object representation -/

/-- A `std::istream`: the characters not yet extracted and the `failbit`. -/
structure IStream where
  buf : List Byte
  failbit : Bool
  deriving DecidableEq, Repr

/-- The call `in->read(p, n)`: the characters stored through `p` and the stream afterwards.
A stream that has failed extracts nothing; a stream with fewer than `n` characters left
hands out what it has and sets `failbit`. -/
def IStream.read (s : IStream) (n : Nat) : List Byte × IStream :=
  if s.failbit then ([], s)
  else if n ≤ s.buf.length then (s.buf.take n, ⟨s.buf.drop n, false⟩)
  else (s.buf, ⟨[], true⟩)

/-- The call `in->get()`: extracts one character, sets `failbit` when there is none. -/
def IStream.get (s : IStream) : IStream :=
  if s.failbit then s
  else match s.buf with
    | [] => ⟨[], true⟩
    | _ :: rest => ⟨rest, false⟩

/-- The little-endian object representation of the `n`-byte unsigned integer `x`. -/
def toBytes : Nat → Nat → List Byte
  | 0, _ => []
  | n + 1, x => Fin.ofNat (x % 256) :: toBytes n (x / 256)

/-- The unsigned integer whose little-endian object representation is given. -/
def fromBytes : List Byte → Nat
  | [] => 0
  | b :: bs => b.val + 256 * fromBytes bs

/-- The template `Serialize<T>` for an unsigned integer type of `n` bytes. -/
def Serialize (n : Nat) (x : Nat) (out : List Byte) : List Byte :=
  out ++ toBytes n x

/-- The template `Deserialize<T>` for an unsigned integer type of `n` bytes: the
characters extracted overwrite the first bytes of the object whose value was `x`. -/
def Deserialize (n : Nat) (x : Nat) (s : IStream) : Nat × IStream :=
  ((fromBytes ((s.read n).1 ++ (toBytes n x).drop (s.read n).1.length)), (s.read n).2)

/-- The template `Deserialize<unsigned char>`. -/
def Deserialize_uchar (c : Byte) (s : IStream) : Byte × IStream :=
  match (s.read 1).1 with
  | b :: _ => (b, (s.read 1).2)
  | [] => (c, (s.read 1).2)

/-! ## Bit stream I/O -/

/-- The class `BinaryWriter<Buffer>`, together with the stream it writes to. -/
structure BinaryWriter where
  out : List Byte
  buffer : Nat
  buffer_pos : Nat
  deriving DecidableEq, Repr

/-- The method `BinaryWriter<Buffer>::flush`, for `sizeof(Buffer) = n`. -/
def BinaryWriter.flush (n : Nat) (w : BinaryWriter) : BinaryWriter :=
  if w.buffer_pos > 0 then ⟨Serialize n w.buffer w.out, 0, 0⟩ else w

/-- The method `BinaryWriter<Buffer>::write`, for `sizeof(Buffer) = n`. -/
def BinaryWriter.write (n : Nat) (w : BinaryWriter) (bit : Bool) : BinaryWriter :=
  let buffer := if bit then (w.buffer ||| (1 <<< w.buffer_pos)) % 2 ^ (8 * n) else w.buffer
  let buffer_pos := w.buffer_pos + 1
  if buffer_pos = 8 * n then BinaryWriter.flush n ⟨w.out, buffer, buffer_pos⟩
  else ⟨w.out, buffer, buffer_pos⟩

/-- The class `BinaryReader<Buffer>`. -/
structure BinaryReader where
  buffer : Nat
  buffer_pos : Nat
  deriving DecidableEq, Repr

/-- The method `BinaryReader<Buffer>::read`, for `sizeof(Buffer) = n`: the bit, the
reader and the stream afterwards. -/
def BinaryReader.read (n : Nat) (r : BinaryReader) (s : IStream) :
    Bool × BinaryReader × IStream :=
  let bs := if r.buffer_pos = 0 then Deserialize n r.buffer s else (r.buffer, s)
  let bit := (bs.1 >>> r.buffer_pos) &&& 1 != 0
  let buffer_pos := r.buffer_pos + 1
  (bit, ⟨bs.1, if buffer_pos = 8 * n then 0 else buffer_pos⟩, bs.2)

/-! ## Compression -/

/-- The loop of `calculate_frequencies` over the characters still in the stream. -/
def calculate_frequencies_loop : List Byte → Freq → Nat → Freq × Nat
  | [], freq, sz => (freq, sz)
  | c :: rest, freq, sz =>
    calculate_frequencies_loop rest (Function.update freq c ((freq c + 1) % 2 ^ 64))
      ((sz + 1) % 2 ^ 64)

/-- The function `calculate_frequencies`: the count returned, the table and the stream. -/
def calculate_frequencies (s : IStream) (freq : Freq) : Nat × Freq × IStream :=
  if s.failbit then (0, freq, s)
  else ((calculate_frequencies_loop s.buf freq 0).2,
        (calculate_frequencies_loop s.buf freq 0).1, ⟨[], true⟩)

/-- Conversion of an integer to `long long` (two's complement, 64 bits). -/
def toLongLong (x : Int) : Int := (x + 2 ^ 63) % 2 ^ 64 - 2 ^ 63

/-- The contents of the `std::priority_queue<std::pair<long long, std::shared_ptr<Node>>>`. -/
abbrev PQ := List (Int × NodePtr)

/-- A tie-break: among the entries of greatest priority, which one `top()` returns. -/
abbrev TieBreak := PQ → Nat

/-- The greatest priority in the queue. -/
def maxPrior : PQ → Int
  | [] => 0
  | [e] => e.1
  | e :: es => max e.1 (maxPrior es)

/-- The call `q.top()`: an entry of greatest priority. -/
def pq_top (tie : TieBreak) (q : PQ) : Int × NodePtr :=
  (q.filter (fun e => e.1 = maxPrior q)).getD
    (tie q % (q.filter (fun e => e.1 = maxPrior q)).length) (0, .null)

/-- The queue without the first entry equal to `e`. -/
def pq_erase (e : Int × NodePtr) : PQ → PQ
  | [] => []
  | x :: q => if x = e then q else x :: pq_erase e q

/-- The call `q.pop()`: the entry `top()` returns is removed. -/
def pq_pop (tie : TieBreak) (q : PQ) : PQ := pq_erase (pq_top tie q) q

/-- The first loop of `build_trie_by_freq`: one leaf per byte of nonzero frequency. -/
def initial_queue (freq : Freq) : PQ :=
  (List.finRange 256).foldl
    (fun q i => if freq i = 0 then q
      else q ++ [(toLongLong (-(freq i : Int)), NodePtr.node .null .null i)]) []

/-- The body of the loop `while (q.size() > 1)` of `build_trie_by_freq`: the two entries
on top are removed and an entry for a new node above them is added. -/
def merge_step (tie : TieBreak) (q : PQ) : PQ :=
  let left := pq_top tie q
  let q1 := pq_pop tie q
  let right := pq_top tie q1
  let q2 := pq_pop tie q1
  q2 ++ [(toLongLong (left.1 + right.1), NodePtr.node left.2 right.2 0)]

/-- The loop `while (q.size() > 1)` of `build_trie_by_freq`; `none` when the fuel runs out
before the loop ends. -/
def build_loop (tie : TieBreak) : Nat → PQ → Option PQ
  | 0, q => if q.length > 1 then none else some q
  | fuel + 1, q => if q.length > 1 then build_loop tie fuel (merge_step tie q) else some q

/-- The function `build_trie_by_freq`; `none` when the fuel `CHAR_MX` does not suffice
for the merge loop (which never happens, see `build_trie_by_freq_spec`). -/
def build_trie_by_freq (tie : TieBreak) (freq : Freq) : Option NodePtr :=
  if (initial_queue freq).isEmpty then some .null
  else (build_loop tie CHAR_MX (initial_queue freq)).map (fun q => (pq_top tie q).2)

/-- The function `calculate_codes`: the vector `code` and the table `codes` afterwards. -/
def calculate_codes : NodePtr → List Bool → Codes → List Bool × Codes
  | .null, code, codes => (code, codes)
  | .node left right c, code, codes =>
    if left.isNull && right.isNull then (code, Function.update codes c (some code))
    else
      let r1 := calculate_codes left (code ++ [false]) codes
      let r2 := calculate_codes right (r1.1.dropLast ++ [true]) r1.2
      (r2.1.dropLast, r2.2)

/-- The bits of one code written through a fresh `BinaryWriter<uint8_t>` and flushed. -/
def write_code (code : List Bool) (out : List Byte) : List Byte :=
  (BinaryWriter.flush 1 (code.foldl (BinaryWriter.write 1) ⟨out, 0, 0⟩)).out

/-- The function `write_coding_table`. -/
def write_coding_table (codes : Codes) (out : List Byte) : List Byte :=
  let sz := (List.finRange 256).foldl (fun sz i => if (codes i).isSome then sz + 1 else sz) 0
  (List.finRange 256).foldl
    (fun out i =>
      match codes i with
      | none => out
      | some code => write_code code (Serialize 8 code.length (Serialize 1 i.val out)))
    (Serialize 8 sz out)

/-- The loop of `encode_input` over the characters of the stream; `Except.error` when
`codes[c].value()` throws `std::bad_optional_access`. -/
def encode_loop (codes : Codes) : List Byte → BinaryWriter → Except BinaryWriter BinaryWriter
  | [], w => .ok w
  | c :: rest, w =>
    match codes c with
    | none => .error w
    | some code => encode_loop codes rest (code.foldl (BinaryWriter.write 8) w)

/-- The function `encode_input`: whether it returned, and the output stream. -/
def encode_input (s : IStream) (out : List Byte) (sz : Nat) (codes : Codes) :
    Bool × List Byte :=
  match encode_loop codes (if s.failbit then [] else s.buf) ⟨Serialize 8 sz out, 0, 0⟩ with
  | .ok w => (true, (BinaryWriter.flush 8 w).out)
  | .error w => (false, w.out)

/-- The function `Arch::compress` on a stream holding `data`, positioned at its start, and an
empty output stream; `none` when the fuel of the merge loop runs out. -/
def compress (tie : TieBreak) (data : List Byte) : Option (Outcome × List Byte) :=
  let fr := calculate_frequencies ⟨data, false⟩ (fun _ => 0)
  match build_trie_by_freq tie fr.2.1 with
  | none => none
  | some root =>
    let codes := (calculate_codes root [] (fun _ => none)).2
    let out := write_coding_table codes []
    match encode_input ⟨data, false⟩ out fr.1 codes with
    | (true, out) => some (.returned .OK, out)
    | (false, out) => some (.aborted, out)

/-! ## Decompression -/

/-- The inner loop of `read_coding_table`: `code_len` bits through the reader; `none`
when `ReadCodingTableException` is thrown. -/
def read_code_bits : Nat → BinaryReader → IStream → List Bool → Option (List Bool × IStream)
  | 0, _, s, code => some (code, s)
  | j + 1, r, s, code =>
    if (BinaryReader.read 1 r s).2.2.failbit then none
    else read_code_bits j (BinaryReader.read 1 r s).2.1 (BinaryReader.read 1 r s).2.2
      (code ++ [(BinaryReader.read 1 r s).1])

/-- The outer loop of `read_coding_table` over the declared entries. -/
def read_entries : Nat → IStream → Codes → Option (Codes × IStream)
  | 0, s, codes => some (codes, s)
  | i + 1, s, codes =>
    let c := Deserialize_uchar 0 s
    let code_len := Deserialize 8 0 c.2
    if code_len.2.failbit || code_len.1 > CHAR_MX then none
    else
      match read_code_bits code_len.1 ⟨0, 0⟩ code_len.2 [] with
      | none => none
      | some (code, s3) => read_entries i s3 (Function.update codes c.1 (some code))

/-- The function `read_coding_table`; `none` when `ReadCodingTableException` is thrown. -/
def read_coding_table (s : IStream) (codes : Codes) : Option (Codes × IStream) :=
  let sz := Deserialize 8 0 s
  if sz.2.failbit || sz.1 > CHAR_MX then none
  else read_entries sz.1 sz.2 codes

/-- The child pointer after `if (cur->left == nullptr) cur->left = make_shared<Node>()`. -/
def ensure_child (p : NodePtr) : NodePtr :=
  if p.isNull then make_shared_Node else p

/-- The body of the outer loop of `build_trie_by_codes`: the tree under `cur` after the
path of `code` has been created below it and `c` stored at its end. -/
def insert_code : List Bool → Byte → NodePtr → NodePtr
  | _, _, .null => .null
  | [], i, .node left right _ => .node left right i
  | false :: code, i, .node left right c => .node (insert_code code i (ensure_child left)) right c
  | true :: code, i, .node left right c => .node left (insert_code code i (ensure_child right)) c

/-- The function `build_trie_by_codes`.  The test `codes.empty()` of a `std::array` of
`CHAR_MX` elements is `CHAR_MX == 0`. -/
def build_trie_by_codes (codes : Codes) : NodePtr :=
  if CHAR_MX = 0 then .null
  else (List.finRange 256).foldl
    (fun root i =>
      match codes i with
      | none => root
      | some code => insert_code code i root)
    make_shared_Node

/-- How the decoding of one element ends. -/
inductive Walk where
  | leaf (c : Byte) (r : BinaryReader) (s : IStream) : Walk
  | thrown : Walk
  | nullDeref : Walk
  deriving DecidableEq, Repr

/-- The loop `while (!(cur->left == nullptr && cur->right == nullptr))` of `decode_input`,
started at `cur`. Evaluating the condition on a null `cur` dereferences a null pointer. -/
def decode_walk : NodePtr → BinaryReader → IStream → Walk
  | .null, _, _ => .nullDeref
  | .node left right c, r, s =>
    if left.isNull && right.isNull then .leaf c r s
    else if (BinaryReader.read 8 r s).2.2.failbit then .thrown
    else if !(BinaryReader.read 8 r s).1 then
      decode_walk left (BinaryReader.read 8 r s).2.1 (BinaryReader.read 8 r s).2.2
    else decode_walk right (BinaryReader.read 8 r s).2.1 (BinaryReader.read 8 r s).2.2

/-- How `decode_input` ends. -/
inductive Signal where
  | done : Signal
  | DecodeInputException : Signal
  | nullDeref : Signal
  deriving DecidableEq, Repr

/-- The loop `for (size_t i = 0; i != sz; ++i)` of `decode_input` and the final `in->get()`
check; the output stream is returned in every case. -/
def decode_loop (root : NodePtr) : Nat → BinaryReader → IStream → List Byte →
    Signal × List Byte
  | 0, _, s, out => if (s.get).failbit then (.done, out) else (.DecodeInputException, out)
  | i + 1, r, s, out =>
    match decode_walk root r s with
    | .leaf c r1 s1 => decode_loop root i r1 s1 (Serialize 1 c.val out)
    | .thrown => (.DecodeInputException, out)
    | .nullDeref => (.nullDeref, out)

/-- The function `decode_input`. -/
def decode_input (s : IStream) (out : List Byte) (root : NodePtr) : Signal × List Byte :=
  let sz := Deserialize 8 0 s
  if sz.2.failbit then (.DecodeInputException, out)
  else decode_loop root sz.1 ⟨0, 0⟩ sz.2 out

/-- The function `Arch::decompress` on a stream holding `data` and an empty output stream. -/
def decompress (data : List Byte) : Outcome × List Byte :=
  match read_coding_table ⟨data, false⟩ (fun _ => none) with
  | none => (.returned .MALFORMED_HEADER, [])
  | some (codes, s) =>
    match decode_input s [] (build_trie_by_codes codes) with
    | (.done, out) => (.returned .OK, out)
    | (.DecodeInputException, out) => (.returned .MALFORMED_DATA, out)
    | (.nullDeref, out) => (.aborted, out)

/-! ## Specification-level definitions used by the proofs -/

/-- The number whose binary digits, least significant first, are the given bits. -/
def bitsToNat : List Bool → Nat
  | [] => 0
  | b :: bs => b.toNat + 2 * bitsToNat bs

/-- The bytes a `BinaryWriter` of `n`-byte words emits for the bits `bs` followed by a
`flush`, when `cur` are the bits already in its buffer. -/
def pack (n : Nat) : List Bool → List Bool → List Byte
  | cur, [] => if cur.isEmpty then [] else toBytes n (bitsToNat cur)
  | cur, b :: bs =>
    if cur.length + 1 = 8 * n then toBytes n (bitsToNat (cur ++ [b])) ++ pack n [] bs
    else pack n (cur ++ [b]) bs

/-- Bit `j` of a byte sequence read as consecutive `n`-byte words, low bit first. -/
def bitAt (n : Nat) (data : List Byte) (j : Nat) : Bool :=
  (fromBytes ((data.drop (n * (j / (8 * n)))).take n)).testBit (j % (8 * n))

/-- The state of a fresh `BinaryReader` of `n`-byte words on a stream holding `data`
after `j` successful reads. -/
def readerAfter (n : Nat) (data : List Byte) (j : Nat) : BinaryReader × IStream :=
  (⟨if j = 0 then 0 else fromBytes ((data.drop (n * ((j - 1) / (8 * n)))).take n), j % (8 * n)⟩,
   ⟨data.drop (n * ((j + 8 * n - 1) / (8 * n))), false⟩)

/-- The node reached from `t` along a path of child selections (`false` is `left`);
`null` when the path leaves the tree. -/
def subtree : NodePtr → List Bool → NodePtr
  | t, [] => t
  | .null, _ :: _ => .null
  | .node left _ _, false :: p => subtree left p
  | .node _ right _, true :: p => subtree right p

/-- The node `t` with its byte replaced by `i`; a fresh leaf holding `i` for `null`. -/
def setByte (i : Byte) : NodePtr → NodePtr
  | .null => .node .null .null i
  | .node left right _ => .node left right i

/-- No code of the table is a prefix of the code of another byte. -/
def PrefixFree (codes : Codes) : Prop :=
  ∀ a b x y, a ≠ b → codes a = some x → codes b = some y → ¬ x <+: y

/-- The concatenated codes of a sequence of bytes (bytes without a code contribute nothing). -/
def encodeBits (codes : Codes) : List Byte → List Bool
  | [] => []
  | c :: rest => (codes c).getD [] ++ encodeBits codes rest

/-- The bytes at the leaves of a tree, from left to right. -/
def leaves : NodePtr → List Byte
  | .null => []
  | .node left right c => if left.isNull && right.isNull then [c] else leaves left ++ leaves right

/-- The pairs of a leaf byte and the path to it, from left to right, below a node whose
own path is `code`. -/
def codesOf : NodePtr → List Bool → List (Byte × List Bool)
  | .null, _ => []
  | .node left right c, code =>
    if left.isNull && right.isNull then [(c, code)]
    else codesOf left (code ++ [false]) ++ codesOf right (code ++ [true])

/-- A non-null tree in which every node has no child or two children. -/
def Full : NodePtr → Prop
  | .null => False
  | .node left right _ => (left = .null ∧ right = .null) ∨ (Full left ∧ Full right)

/-- The leaf bytes of all trees in the queue. -/
def queueLeaves : PQ → List Byte
  | [] => []
  | e :: q => leaves e.2 ++ queueLeaves q

/-- The bytes of nonzero frequency, ascending. -/
def support (freq : Freq) : List Byte :=
  (List.finRange 256).filter (fun i => freq i ≠ 0)

/-- The table obtained by storing the listed codes one after the other. -/
def storeCodes (es : List (Byte × List Bool)) (codes : Codes) : Codes :=
  es.foldl (fun cs e => Function.update cs e.1 (some e.2)) codes

/-- The number of occurrences of each byte in a sequence. -/
def countFreq (data : List Byte) : Freq := fun b => data.count b

/-- The serialized form of one header entry. -/
def entryBytes (e : Byte × List Bool) : List Byte :=
  e.1 :: (toBytes 8 e.2.length ++ pack 1 [] e.2)

/-- The entries of a code table in ascending order of the byte. -/
def entriesOf (codes : Codes) : List (Byte × List Bool) :=
  (List.finRange 256).filterMap (fun i => (codes i).map (fun code => (i, code)))

/-- The serialized header of a code table: entry count, then the entries. -/
def headerBytes (codes : Codes) : List Byte :=
  toBytes 8 (entriesOf codes).length ++ ((entriesOf codes).map entryBytes).flatten

/-- The shape invariant of the merge loop: every tree in the queue is full and the leaves of
the trees are, up to order, the bytes of nonzero frequency. -/
def ShapeInv (freq : Freq) (q : PQ) : Prop :=
  (∀ e ∈ q, Full e.2) ∧ (queueLeaves q).Perm (support freq)

/-- The code table `compress` derives from a tree. -/
def treeCodes (root : NodePtr) : Codes := (calculate_codes root [] (fun _ => none)).2

/-- The bytes `compress` writes when the code table is `codes`: header, element count,
packed payload. -/
def streamBytes (codes : Codes) (data : List Byte) : List Byte :=
  headerBytes codes ++ (toBytes 8 data.length ++ pack 8 [] (encodeBits codes data))

/-- A code table under which a sequence of bytes can be encoded and decoded again. -/
structure GoodCodes (codes : Codes) (data : List Byte) : Prop where
  prefixFree : PrefixFree codes
  short : ∀ c x, codes c = some x → x.length ≤ 256
  covers : ∀ c ∈ data, (codes c).isSome

/-- The stream `s` with the bytes `Y` appended to what it still holds. -/
def extend (Y : List Byte) (s : IStream) : IStream := ⟨s.buf ++ Y, s.failbit⟩

/-- The serialized form of a header entry given by its byte, its declared code length and
its code bytes. -/
def rawEntryBytes (e : Byte × Nat × List Byte) : List Byte :=
  e.1 :: (toBytes 8 e.2.1 ++ e.2.2)

/-- A serialized header: the number of entries, then the entries. -/
def rawHeader (es : List (Byte × Nat × List Byte)) : List Byte :=
  toBytes 8 es.length ++ (es.map rawEntryBytes).flatten

/-- The declared code length of an entry fits a `size_t` and the entry carries the
`ceil(length / 8)` code bytes that length calls for. -/
def RawEntryOk (e : Byte × Nat × List Byte) : Prop :=
  e.2.1 < 2 ^ 64 ∧ e.2.2.length = (e.2.1 + 7) / 8

/-- The invariant of the merge loop when the byte `b0` is more frequent than all other bytes
together: either the leaf of `b0` is still in the queue, next to entries of priorities above
its own, or the loop has ended with the leaf of `b0` as the right child of the root. -/
def DomInv (f0 : Int) (b0 : Byte) (q : PQ) : Prop :=
  (∃ q', q.Perm ((-f0, NodePtr.node .null .null b0) :: q') ∧ q' ≠ [] ∧
      (∀ e ∈ q', e.1 ≤ 0) ∧ -f0 < (q'.map Prod.fst).sum) ∨
    (∃ p T, q = [(p, NodePtr.node T (NodePtr.node .null .null b0) 0)])

/-- The bitwise complement `~b` of an `unsigned char`. -/
def complement (b : Byte) : Byte := Fin.ofNat (255 - b.val)

/-- The byte sequence with the byte at index `i` replaced by its bitwise complement. -/
def flipByte (i : Nat) (l : List Byte) : List Byte :=
  l.set i (complement (l.getD i 0))

/-- An input with 254 distinct bytes: the bytes 1 to 253 once each, then 254 times the
byte 0. -/
def headerFlipInput : List Byte :=
  (List.finRange 256).filter (fun i => decide (1 ≤ i.val ∧ i.val ≤ 253)) ++ List.replicate 254 0

/-- The frequency table of `headerFlipInput`. -/
def headerFlipFreq : Freq := fun i => if i.val = 0 then 254 else if i.val ≤ 253 then 1 else 0

/-! ## Definitions for optimality -/

/-- The total frequency of the leaf bytes of a tree. -/
def weight (freq : Freq) (t : NodePtr) : Nat := ((leaves t).map freq).sum

/-- The sum, over the leaves of a tree, of the frequency of the byte times its depth. -/
def cost (freq : Freq) : NodePtr → Nat
  | .null => 0
  | .node left right _ =>
    if left.isNull && right.isNull then 0
    else cost freq left + cost freq right + weight freq left + weight freq right

/-- The sum over all bytes of the frequency times the length of the code (bytes without a
code count with length 0): the number of payload bits of an input with these frequencies. -/
def codeCost (freq : Freq) (codes : Codes) : Nat :=
  ((List.finRange 256).map (fun b => freq b * ((codes b).getD []).length)).sum

/-- A table gives every byte of nonzero frequency a code, and among these bytes no code is a
prefix of the code of another byte. -/
def IsPrefixCodeFor (freq : Freq) (codes : Codes) : Prop :=
  (∀ b, freq b ≠ 0 → (codes b).isSome) ∧
    ∀ a b x y, a ≠ b → freq a ≠ 0 → freq b ≠ 0 → codes a = some x → codes b = some y →
      ¬ x <+: y

/-- The Kraft sum of a list of (weight, length) pairs, scaled by `2 ^ D`. -/
def kraftSum (D : Nat) (ps : List (Nat × Nat)) : Nat := (ps.map (fun p => 2 ^ (D - p.2))).sum

/-- The weighted length of a list of (weight, length) pairs. -/
def weightedLength (ps : List (Nat × Nat)) : Nat := (ps.map (fun p => p.1 * p.2)).sum

/-- The lengths are at most `D` and satisfy the Kraft inequality. -/
def KraftOk (D : Nat) (ps : List (Nat × Nat)) : Prop :=
  (∀ p ∈ ps, p.2 ≤ D) ∧ kraftSum D ps ≤ 2 ^ D

/-- The codes that start with the bit `b`, without that bit. -/
def tailsOf (b : Bool) (cs : List (List Bool)) : List (List Bool) :=
  cs.filterMap (fun c =>
    match c with
    | [] => none
    | x :: t => if x = b then some t else none)

/-- The Kraft sum of a list of codes, scaled by `2 ^ D`. -/
def codeKraft (D : Nat) (cs : List (List Bool)) : Nat := (cs.map (fun c => 2 ^ (D - c.length))).sum

/-- Neither of two codes is a prefix of the other. -/
def NoPrefix (x y : List Bool) : Prop := ¬ x <+: y ∧ ¬ y <+: x

/-- The sum of all frequencies. -/
def totalFreq (freq : Freq) : Nat := ((List.finRange 256).map freq).sum

/-- The priorities in the queue are the negated weights of the trees. -/
def PrioInv (freq : Freq) (q : PQ) : Prop :=
  ∀ e ∈ q, e.1 = -((weight freq e.2 : Nat) : Int)

/-- The optimality invariant of the merge loop: some lengths for the weights of the trees in
the queue satisfy the Kraft inequality and, with the cost of the trees added, stay within
the bound `K`. -/
def OptInv (freq : Freq) (D K : Nat) (q : PQ) : Prop :=
  ∃ ps : List (Nat × Nat), (ps.map Prod.fst).Perm (q.map (fun e => weight freq e.2)) ∧
    KraftOk D ps ∧ weightedLength ps + (q.map (fun e => cost freq e.2)).sum ≤ K

/-- The bound `sum over j from 2 to m of floor(2 N / j)` on the cost of a tree built by
merging, `m - 1` times, the two smallest of weights of total `N`. -/
def harmonicBound (N : Nat) : Nat → Nat
  | 0 => 0
  | 1 => 0
  | m + 2 => harmonicBound N (m + 1) + 2 * N / (m + 2)

/-- The invariant of the merge loop behind the size bound: the cost of the trees built so
far plus the bound for the merges to come stays below the bound for all merges. -/
def SizeInv (freq : Freq) (B : Nat) (q : PQ) : Prop :=
  (q.map (fun e => cost freq e.2)).sum + harmonicBound (totalFreq freq) q.length ≤ B

end Huffman

namespace Huffman

/-! ## Definitions for the layout, bit stream and frame claims -/

/-- The result of `k` successive calls of `BinaryReader<Buffer>::read`, for
`sizeof(Buffer) = n`: the bits returned, in order, whether `in->fail()` held after one of
the calls, and the stream after the last call. -/
def read_bits (n : Nat) : Nat → BinaryReader → IStream → List Bool × Bool × IStream
  | 0, _, s => ([], false, s)
  | k + 1, r, s =>
    ((BinaryReader.read n r s).1 ::
        (read_bits n k (BinaryReader.read n r s).2.1 (BinaryReader.read n r s).2.2).1,
      (BinaryReader.read n r s).2.2.failbit ||
        (read_bits n k (BinaryReader.read n r s).2.1 (BinaryReader.read n r s).2.2).2.1,
      (read_bits n k (BinaryReader.read n r s).2.1 (BinaryReader.read n r s).2.2).2.2)

/-- The bytes of a bit sequence packed into words of `n` bytes, in the words of the format
description: `ceil(length / (8 n))` words, none when there are no bits; word `k` holds the
bits `8 n k` to `8 n k + 8 n - 1`, the first of them in its lowest bit, and zeros where the
bits have run out. -/
def packedWords (n : Nat) (bs : List Bool) : List Byte :=
  ((List.range ((bs.length + 8 * n - 1) / (8 * n))).map
    (fun k => toBytes n (bitsToNat ((bs.drop (8 * n * k)).take (8 * n))))).flatten

/-- One header entry in the words of the format description: the byte, the length of its
code as an 8-byte integer, the bits of the code in `ceil(length / 8)` bytes. -/
def layoutEntry (codes : Codes) (b : Byte) : List Byte :=
  b :: (toBytes 8 ((codes b).getD []).length ++ packedWords 1 ((codes b).getD []))

/-- The compressed stream of the input `S` under the code table `codes` in the words of the
format description: the number of distinct bytes, one entry for each byte value occurring in
`S` in ascending order, the length of `S`, and the codes of the bytes of `S` in input order
packed into 64-bit words. -/
def layoutStream (codes : Codes) (S : List Byte) : List Byte :=
  toBytes 8 S.dedup.length
    ++ (((List.finRange 256).filter (fun b => decide (b ∈ S))).map (layoutEntry codes)).flatten
    ++ toBytes 8 S.length
    ++ packedWords 8 ((S.map (fun c => (codes c).getD [])).flatten)

/-- The table with a single entry: the empty code for the byte `b`. -/
def singleCode (b : Byte) : Codes := Function.update (fun _ => none) b (some [])

/-- The function `Arch::decompress` for arbitrary stream pointers (`none` is `nullptr`) and
an output stream that already holds some bytes: the outcome and the output stream
afterwards. -/
def Arch.decompress (inp : Option IStream) (out : Option (List Byte)) :
    Outcome × Option (List Byte) :=
  match inp, out with
  | some s, some o =>
    match read_coding_table s (fun _ => none) with
    | none => (.returned .MALFORMED_HEADER, some o)
    | some (codes, s1) =>
      match decode_input s1 o (build_trie_by_codes codes) with
      | (.done, o1) => (.returned .OK, some o1)
      | (.DecodeInputException, o1) => (.returned .MALFORMED_DATA, some o1)
      | (.nullDeref, o1) => (.aborted, some o1)
  | _, _ => (.returned .WRONG_ARGUMENTS, out)

end Huffman

namespace Huffman

/-! ## Object representation -/

theorem toBytes_length (n x : Nat) : (toBytes n x).length = n := by
  induction n generalizing x with
  | zero => rfl
  | succ n ih => simp [toBytes, ih]

theorem fromBytes_toBytes (n x : Nat) : fromBytes (toBytes n x) = x % 256 ^ n := by
  induction n generalizing x with
  | zero => simp [toBytes, fromBytes, Nat.mod_one]
  | succ n ih =>
    simp only [toBytes, fromBytes, ih, Fin.ofNat, Nat.mod_mod]
    rw [pow_succ, Nat.mul_comm (256 ^ n) 256, Nat.mod_mul]

theorem fromBytes_lt (bs : List Byte) : fromBytes bs < 256 ^ bs.length := by
  induction bs with
  | nil => simp [fromBytes]
  | cons b bs ih =>
    simp only [fromBytes, List.length_cons, pow_succ]
    have := b.isLt
    omega

theorem toBytes_fromBytes (bs : List Byte) : toBytes bs.length (fromBytes bs) = bs := by
  induction bs with
  | nil => rfl
  | cons b bs ih =>
    have hb := b.isLt
    have h1 : (b.val + 256 * fromBytes bs) % 256 = b.val := by omega
    have h2 : (b.val + 256 * fromBytes bs) / 256 = fromBytes bs := by omega
    simp only [List.length_cons, toBytes, fromBytes, h1, h2, ih]
    congr 1
    apply Fin.ext
    simp [Fin.ofNat]

theorem read_exact (a rest : List Byte) (n : Nat) (h : a.length = n) :
    IStream.read ⟨a ++ rest, false⟩ n = (a, ⟨rest, false⟩) := by
  subst h
  simp [IStream.read]

theorem read_short (buf : List Byte) (n : Nat) (h : buf.length < n) :
    IStream.read ⟨buf, false⟩ n = (buf, ⟨[], true⟩) := by
  simp [IStream.read]
  omega

theorem Deserialize_exact (n x : Nat) (a rest : List Byte) (h : a.length = n) :
    Deserialize n x ⟨a ++ rest, false⟩ = (fromBytes a, ⟨rest, false⟩) := by
  have hd : List.drop n (toBytes n x) = [] :=
    List.drop_eq_nil_of_le (by rw [toBytes_length])
  simp [Deserialize, read_exact a rest n h, h, hd]

theorem Deserialize_toBytes (n x v : Nat) (rest : List Byte) :
    Deserialize n x ⟨toBytes n v ++ rest, false⟩ = (v % 256 ^ n, ⟨rest, false⟩) := by
  rw [Deserialize_exact n x _ rest (toBytes_length n v), fromBytes_toBytes]

theorem Deserialize_short (n x : Nat) (buf : List Byte) (h : buf.length < n) :
    (Deserialize n x ⟨buf, false⟩).2 = ⟨[], true⟩ := by
  simp [Deserialize, read_short buf n h]

theorem Deserialize_uchar_cons (c b : Byte) (rest : List Byte) :
    Deserialize_uchar c ⟨b :: rest, false⟩ = (b, ⟨rest, false⟩) := by
  simp [Deserialize_uchar, IStream.read]

/-! ## Bit packing -/

theorem bitsToNat_lt (bs : List Bool) : bitsToNat bs < 2 ^ bs.length := by
  induction bs with
  | nil => simp [bitsToNat]
  | cons b bs ih =>
    simp only [bitsToNat, List.length_cons, pow_succ]
    cases b <;> simp <;> omega

theorem testBit_bitsToNat (bs : List Bool) (i : Nat) :
    (bitsToNat bs).testBit i = bs.getD i false := by
  induction bs generalizing i with
  | nil => simp [bitsToNat]
  | cons b bs ih =>
    cases i with
    | zero =>
      simp only [bitsToNat, Nat.testBit_zero, List.getD_cons_zero]
      cases b <;> simp
    | succ i =>
      simp only [bitsToNat, Nat.testBit_succ, List.getD_cons_succ]
      rw [← ih]
      congr 1
      cases b <;> simp
      omega

theorem bitsToNat_append_false (cur : List Bool) :
    bitsToNat (cur ++ [false]) = bitsToNat cur := by
  apply Nat.eq_of_testBit_eq
  intro i
  simp only [testBit_bitsToNat, List.getD_eq_getElem?_getD]
  rcases Nat.lt_or_ge i cur.length with h | h
  · simp [List.getElem?_append_left h]
  · rw [List.getElem?_append_right h]
    rw [List.getElem?_eq_none (l := cur) h]
    cases hk : i - cur.length <;> simp

theorem bitsToNat_append_true (cur : List Bool) :
    bitsToNat (cur ++ [true]) = bitsToNat cur ||| 1 <<< cur.length := by
  apply Nat.eq_of_testBit_eq
  intro i
  simp only [testBit_bitsToNat, Nat.testBit_lor, Nat.one_shiftLeft, Nat.testBit_two_pow,
    List.getD_eq_getElem?_getD]
  rcases Nat.lt_or_ge i cur.length with h | h
  · have : ¬ cur.length = i := by omega
    simp [List.getElem?_append_left h, this]
  · rw [List.getElem?_append_right h, List.getElem?_eq_none (l := cur) h]
    rcases Nat.eq_or_lt_of_le h with h' | h'
    · subst h'; simp
    · have : ¬ cur.length = i := by omega
      have h2 : i - cur.length = (i - cur.length - 1) + 1 := by omega
      rw [h2]
      simp [this]

theorem write_spec (n : Nat) (out : List Byte) (cur : List Bool) (b : Bool)
    (h : cur.length < 8 * n) :
    BinaryWriter.write n ⟨out, bitsToNat cur, cur.length⟩ b =
      if cur.length + 1 = 8 * n then ⟨out ++ toBytes n (bitsToNat (cur ++ [b])), 0, 0⟩
      else ⟨out, bitsToNat (cur ++ [b]), (cur ++ [b]).length⟩ := by
  have hb : (if b = true then (bitsToNat cur ||| 1 <<< cur.length) % 2 ^ (8 * n)
      else bitsToNat cur) = bitsToNat (cur ++ [b]) := by
    cases b
    · simp [bitsToNat_append_false]
    · simp only [if_true]
      rw [← bitsToNat_append_true]
      apply Nat.mod_eq_of_lt
      have h1 := bitsToNat_lt (cur ++ [true])
      have h2 : 2 ^ (cur ++ [true]).length ≤ 2 ^ (8 * n) :=
        Nat.pow_le_pow_right (by norm_num) (by simp; omega)
      omega
  simp only [BinaryWriter.write, hb]
  split_ifs with h1
  · simp [BinaryWriter.flush, Serialize]
  · simp

theorem writer_spec (n : Nat) (hn : 0 < n) (bs : List Bool) (out : List Byte) (cur : List Bool)
    (h : cur.length < 8 * n) :
    (BinaryWriter.flush n (bs.foldl (BinaryWriter.write n) ⟨out, bitsToNat cur, cur.length⟩)).out
      = out ++ pack n cur bs := by
  induction bs generalizing out cur with
  | nil =>
    cases cur with
    | nil => simp [BinaryWriter.flush, pack]
    | cons c cur => simp [BinaryWriter.flush, pack, Serialize]
  | cons b bs ih =>
    rw [List.foldl_cons, write_spec n out cur b h]
    simp only [pack]
    split_ifs with h1
    · have := ih (out ++ toBytes n (bitsToNat (cur ++ [b]))) [] (by simp; omega)
      simp only [bitsToNat, List.length_nil] at this
      rw [this, List.append_assoc]
    · exact ih out (cur ++ [b]) (by simp; omega)

end Huffman

namespace Huffman

theorem pack_length (n : Nat) (hn : n = 1 ∨ n = 8) (bs cur : List Bool)
    (h : cur.length < 8 * n) :
    (pack n cur bs).length = n * ((cur.length + bs.length + 8 * n - 1) / (8 * n)) := by
  induction bs generalizing cur with
  | nil =>
    cases cur with
    | nil => rcases hn with rfl | rfl <;> simp [pack]
    | cons c cur =>
      simp only [pack, List.isEmpty_cons, Bool.false_eq_true, if_false, toBytes_length,
        List.length_cons, List.length_nil] at h ⊢
      rcases hn with rfl | rfl <;> omega
  | cons b bs ih =>
    simp only [pack]
    split_ifs with h1
    · rw [List.length_append, toBytes_length, ih [] (by simp; omega)]
      simp only [List.length_nil, List.length_cons]
      rcases hn with rfl | rfl <;> omega
    · rw [ih (cur ++ [b]) (by simp; omega)]
      simp only [List.length_append, List.length_cons, List.length_nil]
      rcases hn with rfl | rfl <;> omega

theorem bitAt_head (n : Nat) (hn : n = 1 ∨ n = 8) (a X : List Byte) (j : Nat)
    (ha : a.length = n) (hj : j < 8 * n) :
    bitAt n (a ++ X) j = (fromBytes a).testBit j := by
  subst ha
  have h1 : j / (8 * a.length) = 0 := Nat.div_eq_of_lt hj
  have h2 : j % (8 * a.length) = j := Nat.mod_eq_of_lt hj
  simp only [bitAt, h1, h2, Nat.mul_zero, List.drop_zero, List.take_left]

theorem bitAt_tail (n : Nat) (hn : n = 1 ∨ n = 8) (a X : List Byte) (j : Nat)
    (ha : a.length = n) (hj : 8 * n ≤ j) :
    bitAt n (a ++ X) j = bitAt n X (j - 8 * n) := by
  have h1 : j / (8 * n) = (j - 8 * n) / (8 * n) + 1 := by
    rcases hn with rfl | rfl <;> omega
  have h2 : j % (8 * n) = (j - 8 * n) % (8 * n) := by
    rcases hn with rfl | rfl <;> omega
  have h3 : n * ((j - 8 * n) / (8 * n) + 1) = a.length + n * ((j - 8 * n) / (8 * n)) := by
    rw [ha]; ring
  simp only [bitAt, h1, h2, h3, List.drop_append]

theorem bitAt_pack (n : Nat) (hn : n = 1 ∨ n = 8) (bs cur : List Bool) (rest : List Byte)
    (j : Nat) (h : cur.length < 8 * n) (hj : j < cur.length + bs.length) :
    bitAt n (pack n cur bs ++ rest) j = (cur ++ bs).getD j false := by
  have hword : ∀ l : List Bool, l.length ≤ 8 * n →
      fromBytes (toBytes n (bitsToNat l)) = bitsToNat l := by
    intro l hl
    rw [fromBytes_toBytes]
    apply Nat.mod_eq_of_lt
    have h1 := bitsToNat_lt l
    have h2 : 2 ^ l.length ≤ 2 ^ (8 * n) := Nat.pow_le_pow_right (by norm_num) hl
    have h3 : (256 : Nat) ^ n = 2 ^ (8 * n) := by
      rw [pow_mul]; norm_num
    omega
  induction bs generalizing cur j with
  | nil =>
    simp only [List.length_nil, Nat.add_zero] at hj
    have hne : cur.isEmpty = false := by
      cases cur with
      | nil => simp at hj
      | cons c cur => rfl
    simp only [pack, hne, Bool.false_eq_true, if_false, List.append_nil]
    rw [bitAt_head n hn _ _ j (toBytes_length _ _) (by omega), hword cur (by omega),
      testBit_bitsToNat]
  | cons b bs ih =>
    simp only [pack]
    simp only [List.length_cons] at hj
    split_ifs with h1
    · rw [List.append_assoc]
      have hlen : (cur ++ [b]).length = 8 * n := by simp; omega
      rcases Nat.lt_or_ge j (8 * n) with hlt | hge
      · rw [bitAt_head n hn _ _ j (toBytes_length _ _) hlt, hword _ (by omega),
          testBit_bitsToNat]
        have : cur ++ b :: bs = (cur ++ [b]) ++ bs := by simp
        rw [this, List.getD_append (cur ++ [b]) bs false j (by omega)]
      · rw [bitAt_tail n hn _ _ j (toBytes_length _ _) hge,
          ih [] (j - 8 * n) (by simp; omega) (by simp only [List.length_nil]; omega)]
        have : cur ++ b :: bs = (cur ++ [b]) ++ bs := by simp
        rw [this, List.getD_append_right (cur ++ [b]) bs false j (by omega), hlen]
        simp
    · have := ih (cur ++ [b]) j (by simp; omega) (by simp; omega)
      simpa using this

/-! ## The reader on a stream of whole words -/

theorem reader_read_ok (n : Nat) (hn : n = 1 ∨ n = 8) (data : List Byte) (j : Nat)
    (h : n * (j / (8 * n) + 1) ≤ data.length) :
    BinaryReader.read n (readerAfter n data j).1 (readerAfter n data j).2 =
      (bitAt n data j, (readerAfter n data (j + 1)).1, (readerAfter n data (j + 1)).2) := by
  have hbit : ∀ x p : Nat, (x >>> p &&& 1 != 0) = x.testBit p := by
    intro x p
    simp [Nat.testBit, Nat.land_comm]
  have hsplit : ∀ k : Nat, k + n ≤ data.length →
      data.drop k = (data.drop k).take n ++ data.drop (k + n) := by
    intro k _
    rw [← List.drop_drop, List.take_append_drop]
  have htl : ∀ k : Nat, k + n ≤ data.length → ((data.drop k).take n).length = n := by
    intro k hk
    simp; omega
  by_cases h0 : j % (8 * n) = 0
  · have e1 : (j + 8 * n - 1) / (8 * n) = j / (8 * n) := by
      rcases hn with rfl | rfl <;> omega
    have e2 : (j + 1 + 8 * n - 1) / (8 * n) = j / (8 * n) + 1 := by
      rcases hn with rfl | rfl <;> omega
    have e3 : (j + 1 - 1) / (8 * n) = j / (8 * n) := by simp
    have e4 : (j + 1) % (8 * n) = 1 := by
      rcases hn with rfl | rfl <;> omega
    have e5 : ¬ (0 + 1 = 8 * n) := by
      rcases hn with rfl | rfl <;> omega
    have hk : n * (j / (8 * n)) + n ≤ data.length := by
      rw [Nat.mul_add, Nat.mul_one] at h; exact h
    simp only [BinaryReader.read, readerAfter, h0, if_true, e1, e2, e3, e4, e5, if_false,
      Nat.add_one_ne_zero, bitAt, hbit]
    rw [hsplit _ hk, Deserialize_exact n _ _ _ (htl _ hk)]
    simp only [Nat.mul_add, Nat.mul_one]
    rw [← hsplit _ hk]
  · have e1 : (j + 8 * n - 1) / (8 * n) = j / (8 * n) + 1 := by
      rcases hn with rfl | rfl <;> omega
    have e2 : (j + 1 + 8 * n - 1) / (8 * n) = j / (8 * n) + 1 := by
      rcases hn with rfl | rfl <;> omega
    have e3 : (j + 1 - 1) / (8 * n) = j / (8 * n) := by simp
    have e3' : (j - 1) / (8 * n) = j / (8 * n) := by
      rcases hn with rfl | rfl <;> omega
    have e4 : (if j % (8 * n) + 1 = 8 * n then 0 else j % (8 * n) + 1) = (j + 1) % (8 * n) := by
      rcases hn with rfl | rfl <;> split_ifs <;> omega
    have hj0 : j ≠ 0 := by
      rintro rfl; simp at h0
    simp only [BinaryReader.read, readerAfter, h0, if_false, e1, e2, e3, e3', e4, hj0,
      Nat.add_one_ne_zero, bitAt, hbit]

theorem reader_read_fail (n : Nat) (hn : n = 1 ∨ n = 8) (data : List Byte) (j : Nat)
    (h0 : j % (8 * n) = 0) (h : data.length < n * (j / (8 * n) + 1)) :
    (BinaryReader.read n (readerAfter n data j).1 (readerAfter n data j).2).2.2.failbit
      = true := by
  have e1 : (j + 8 * n - 1) / (8 * n) = j / (8 * n) := by
    rcases hn with rfl | rfl <;> omega
  simp only [BinaryReader.read, readerAfter, h0, if_true, e1]
  by_cases hle : n * (j / (8 * n)) ≤ data.length
  · rw [Deserialize_short]
    simp only [List.length_drop]
    rw [Nat.mul_add, Nat.mul_one] at h
    omega
  · have : data.drop (n * (j / (8 * n))) = [] := List.drop_eq_nil_of_le (by omega)
    rw [this, Deserialize_short]
    simp
    rcases hn with rfl | rfl <;> omega

theorem readerAfter_zero (n : Nat) (data : List Byte) :
    readerAfter n data 0 = (⟨0, 0⟩, ⟨data, false⟩) := by
  rcases Nat.eq_zero_or_pos n with rfl | hn
  · simp [readerAfter]
  · have : (8 * n - 1) / (8 * n) = 0 := by
      apply Nat.div_eq_of_lt; omega
    simp [readerAfter, this]

end Huffman

namespace Huffman

/-! ## The trie rebuilt from a code table -/

theorem subtree_null (p : List Bool) : subtree .null p = .null := by
  cases p <;> rfl

theorem subtree_nil (t : NodePtr) : subtree t [] = t := by
  cases t <;> rfl

theorem subtree_append (t : NodePtr) (p q : List Bool) :
    subtree t (p ++ q) = subtree (subtree t p) q := by
  induction p generalizing t with
  | nil => simp [subtree_nil]
  | cons b p ih =>
    cases t with
    | null => simp [subtree, subtree_null]
    | node l r c => cases b <;> simp [subtree, ih]

theorem ensure_child_ne_null (t : NodePtr) : ensure_child t ≠ .null := by
  cases t <;> simp [ensure_child, NodePtr.isNull, make_shared_Node]

theorem subtree_ensure_child (t : NodePtr) (p : List Bool) (hp : p ≠ []) :
    subtree (ensure_child t) p = subtree t p := by
  cases t with
  | null =>
    cases p with
    | nil => exact absurd rfl hp
    | cons b p => cases b <;> simp [ensure_child, NodePtr.isNull, make_shared_Node, subtree,
        subtree_null]
  | node l r c => simp [ensure_child, NodePtr.isNull]

theorem setByte_ensure_child (i : Byte) (t : NodePtr) :
    setByte i (ensure_child t) = setByte i t := by
  cases t <;> simp [ensure_child, NodePtr.isNull, make_shared_Node, setByte]

theorem insert_code_ne_null (code : List Bool) (i : Byte) (t : NodePtr) (ht : t ≠ .null) :
    insert_code code i t ≠ .null := by
  cases t with
  | null => exact absurd rfl ht
  | node l r c =>
    cases code with
    | nil => simp [insert_code]
    | cons b code => cases b <;> simp [insert_code]

theorem subtree_insert_code_self (code : List Bool) (i : Byte) (t : NodePtr) (ht : t ≠ .null) :
    subtree (insert_code code i t) code = setByte i (subtree t code) := by
  induction code generalizing t with
  | nil =>
    cases t with
    | null => exact absurd rfl ht
    | node l r c => simp [insert_code, subtree, setByte]
  | cons b code ih =>
    cases t with
    | null => exact absurd rfl ht
    | node l r c =>
      cases b
      · simp only [insert_code, subtree]
        rw [ih _ (ensure_child_ne_null l)]
        cases code with
        | nil => simp [subtree, setByte_ensure_child]
        | cons b' code' => rw [subtree_ensure_child _ _ (by simp)]
      · simp only [insert_code, subtree]
        rw [ih _ (ensure_child_ne_null r)]
        cases code with
        | nil => simp [subtree, setByte_ensure_child]
        | cons b' code' => rw [subtree_ensure_child _ _ (by simp)]

theorem subtree_insert_code_other (code : List Bool) (i : Byte) (t : NodePtr) (p : List Bool)
    (ht : t ≠ .null) (hp : ¬ p <+: code) :
    subtree (insert_code code i t) p = subtree t p := by
  induction code generalizing t p with
  | nil =>
    cases t with
    | null => exact absurd rfl ht
    | node l r c =>
      cases p with
      | nil => exact absurd (List.prefix_refl _) hp
      | cons b p => cases b <;> simp [insert_code, subtree]
  | cons b code ih =>
    cases t with
    | null => exact absurd rfl ht
    | node l r c =>
      cases p with
      | nil => exact absurd (List.nil_prefix) hp
      | cons b' p =>
        have hp' : b' = b → ¬ p <+: code := by
          rintro rfl h
          exact hp ((List.prefix_cons_inj _).2 h)
        have hne : b' = b → p ≠ [] := by
          rintro hb rfl
          exact hp' hb List.nil_prefix
        cases b <;> cases b' <;> simp only [insert_code, subtree]
        · rw [ih _ _ (ensure_child_ne_null l) (hp' rfl), subtree_ensure_child _ _ (hne rfl)]
        · rw [ih _ _ (ensure_child_ne_null r) (hp' rfl), subtree_ensure_child _ _ (hne rfl)]

/-- The loop of `build_trie_by_codes` over a list of bytes. -/
theorem build_trie_invariant (codes : Codes) (hpf : PrefixFree codes) (P : List Byte)
    (hP : P.Nodup) :
    let T := P.foldl (fun root i =>
        match codes i with
        | none => root
        | some code => insert_code code i root) make_shared_Node
    T ≠ .null ∧
    (∀ i ∈ P, ∀ code, codes i = some code → subtree T code = .node .null .null i) ∧
    (∀ p, subtree T p ≠ .null → p = [] ∨ ∃ i ∈ P, ∃ code, codes i = some code ∧ p <+: code) := by
  induction P using List.reverseRecOn with
  | nil =>
    refine ⟨by simp [make_shared_Node], by simp, ?_⟩
    intro p hp
    cases p with
    | nil => exact Or.inl rfl
    | cons b p => cases b <;> simp [make_shared_Node, subtree, subtree_null] at hp
  | append_singleton P i ih =>
    have hnd := List.nodup_append.1 hP
    obtain ⟨hT, hb, hc⟩ := ih hnd.1
    have hi : i ∉ P := fun h => hnd.2.2 h (List.mem_singleton_self i) 
    simp only [List.foldl_append, List.foldl_cons, List.foldl_nil]
    generalize P.foldl (fun root i =>
        match codes i with
        | none => root
        | some code => insert_code code i root) make_shared_Node = T at hT hb hc
    cases hci : codes i with
    | none =>
      refine ⟨hT, ?_, ?_⟩
      · intro j hj code hcj
        rcases List.mem_append.1 hj with h | h
        · exact hb j h code hcj
        · rw [List.mem_singleton.1 h, hci] at hcj; cases hcj
      · intro p hp
        rcases hc p hp with h | ⟨j, hj, code, h1, h2⟩
        · exact Or.inl h
        · exact Or.inr ⟨j, List.mem_append_left _ hj, code, h1, h2⟩
    | some ci =>
      refine ⟨insert_code_ne_null _ _ _ hT, ?_, ?_⟩
      · intro j hj code hcj
        rcases List.mem_append.1 hj with h | h
        · have hji : j ≠ i := fun e => hi (e ▸ h)
          rw [subtree_insert_code_other _ _ _ _ hT (hpf j i code ci hji hcj hci)]
          exact hb j h code hcj
        · have hji : j = i := List.mem_singleton.1 h
          subst hji
          rw [hci] at hcj
          cases hcj
          rw [subtree_insert_code_self _ _ _ hT]
          have hchild : ∀ b, subtree T (ci ++ [b]) = .null := by
            intro b
            by_contra hne
            rcases hc _ hne with h0 | ⟨k, hk, ck, h1, h2⟩
            · simp at h0
            · have hkj : j ≠ k := fun e => hi (e ▸ hk)
              exact hpf j k ci ck hkj hci h1 ((List.prefix_append ci [b]).trans h2)
          have hl := hchild false
          have hr := hchild true
          rw [subtree_append] at hl hr
          cases hsub : subtree T ci with
          | null => rfl
          | node l r c =>
            rw [hsub] at hl hr
            simp only [subtree] at hl hr
            simp [setByte, hl, hr]
      · intro p hp
        by_cases hpc : p <+: ci
        · exact Or.inr ⟨i, by simp, ci, hci, hpc⟩
        · rw [subtree_insert_code_other _ _ _ _ hT hpc] at hp
          rcases hc p hp with h | ⟨j, hj, code, h1, h2⟩
          · exact Or.inl h
          · exact Or.inr ⟨j, List.mem_append_left _ hj, code, h1, h2⟩

theorem build_trie_by_codes_subtree (codes : Codes) (hpf : PrefixFree codes) (i : Byte)
    (code : List Bool) (h : codes i = some code) :
    subtree (build_trie_by_codes codes) code = .node .null .null i := by
  have := build_trie_invariant codes hpf (List.finRange 256) (List.nodup_finRange 256)
  simp only [build_trie_by_codes, CHAR_MX]
  exact this.2.1 i (List.mem_finRange i) code h

end Huffman

namespace Huffman

/-! ## Decoding against a stream of 64-bit words -/

theorem reader64_ok (data : List Byte) (j : Nat) (h : 8 * (j / 64 + 1) ≤ data.length) :
    BinaryReader.read 8 (readerAfter 8 data j).1 (readerAfter 8 data j).2 =
      (bitAt 8 data j, (readerAfter 8 data (j + 1)).1, (readerAfter 8 data (j + 1)).2) :=
  reader_read_ok 8 (Or.inr rfl) data j h

theorem reader64_fail (data : List Byte) (j : Nat) (h0 : j % 64 = 0)
    (h : data.length < 8 * (j / 64 + 1)) :
    (BinaryReader.read 8 (readerAfter 8 data j).1 (readerAfter 8 data j).2).2.2.failbit
      = true :=
  reader_read_fail 8 (Or.inr rfl) data j h0 h

theorem readerAfter_failbit (n : Nat) (data : List Byte) (j : Nat) :
    (readerAfter n data j).2.failbit = false := rfl

theorem decode_walk_code (data : List Byte) (code : List Bool) (T : NodePtr) (c : Byte)
    (j : Nat) (hT : subtree T code = .node .null .null c)
    (hvalid : 8 * ((j + 63) / 64) ≤ data.length)
    (hbits : ∀ k, k < code.length → 8 * ((j + k) / 64 + 1) ≤ data.length →
      bitAt 8 data (j + k) = code.getD k false) :
    decode_walk T (readerAfter 8 data j).1 (readerAfter 8 data j).2 =
      if 8 * ((j + code.length + 63) / 64) ≤ data.length then
        .leaf c (readerAfter 8 data (j + code.length)).1 (readerAfter 8 data (j + code.length)).2
      else .thrown := by
  induction code generalizing T j with
  | nil =>
    rw [subtree_nil] at hT
    subst hT
    simp [decode_walk, NodePtr.isNull, hvalid]
  | cons b code ih =>
    cases T with
    | null => simp [subtree] at hT
    | node l r c0 =>
      have hchild : (l.isNull && r.isNull) = false := by
        cases b
        · simp only [subtree] at hT
          cases l with
          | null => rw [subtree_null] at hT; cases hT
          | node _ _ _ => simp [NodePtr.isNull]
        · simp only [subtree] at hT
          cases r with
          | null => rw [subtree_null] at hT; cases hT
          | node _ _ _ => simp [NodePtr.isNull]
      simp only [decode_walk, hchild, Bool.false_eq_true, if_false]
      by_cases hav : 8 * (j / 64 + 1) ≤ data.length
      · rw [reader64_ok data j hav]
        simp only [readerAfter_failbit, Bool.false_eq_true, if_false]
        have hb : bitAt 8 data j = b := by
          have := hbits 0 (by simp) (by simpa using hav)
          simpa using this
        have hrec : ∀ t, subtree t code = .node .null .null c →
            decode_walk t (readerAfter 8 data (j + 1)).1 (readerAfter 8 data (j + 1)).2 =
            if 8 * ((j + (b :: code).length + 63) / 64) ≤ data.length then
              .leaf c (readerAfter 8 data (j + (b :: code).length)).1
                (readerAfter 8 data (j + (b :: code).length)).2
            else .thrown := by
          intro t ht
          have := ih t (j + 1) ht (by omega) (by
            intro k hk hk2
            have := hbits (k + 1) (by simp; omega) (by
              have e : j + (k + 1) = j + 1 + k := by omega
              rw [e]; exact hk2)
            have e : j + (k + 1) = j + 1 + k := by omega
            rw [e] at this
            simpa using this)
          have e : j + 1 + code.length = j + (b :: code).length := by simp; omega
          rw [e] at this
          exact this
        rw [hb]
        cases b
        · simp only [Bool.not_false, if_true]
          exact hrec l (by simpa [subtree] using hT)
        · simp only [Bool.not_true, Bool.false_eq_true, if_false]
          exact hrec r (by simpa [subtree] using hT)
      · have h0 : j % 64 = 0 := by omega
        rw [reader64_fail data j h0 (by omega)]
        have : ¬ 8 * ((j + (b :: code).length + 63) / 64) ≤ data.length := by
          simp only [List.length_cons]; omega
        rw [if_neg this]
        simp

theorem Serialize_byte (c : Byte) (out : List Byte) : Serialize 1 c.val out = out ++ [c] := by
  simp only [Serialize, toBytes]
  congr 2
  apply Fin.ext
  simp [Fin.ofNat]

theorem encodeBits_length_cons (codes : Codes) (c : Byte) (rest : List Byte) :
    (encodeBits codes (c :: rest)).length =
      ((codes c).getD []).length + (encodeBits codes rest).length := by
  simp [encodeBits]

theorem readerAfter_get (data : List Byte) (j : Nat) :
    ((readerAfter 8 data j).2.get).failbit = decide (data.length ≤ 8 * ((j + 63) / 64)) := by
  have e : (j + 8 * 8 - 1) / (8 * 8) = (j + 63) / 64 := by omega
  simp only [readerAfter, IStream.get, Bool.false_eq_true, if_false, e]
  by_cases h : data.length ≤ 8 * ((j + 63) / 64)
  · rw [List.drop_eq_nil_of_le h]
    simp [h]
  · cases hd : data.drop (8 * ((j + 63) / 64)) with
    | nil =>
      have := List.drop_eq_nil_iff.1 hd
      exact absurd this h
    | cons x xs => simp [h]

theorem decode_loop_codes (data : List Byte) (codes : Codes) (T : NodePtr)
    (hT : ∀ c code, codes c = some code → subtree T code = .node .null .null c)
    (syms : List Byte) (hsyms : ∀ c ∈ syms, (codes c).isSome) (j : Nat) (out : List Byte)
    (hvalid : 8 * ((j + 63) / 64) ≤ data.length)
    (hbits : ∀ k, k < (encodeBits codes syms).length → 8 * ((j + k) / 64 + 1) ≤ data.length →
      bitAt 8 data (j + k) = (encodeBits codes syms).getD k false) :
    (8 * ((j + (encodeBits codes syms).length + 63) / 64) ≤ data.length →
      decode_loop T syms.length (readerAfter 8 data j).1 (readerAfter 8 data j).2 out =
        if data.length ≤ 8 * ((j + (encodeBits codes syms).length + 63) / 64) then
          (.done, out ++ syms)
        else (.DecodeInputException, out ++ syms)) ∧
    (¬ 8 * ((j + (encodeBits codes syms).length + 63) / 64) ≤ data.length →
      (decode_loop T syms.length (readerAfter 8 data j).1 (readerAfter 8 data j).2 out).1 =
        .DecodeInputException) := by
  induction syms generalizing j out with
  | nil =>
    simp only [encodeBits, List.length_nil, Nat.add_zero, decode_loop, readerAfter_get,
      List.append_nil, decide_eq_true_eq]
    exact ⟨fun _ => trivial, fun h => absurd hvalid h⟩
  | cons c syms ih =>
    obtain ⟨code, hcode⟩ := Option.isSome_iff_exists.1 (hsyms c (by simp))
    have henc : encodeBits codes (c :: syms) = code ++ encodeBits codes syms := by
      simp [encodeBits, hcode]
    rw [henc] at hbits ⊢
    have hw := decode_walk_code data code T c j (hT c code hcode) hvalid (by
      intro k hk hk2
      have := hbits k (by simp; omega) hk2
      rw [this, List.getD_append _ _ _ _ hk])
    simp only [List.length_cons, decode_loop, hw, List.length_append]
    by_cases h1 : 8 * ((j + code.length + 63) / 64) ≤ data.length
    · simp only [h1, if_true]
      have := ih (fun x hx => hsyms x (by simp [hx])) (j + code.length)
        (Serialize 1 c.val out) h1 (by
          intro k hk hk2
          have e : j + code.length + k = j + (code.length + k) := by omega
          rw [e] at hk2 ⊢
          have := hbits (code.length + k) (by simp; omega) hk2
          rw [this, List.getD_append_right _ _ _ _ (by omega)]
          simp)
      have e : j + code.length + (encodeBits codes syms).length
          = j + (code.length + (encodeBits codes syms).length) := by omega
      rw [e] at this
      rw [Serialize_byte] at this ⊢
      simpa using this
    · have h2 : ¬ 8 * ((j + (code.length + (encodeBits codes syms).length) + 63) / 64)
          ≤ data.length := by omega
      simp [h1, h2]

end Huffman

namespace Huffman

/-! ## The code table of a tree -/

theorem calculate_codes_eq (t : NodePtr) (code : List Bool) (codes : Codes) :
    calculate_codes t code codes = (code, storeCodes (codesOf t code) codes) := by
  induction t generalizing code codes with
  | null => simp [calculate_codes, codesOf, storeCodes]
  | node l r c ihl ihr =>
    simp only [calculate_codes, codesOf]
    split_ifs with h
    · simp [storeCodes]
    · simp only [ihl, ihr, List.dropLast_concat, storeCodes, List.foldl_append]

theorem codesOf_fst (t : NodePtr) (code : List Bool) :
    (codesOf t code).map Prod.fst = leaves t := by
  induction t generalizing code with
  | null => simp [codesOf, leaves]
  | node l r c ihl ihr =>
    simp only [codesOf, leaves]
    split_ifs with h
    · simp
    · simp [ihl, ihr]

theorem codesOf_subtree (t : NodePtr) (code : List Bool) (c : Byte) (x : List Bool)
    (h : (c, x) ∈ codesOf t code) :
    ∃ p, x = code ++ p ∧ subtree t p = .node .null .null c := by
  induction t generalizing code with
  | null => simp [codesOf] at h
  | node l r c0 ihl ihr =>
    simp only [codesOf] at h
    split_ifs at h with hleaf
    · simp only [List.mem_singleton, Prod.mk.injEq] at h
      obtain ⟨rfl, rfl⟩ := h
      refine ⟨[], by simp, ?_⟩
      cases l <;> cases r <;> simp [NodePtr.isNull] at hleaf
      rfl
    · rcases List.mem_append.1 h with h1 | h1
      · obtain ⟨p, hp, hs⟩ := ihl _ h1
        exact ⟨false :: p, by simp [hp], by simpa [subtree] using hs⟩
      · obtain ⟨p, hp, hs⟩ := ihr _ h1
        exact ⟨true :: p, by simp [hp], by simpa [subtree] using hs⟩

theorem storeCodes_not_mem (es : List (Byte × List Bool)) (codes : Codes) (c : Byte)
    (h : c ∉ es.map Prod.fst) : storeCodes es codes c = codes c := by
  induction es generalizing codes with
  | nil => rfl
  | cons e es ih =>
    simp only [List.map_cons, List.mem_cons, not_or] at h
    simp only [storeCodes, List.foldl_cons] at ih ⊢
    rw [ih _ h.2, Function.update_noteq h.1]

theorem storeCodes_mem (es : List (Byte × List Bool)) (codes : Codes) (c : Byte)
    (x : List Bool) (hnd : (es.map Prod.fst).Nodup) (h : (c, x) ∈ es) :
    storeCodes es codes c = some x := by
  induction es generalizing codes with
  | nil => simp at h
  | cons e es ih =>
    simp only [List.map_cons, List.nodup_cons] at hnd
    simp only [storeCodes, List.foldl_cons] at ih ⊢
    rcases List.mem_cons.1 h with h1 | h1
    · subst h1
      have := storeCodes_not_mem es (Function.update codes c (some x)) c hnd.1
      simp only [storeCodes] at this
      rw [this, Function.update_same]
    · exact ih _ hnd.2 h1

theorem storeCodes_some (es : List (Byte × List Bool)) (c : Byte) (x : List Bool)
    (hnd : (es.map Prod.fst).Nodup) (h : storeCodes es (fun _ => none) c = some x) :
    (c, x) ∈ es := by
  by_cases hc : c ∈ es.map Prod.fst
  · obtain ⟨e, he, rfl⟩ := List.mem_map.1 hc
    have := storeCodes_mem es (fun _ => none) e.1 e.2 hnd he
    rw [this] at h
    cases h
    exact he
  · rw [storeCodes_not_mem es _ c hc] at h
    cases h

/-- The code table `compress` computes from a tree. -/
theorem treeCodes_some_iff (t : NodePtr) (hnd : (leaves t).Nodup) (c : Byte) (x : List Bool) :
    (calculate_codes t [] (fun _ => none)).2 c = some x ↔ (c, x) ∈ codesOf t [] := by
  rw [calculate_codes_eq]
  have hnd' : ((codesOf t []).map Prod.fst).Nodup := by rw [codesOf_fst]; exact hnd
  exact ⟨storeCodes_some _ c x hnd', storeCodes_mem _ _ c x hnd'⟩

theorem treeCodes_isSome_iff (t : NodePtr) (hnd : (leaves t).Nodup) (c : Byte) :
    ((calculate_codes t [] (fun _ => none)).2 c).isSome ↔ c ∈ leaves t := by
  rw [Option.isSome_iff_exists]
  constructor
  · rintro ⟨x, hx⟩
    have := (treeCodes_some_iff t hnd c x).1 hx
    rw [← codesOf_fst t []]
    exact List.mem_map.2 ⟨(c, x), this, rfl⟩
  · intro h
    rw [← codesOf_fst t []] at h
    obtain ⟨e, he, rfl⟩ := List.mem_map.1 h
    exact ⟨e.2, (treeCodes_some_iff t hnd e.1 e.2).2 he⟩

theorem subtree_leaf (c : Byte) (q : List Bool) (d : Byte)
    (h : subtree (.node .null .null c) q = .node .null .null d) : q = [] ∧ c = d := by
  cases q with
  | nil =>
    simp only [subtree] at h
    injection h with _ _ h3
    exact ⟨rfl, h3⟩
  | cons b q => cases b <;> simp [subtree, subtree_null] at h

theorem treeCodes_prefixFree (t : NodePtr) (hnd : (leaves t).Nodup) :
    PrefixFree (calculate_codes t [] (fun _ => none)).2 := by
  intro a b x y hab hx hy hpre
  obtain ⟨p, hp, hsp⟩ := codesOf_subtree t [] a x ((treeCodes_some_iff t hnd a x).1 hx)
  obtain ⟨p', hp', hsp'⟩ := codesOf_subtree t [] b y ((treeCodes_some_iff t hnd b y).1 hy)
  simp only [List.nil_append] at hp hp'
  subst hp hp'
  obtain ⟨q, rfl⟩ := hpre
  rw [subtree_append, hsp] at hsp'
  exact hab (subtree_leaf a q b hsp').2

theorem Full_ne_null (t : NodePtr) (h : Full t) : t ≠ .null := by
  rintro rfl
  exact h

theorem Full_leaves_pos (t : NodePtr) (h : Full t) : 0 < (leaves t).length := by
  induction t with
  | null => exact absurd h (by simp [Full])
  | node l r c ihl ihr =>
    simp only [leaves]
    split_ifs with hl
    · simp
    · simp only [Full] at h
      rcases h with ⟨rfl, rfl⟩ | ⟨h1, h2⟩
      · simp [NodePtr.isNull] at hl
      · have := ihl h1
        simp only [List.length_append]
        omega

theorem codesOf_length_le (t : NodePtr) (h : Full t) (code : List Bool) (c : Byte)
    (x : List Bool) (hx : (c, x) ∈ codesOf t code) :
    x.length + 1 ≤ code.length + (leaves t).length := by
  induction t generalizing code with
  | null => exact absurd h (by simp [Full])
  | node l r c0 ihl ihr =>
    simp only [codesOf, leaves] at hx ⊢
    split_ifs at hx ⊢ with hl
    · simp only [List.mem_singleton, Prod.mk.injEq] at hx
      simp [hx.2]
    · simp only [Full] at h
      rcases h with ⟨rfl, rfl⟩ | ⟨h1, h2⟩
      · simp [NodePtr.isNull] at hl
      · have p1 := Full_leaves_pos l h1
        have p2 := Full_leaves_pos r h2
        simp only [List.length_append]
        rcases List.mem_append.1 hx with hx1 | hx1
        · have := ihl h1 _ hx1
          simp only [List.length_append, List.length_singleton] at this
          omega
        · have := ihr h2 _ hx1
          simp only [List.length_append, List.length_singleton] at this
          omega

theorem nodup_bytes_length (l : List Byte) (h : l.Nodup) : l.length ≤ 256 := by
  have := List.Nodup.length_le_card h
  rw [Fintype.card_fin] at this
  exact this

theorem treeCodes_length_le (t : NodePtr) (h : Full t) (hnd : (leaves t).Nodup) (c : Byte)
    (x : List Bool) (hx : (calculate_codes t [] (fun _ => none)).2 c = some x) :
    x.length + 1 ≤ (leaves t).length := by
  have := codesOf_length_le t h [] c x ((treeCodes_some_iff t hnd c x).1 hx)
  simpa using this

end Huffman

namespace Huffman

/-! ## The priority queue and the merge loop -/

theorem maxPrior_ge (q : PQ) : ∀ e ∈ q, e.1 ≤ maxPrior q := by
  induction q with
  | nil => simp
  | cons a q ih =>
    cases q with
    | nil => simp [maxPrior]
    | cons b q =>
      intro e he
      show e.1 ≤ max a.1 (maxPrior (b :: q))
      rcases List.mem_cons.1 he with h | h
      · subst h; exact le_max_left _ _
      · exact le_trans (ih e h) (le_max_right _ _)

theorem maxPrior_mem (q : PQ) (h : q ≠ []) : ∃ e ∈ q, e.1 = maxPrior q := by
  induction q with
  | nil => exact absurd rfl h
  | cons a q ih =>
    cases q with
    | nil => exact ⟨a, by simp, by simp [maxPrior]⟩
    | cons b q =>
      show ∃ e ∈ a :: b :: q, e.1 = max a.1 (maxPrior (b :: q))
      rcases le_total a.1 (maxPrior (b :: q)) with h1 | h1
      · obtain ⟨e, he, hm⟩ := ih (by simp)
        exact ⟨e, List.mem_cons_of_mem _ he, by rw [max_eq_right h1, hm]⟩
      · exact ⟨a, by simp, by rw [max_eq_left h1]⟩

theorem pq_top_mem_filter (tie : TieBreak) (q : PQ) (h : q ≠ []) :
    pq_top tie q ∈ q.filter (fun e => e.1 = maxPrior q) := by
  obtain ⟨e, he, hm⟩ := maxPrior_mem q h
  have hpos : 0 < (q.filter (fun e => e.1 = maxPrior q)).length := by
    apply List.length_pos_of_mem (a := e)
    simp [List.mem_filter, he, hm]
  have hlt := Nat.mod_lt (tie q) hpos
  unfold pq_top
  rw [List.getD_eq_getElem _ _ hlt]
  exact List.getElem_mem _

theorem pq_top_mem (tie : TieBreak) (q : PQ) (h : q ≠ []) : pq_top tie q ∈ q :=
  (List.mem_filter.1 (pq_top_mem_filter tie q h)).1

theorem pq_top_max (tie : TieBreak) (q : PQ) (h : q ≠ []) : ∀ e ∈ q, e.1 ≤ (pq_top tie q).1 := by
  intro e he
  have := (List.mem_filter.1 (pq_top_mem_filter tie q h)).2
  simp only [decide_eq_true_eq] at this
  rw [this]
  exact maxPrior_ge q e he

theorem pq_erase_perm (e : Int × NodePtr) (q : PQ) (h : e ∈ q) :
    q.Perm (e :: pq_erase e q) := by
  induction q with
  | nil => simp at h
  | cons x q ih =>
    simp only [pq_erase]
    split_ifs with hx
    · rw [hx]
    · have : e ∈ q := by
        rcases List.mem_cons.1 h with h1 | h1
        · exact absurd h1.symm hx
        · exact h1
      exact (List.Perm.cons x (ih this)).trans (List.Perm.swap e x _)

/-- What one iteration of the merge loop does to the queue. -/
theorem merge_step_spec (tie : TieBreak) (q : PQ) (h : 2 ≤ q.length) :
    ∃ a b q2, q.Perm (a :: b :: q2) ∧
      merge_step tie q = q2 ++ [(toLongLong (a.1 + b.1), NodePtr.node a.2 b.2 0)] ∧
      (∀ e ∈ q, e.1 ≤ a.1) ∧ (∀ e ∈ b :: q2, e.1 ≤ b.1) := by
  have hq : q ≠ [] := by
    rintro rfl; simp at h
  have ha := pq_top_mem tie q hq
  have hp1 : q.Perm (pq_top tie q :: pq_pop tie q) := pq_erase_perm _ _ ha
  have hlen : (pq_pop tie q).length + 1 = q.length := by
    have := hp1.length_eq
    simp only [List.length_cons] at this
    omega
  have hq1 : pq_pop tie q ≠ [] := by
    intro h0
    rw [h0] at hlen
    simp at hlen
    omega
  have hb := pq_top_mem tie (pq_pop tie q) hq1
  have hp2 : (pq_pop tie q).Perm (pq_top tie (pq_pop tie q) :: pq_pop tie (pq_pop tie q)) :=
    pq_erase_perm _ _ hb
  refine ⟨pq_top tie q, pq_top tie (pq_pop tie q), pq_pop tie (pq_pop tie q),
    hp1.trans (List.Perm.cons _ hp2), rfl, pq_top_max tie q hq, ?_⟩
  intro e he
  exact pq_top_max tie (pq_pop tie q) hq1 e (hp2.symm.subset he)

theorem merge_step_length (tie : TieBreak) (q : PQ) (h : 2 ≤ q.length) :
    (merge_step tie q).length + 1 = q.length := by
  obtain ⟨a, b, q2, hp, hm, _, _⟩ := merge_step_spec tie q h
  rw [hm, hp.length_eq]
  simp

/-- Induction over the merge loop: a property of the queue that every iteration keeps holds
of the queue the loop ends with, and the loop ends within the fuel. -/
theorem build_loop_induct (tie : TieBreak) (I : PQ → Prop)
    (hstep : ∀ q, 2 ≤ q.length → I q → I (merge_step tie q)) :
    ∀ (fuel : Nat) (q : PQ), q ≠ [] → q.length ≤ fuel + 1 → I q →
      ∃ e, build_loop tie fuel q = some [e] ∧ I [e] := by
  intro fuel
  induction fuel with
  | zero =>
    intro q hq hlen hI
    match q, hq, hlen with
    | [e], _, _ => exact ⟨e, by simp [build_loop], hI⟩
    | _ :: _ :: _, _, hlen => simp at hlen
  | succ fuel ih =>
    intro q hq hlen hI
    by_cases h2 : 2 ≤ q.length
    · have hl := merge_step_length tie q h2
      have hne : merge_step tie q ≠ [] := by
        obtain ⟨a, b, q2, _, hm, _, _⟩ := merge_step_spec tie q h2
        rw [hm]; simp
      obtain ⟨e, he, hIe⟩ := ih (merge_step tie q) hne (by omega) (hstep q h2 hI)
      refine ⟨e, ?_, hIe⟩
      rw [build_loop, if_pos (by omega), he]
    · match q, hq, h2 with
      | [e], _, _ => exact ⟨e, by simp [build_loop], hI⟩
      | _ :: _ :: _, _, h2 => simp at h2

theorem initial_queue_eq (freq : Freq) :
    initial_queue freq =
      (support freq).map (fun i => (toLongLong (-(freq i : Int)), NodePtr.node .null .null i)) := by
  have key : ∀ (l : List Byte) (acc : PQ),
      l.foldl (fun q i => if freq i = 0 then q
        else q ++ [(toLongLong (-(freq i : Int)), NodePtr.node .null .null i)]) acc =
      acc ++ (l.filter (fun i => freq i ≠ 0)).map
        (fun i => (toLongLong (-(freq i : Int)), NodePtr.node .null .null i)) := by
    intro l
    induction l with
    | nil => simp
    | cons x l ih =>
      intro acc
      rw [List.foldl_cons, ih]
      by_cases hx : freq x = 0
      · simp [hx]
      · simp [hx]
  rw [initial_queue, key, support]
  simp

theorem support_nodup (freq : Freq) : (support freq).Nodup :=
  (List.nodup_finRange 256).filter _

theorem mem_support (freq : Freq) (b : Byte) : b ∈ support freq ↔ freq b ≠ 0 := by
  simp [support, List.mem_filter, List.mem_finRange]

theorem queueLeaves_append (q1 q2 : PQ) :
    queueLeaves (q1 ++ q2) = queueLeaves q1 ++ queueLeaves q2 := by
  induction q1 with
  | nil => rfl
  | cons e q ih => simp [queueLeaves, ih]

theorem queueLeaves_perm (q1 q2 : PQ) (h : q1.Perm q2) :
    (queueLeaves q1).Perm (queueLeaves q2) := by
  induction h with
  | nil => exact List.Perm.refl _
  | cons x _ ih => exact List.Perm.append_left _ ih
  | swap x y l =>
    simp only [queueLeaves, ← List.append_assoc]
    exact List.Perm.append_right _ List.perm_append_comm
  | trans _ _ ih1 ih2 => exact ih1.trans ih2

theorem leaves_node_full (l r : NodePtr) (c : Byte) (hl : Full l) :
    leaves (.node l r c) = leaves l ++ leaves r := by
  cases l with
  | null => exact absurd hl (by simp [Full])
  | node _ _ _ => simp [leaves, NodePtr.isNull]

theorem ShapeInv_initial (freq : Freq) : ShapeInv freq (initial_queue freq) := by
  rw [initial_queue_eq]
  constructor
  · intro e he
    obtain ⟨i, _, rfl⟩ := List.mem_map.1 he
    simp [Full]
  · have : ∀ l : List Byte, queueLeaves (l.map
        (fun i => (toLongLong (-(freq i : Int)), NodePtr.node .null .null i))) = l := by
      intro l
      induction l with
      | nil => rfl
      | cons x l ih => simp [queueLeaves, leaves, NodePtr.isNull, ih]
    rw [this]

theorem ShapeInv_step (freq : Freq) (tie : TieBreak) (q : PQ) (h : 2 ≤ q.length)
    (hI : ShapeInv freq q) : ShapeInv freq (merge_step tie q) := by
  obtain ⟨a, b, q2, hp, hm, _, _⟩ := merge_step_spec tie q h
  obtain ⟨hfull, hleaves⟩ := hI
  have ha : Full a.2 := hfull a (hp.symm.subset (by simp))
  have hb : Full b.2 := hfull b (hp.symm.subset (by simp))
  rw [hm]
  constructor
  · intro e he
    rcases List.mem_append.1 he with h1 | h1
    · exact hfull e (hp.symm.subset (by simp [h1]))
    · rw [List.mem_singleton.1 h1]
      exact Or.inr ⟨ha, hb⟩
  · refine List.Perm.trans ?_ ((queueLeaves_perm _ _ hp).symm.trans hleaves)
    rw [queueLeaves_append]
    simp only [queueLeaves, leaves_node_full _ _ _ ha, List.append_nil]
    have := @List.perm_append_comm _ (queueLeaves q2) (leaves a.2 ++ leaves b.2)
    simpa [List.append_assoc] using this

/-- The tree `build_trie_by_freq` returns; the merge loop always ends within its fuel. -/
theorem build_trie_by_freq_spec (tie : TieBreak) (freq : Freq) :
    ∃ root, build_trie_by_freq tie freq = some root ∧
      ((support freq = [] ∧ root = .null) ∨
       (support freq ≠ [] ∧ Full root ∧ (leaves root).Perm (support freq))) := by
  by_cases hs : support freq = []
  · refine ⟨.null, ?_, Or.inl ⟨hs, rfl⟩⟩
    simp [build_trie_by_freq, initial_queue_eq, hs]
  · have hne : initial_queue freq ≠ [] := by
      rw [initial_queue_eq]; simpa using hs
    have hlen : (initial_queue freq).length ≤ CHAR_MX + 1 := by
      rw [initial_queue_eq, List.length_map]
      have := nodup_bytes_length _ (support_nodup freq)
      simp only [CHAR_MX]; omega
    obtain ⟨e, he, hfull, hperm⟩ := build_loop_induct tie (ShapeInv freq)
      (ShapeInv_step freq tie) CHAR_MX (initial_queue freq) hne hlen (ShapeInv_initial freq)
    have htop : pq_top tie [e] = e := by
      have := pq_top_mem tie [e] (by simp)
      simpa using this
    refine ⟨e.2, ?_, Or.inr ⟨hs, hfull e (by simp), ?_⟩⟩
    · have hem : (initial_queue freq).isEmpty = false := by
        cases h : initial_queue freq with
        | nil => exact absurd h hne
        | cons _ _ => rfl
      simp [build_trie_by_freq, hem, he, htop]
    · simpa [queueLeaves] using hperm

end Huffman

namespace Huffman

/-! ## The header: what is written and what is read back -/

theorem toBytes_one_byte (c : Byte) : toBytes 1 c.val = [c] := by
  have := Serialize_byte c []
  simpa [Serialize] using this

theorem write_code_eq (code : List Bool) (out : List Byte) :
    write_code code out = out ++ pack 1 [] code := by
  have := writer_spec 1 (by norm_num) code out [] (by simp)
  simpa [write_code, bitsToNat] using this

theorem write_coding_table_eq (codes : Codes) (out : List Byte) :
    write_coding_table codes out = out ++ headerBytes codes := by
  have hsz : ∀ (l : List Byte) (acc : Nat),
      l.foldl (fun sz i => if (codes i).isSome then sz + 1 else sz) acc =
        acc + (l.filterMap (fun i => (codes i).map (fun code => (i, code)))).length := by
    intro l
    induction l with
    | nil => simp
    | cons x l ih =>
      intro acc
      rw [List.foldl_cons, ih]
      cases hx : codes x <;> simp [List.filterMap_cons, hx]
      omega
  have hbody : ∀ (l : List Byte) (acc : List Byte),
      l.foldl (fun out i =>
        match codes i with
        | none => out
        | some code => write_code code (Serialize 8 code.length (Serialize 1 i.val out))) acc =
        acc ++ ((l.filterMap (fun i => (codes i).map (fun code => (i, code)))).map
          entryBytes).flatten := by
    intro l
    induction l with
    | nil => simp
    | cons x l ih =>
      intro acc
      rw [List.foldl_cons, ih]
      cases hx : codes x with
      | none => simp [List.filterMap_cons, hx]
      | some code =>
        simp [List.filterMap_cons, hx, write_code_eq, Serialize, toBytes_one_byte, entryBytes]
  unfold write_coding_table
  rw [hsz]
  refine Eq.trans (hbody _ _) ?_
  simp [headerBytes, entriesOf, Serialize]

theorem read_code_bits_pack (code : List Bool) (more : List Byte) (k j : Nat)
    (acc : List Bool) (hjk : j + k = code.length) :
    read_code_bits k (readerAfter 1 (pack 1 [] code ++ more) j).1
      (readerAfter 1 (pack 1 [] code ++ more) j).2 acc =
      some (acc ++ code.drop j, ⟨more, false⟩) := by
  have hlen : (pack 1 [] code).length = (code.length + 7) / 8 := by
    have := pack_length 1 (Or.inl rfl) code [] (by simp)
    simpa using this
  induction k generalizing j acc with
  | zero =>
    have hj : j = code.length := by omega
    subst hj
    simp only [read_code_bits, List.drop_length, List.append_nil, readerAfter]
    have e : 1 * ((code.length + 8 * 1 - 1) / (8 * 1)) = (pack 1 [] code).length := by
      rw [hlen]; omega
    rw [e, List.drop_left]
  | succ k ih =>
    have hj : j < code.length := by omega
    have hok := reader_read_ok 1 (Or.inl rfl) (pack 1 [] code ++ more) j (by
      rw [List.length_append, hlen]; omega)
    simp only [read_code_bits, hok, readerAfter_failbit, Bool.false_eq_true, if_false]
    rw [ih (j + 1) _ (by omega)]
    have hb : bitAt 1 (pack 1 [] code ++ more) j = code[j] := by
      rw [bitAt_pack 1 (Or.inl rfl) code [] more j (by simp) (by simpa using hj)]
      simp [hj]
    rw [hb, List.append_assoc]
    simp

theorem read_entries_spec (es : List (Byte × List Bool)) (rest : List Byte) (codes : Codes)
    (hlen : ∀ e ∈ es, e.2.length ≤ 256) :
    read_entries es.length ⟨(es.map entryBytes).flatten ++ rest, false⟩ codes =
      some (storeCodes es codes, ⟨rest, false⟩) := by
  induction es generalizing codes with
  | nil => simp [read_entries, storeCodes]
  | cons e es ih =>
    have hl : e.2.length ≤ 256 := hlen e (by simp)
    have hmod : e.2.length % 256 ^ 8 = e.2.length := Nat.mod_eq_of_lt (by omega)
    have hstream : ((e :: es).map entryBytes).flatten ++ rest =
        e.1 :: (toBytes 8 e.2.length ++ (pack 1 [] e.2 ++ ((es.map entryBytes).flatten ++ rest))) := by
      simp [entryBytes]
    have hbits := read_code_bits_pack e.2 ((es.map entryBytes).flatten ++ rest) e.2.length 0 []
      (by simp)
    rw [readerAfter_zero] at hbits
    simp only [List.drop_zero, List.nil_append] at hbits
    have hnot : ¬ e.2.length > CHAR_MX := by simp only [CHAR_MX]; omega
    simp only [List.length_cons, read_entries, hstream, Deserialize_uchar_cons,
      Deserialize_toBytes, hmod, Bool.false_eq_true, false_or, decide_eq_true_eq, hnot,
      if_false, hbits]
    rw [ih _ (fun x hx => hlen x (by simp [hx]))]
    simp [storeCodes]

theorem entriesOf_fst_nodup (codes : Codes) : ((entriesOf codes).map Prod.fst).Nodup := by
  have : (entriesOf codes).map Prod.fst = (List.finRange 256).filter (fun i => (codes i).isSome) := by
    unfold entriesOf
    generalize List.finRange 256 = l
    induction l with
    | nil => rfl
    | cons x l ih =>
      cases hx : codes x <;> simp [List.filterMap_cons, List.filter_cons, hx, ih]
  rw [this]
  exact (List.nodup_finRange 256).filter _

theorem mem_entriesOf (codes : Codes) (c : Byte) (x : List Bool) :
    (c, x) ∈ entriesOf codes ↔ codes c = some x := by
  unfold entriesOf
  rw [List.mem_filterMap]
  constructor
  · rintro ⟨i, _, h⟩
    cases hi : codes i with
    | none => rw [hi] at h; cases h
    | some y =>
      rw [hi] at h
      simp only [Option.map_some', Option.some.injEq, Prod.mk.injEq] at h
      rw [← h.1, ← h.2, hi]
  · intro h
    exact ⟨c, List.mem_finRange c, by rw [h]; rfl⟩

theorem storeCodes_entriesOf (codes : Codes) :
    storeCodes (entriesOf codes) (fun _ => none) = codes := by
  funext c
  cases hc : codes c with
  | none =>
    rw [storeCodes_not_mem]
    intro hmem
    obtain ⟨e, he, rfl⟩ := List.mem_map.1 hmem
    have := (mem_entriesOf codes e.1 e.2).1 he
    rw [hc] at this
    cases this
  | some x =>
    exact storeCodes_mem _ _ c x (entriesOf_fst_nodup codes) ((mem_entriesOf codes c x).2 hc)

theorem entriesOf_length_le (codes : Codes) : (entriesOf codes).length ≤ 256 := by
  have := nodup_bytes_length _ (entriesOf_fst_nodup codes)
  rw [List.length_map] at this
  exact this

/-- The header `write_coding_table` writes is read back by `read_coding_table`, which leaves
the stream right behind it. -/
theorem read_coding_table_header (codes : Codes) (rest : List Byte)
    (hlen : ∀ c x, codes c = some x → x.length ≤ 256) :
    read_coding_table ⟨headerBytes codes ++ rest, false⟩ (fun _ => none) =
      some (codes, ⟨rest, false⟩) := by
  have h1 := entriesOf_length_le codes
  have hmod : (entriesOf codes).length % 256 ^ 8 = (entriesOf codes).length :=
    Nat.mod_eq_of_lt (by omega)
  have hnot : ¬ (entriesOf codes).length > CHAR_MX := by simp only [CHAR_MX]; omega
  unfold read_coding_table headerBytes
  rw [List.append_assoc, Deserialize_toBytes, hmod]
  dsimp only
  rw [if_neg (by rw [Bool.false_or, decide_eq_true_eq]; exact hnot)]
  rw [read_entries_spec _ _ _ (fun e he => hlen e.1 e.2 ((mem_entriesOf codes e.1 e.2).1 he)),
    storeCodes_entriesOf]

/-! ## What `compress` writes -/

theorem calculate_frequencies_loop_eq (l : List Byte) (freq : Freq) (sz : Nat)
    (hf : ∀ b, freq b + l.count b < 2 ^ 64) (hs : sz + l.length < 2 ^ 64) :
    calculate_frequencies_loop l freq sz = (fun b => freq b + l.count b, sz + l.length) := by
  induction l generalizing freq sz with
  | nil => simp [calculate_frequencies_loop]
  | cons x l ih =>
    have hx := hf x
    simp only [List.count_cons_self, List.length_cons] at hx hs
    have e1 : (freq x + 1) % 2 ^ 64 = freq x + 1 := Nat.mod_eq_of_lt (by omega)
    have e2 : (sz + 1) % 2 ^ 64 = sz + 1 := Nat.mod_eq_of_lt (by omega)
    have hupd : ∀ b, Function.update freq x (freq x + 1) b + l.count b
        = freq b + (x :: l).count b := by
      intro b
      by_cases hb : b = x
      · subst hb
        simp only [Function.update_same, List.count_cons_self]
        omega
      · rw [Function.update_noteq hb, List.count_cons_of_ne hb]
    rw [calculate_frequencies_loop, e1, e2, ih _ _ (fun b => by rw [hupd]; exact hf b)
      (by omega)]
    refine Prod.ext (funext hupd) ?_
    simp only [List.length_cons]
    omega

theorem calculate_frequencies_eq (data : List Byte) (h : data.length < 2 ^ 64) :
    calculate_frequencies ⟨data, false⟩ (fun _ => 0) =
      (data.length, countFreq data, ⟨[], true⟩) := by
  have hc : ∀ b, 0 + data.count b < 2 ^ 64 := by
    intro b
    have : data.count b ≤ data.length := List.count_le_length _ _
    omega
  simp only [calculate_frequencies, Bool.false_eq_true, if_false,
    calculate_frequencies_loop_eq data (fun _ => 0) 0 hc (by omega), Nat.zero_add]
  rfl

theorem encode_loop_eq (codes : Codes) (data : List Byte) (w : BinaryWriter)
    (h : ∀ c ∈ data, (codes c).isSome) :
    encode_loop codes data w = .ok ((encodeBits codes data).foldl (BinaryWriter.write 8) w) := by
  induction data generalizing w with
  | nil => rfl
  | cons c data ih =>
    obtain ⟨code, hc⟩ := Option.isSome_iff_exists.1 (h c (by simp))
    simp only [encode_loop, hc, encodeBits, Option.getD_some, List.foldl_append]
    exact ih _ (fun x hx => h x (by simp [hx]))

theorem encode_input_eq (codes : Codes) (data out : List Byte) (sz : Nat)
    (h : ∀ c ∈ data, (codes c).isSome) :
    encode_input ⟨data, false⟩ out sz codes =
      (true, out ++ (toBytes 8 sz ++ pack 8 [] (encodeBits codes data))) := by
  have := writer_spec 8 (by norm_num) (encodeBits codes data) (Serialize 8 sz out) [] (by simp)
  simp only [bitsToNat, List.length_nil] at this
  simp only [encode_input, Bool.false_eq_true, if_false, encode_loop_eq codes data _ h, this]
  simp [Serialize]

end Huffman

namespace Huffman

/-! ## `compress` and `decompress` on the stream `compress` writes -/

theorem mem_support_countFreq (data : List Byte) (c : Byte) :
    c ∈ support (countFreq data) ↔ c ∈ data := by
  rw [mem_support, countFreq, Ne, List.count_eq_zero, not_not]

theorem treeCodes_good (root : NodePtr) (data : List Byte)
    (h : (support (countFreq data) = [] ∧ root = .null) ∨
      (support (countFreq data) ≠ [] ∧ Full root ∧
        (leaves root).Perm (support (countFreq data)))) :
    GoodCodes (treeCodes root) data := by
  have hnd : (leaves root).Nodup := by
    rcases h with ⟨_, rfl⟩ | ⟨_, _, hp⟩
    · simp [leaves]
    · exact hp.symm.nodup (support_nodup _)
  have hmem : ∀ c ∈ data, c ∈ leaves root := by
    intro c hc
    have hs := (mem_support_countFreq data c).2 hc
    rcases h with ⟨h0, _⟩ | ⟨_, _, hp⟩
    · rw [h0] at hs; simp at hs
    · exact hp.symm.subset hs
  refine ⟨treeCodes_prefixFree root hnd, ?_, ?_⟩
  · intro c x hx
    rcases h with ⟨_, rfl⟩ | ⟨_, hfull, _⟩
    · simp [treeCodes, calculate_codes] at hx
    · have h1 := treeCodes_length_le root hfull hnd c x hx
      have h2 := nodup_bytes_length _ hnd
      omega
  · intro c hc
    exact (treeCodes_isSome_iff root hnd c).2 (hmem c hc)

/-- What `compress` returns: the status `OK` and the header, element count and payload of the
code table of the tree `build_trie_by_freq` built. -/
theorem compress_eq (tie : TieBreak) (data : List Byte) (h : data.length < 2 ^ 64) :
    ∃ root, build_trie_by_freq tie (countFreq data) = some root ∧
      ((support (countFreq data) = [] ∧ root = .null) ∨
        (support (countFreq data) ≠ [] ∧ Full root ∧
          (leaves root).Perm (support (countFreq data)))) ∧
      compress tie data = some (.returned .OK, streamBytes (treeCodes root) data) := by
  obtain ⟨root, hroot, hshape⟩ := build_trie_by_freq_spec tie (countFreq data)
  refine ⟨root, hroot, hshape, ?_⟩
  have hgood := treeCodes_good root data hshape
  unfold compress
  rw [calculate_frequencies_eq data h]
  dsimp only
  rw [hroot]
  dsimp only
  rw [write_coding_table_eq,
    encode_input_eq (calculate_codes root [] (fun _ => none)).2 data _ _ hgood.covers]
  simp [streamBytes, treeCodes]

theorem decode_input_payload (codes : Codes) (data : List Byte) (h : data.length < 2 ^ 64)
    (hg : GoodCodes codes data) :
    decode_input ⟨toBytes 8 data.length ++ pack 8 [] (encodeBits codes data), false⟩ []
      (build_trie_by_codes codes) = (.done, data) := by
  have hmod : data.length % 256 ^ 8 = data.length := Nat.mod_eq_of_lt (by omega)
  have hlen : (pack 8 [] (encodeBits codes data)).length
      = 8 * (((encodeBits codes data).length + 63) / 64) := by
    have := pack_length 8 (Or.inr rfl) (encodeBits codes data) [] (by simp)
    simpa using this
  have hloop := decode_loop_codes (pack 8 [] (encodeBits codes data)) codes
    (build_trie_by_codes codes)
    (fun c code hc => build_trie_by_codes_subtree codes hg.prefixFree c code hc)
    data hg.covers 0 [] (by simp) (by
      intro k hk _
      have := bitAt_pack 8 (Or.inr rfl) (encodeBits codes data) [] [] k (by simp)
        (by simpa using hk)
      simpa using this)
  rw [readerAfter_zero] at hloop
  have h1 := hloop.1 (by rw [hlen]; simp)
  unfold decode_input
  rw [Deserialize_toBytes, hmod]
  dsimp only
  rw [if_neg (by simp), h1, if_pos (by rw [hlen]; simp)]
  simp

theorem decompress_streamBytes (codes : Codes) (data : List Byte) (h : data.length < 2 ^ 64)
    (hg : GoodCodes codes data) :
    decompress (streamBytes codes data) = (.returned .OK, data) := by
  unfold decompress streamBytes
  rw [read_coding_table_header codes _ hg.short]
  dsimp only
  rw [decode_input_payload codes data h hg]

end Huffman

namespace Huffman

/-! ## Reading from a stream with more bytes behind it -/

theorem read_failbit (s : IStream) (n : Nat) (h : s.failbit = true) :
    (s.read n).2.failbit = true := by
  simp [IStream.read, h]

theorem read_extend (Y : List Byte) (s : IStream) (n : Nat)
    (h : (s.read n).2.failbit = false) :
    (extend Y s).read n = ((s.read n).1, extend Y (s.read n).2) := by
  obtain ⟨buf, fb⟩ := s
  cases fb with
  | true => simp [IStream.read] at h
  | false =>
    by_cases hn : n ≤ buf.length
    · have hn' : n ≤ buf.length + Y.length := by omega
      simp [IStream.read, extend, hn, hn', List.take_append_of_le_length hn,
        List.drop_append_of_le_length hn]
    · simp [IStream.read, hn] at h

theorem Deserialize_failbit (n x : Nat) (s : IStream) (h : s.failbit = true) :
    (Deserialize n x s).2.failbit = true := read_failbit s n h

theorem Deserialize_extend (Y : List Byte) (n x : Nat) (s : IStream)
    (h : (Deserialize n x s).2.failbit = false) :
    Deserialize n x (extend Y s) = ((Deserialize n x s).1, extend Y (Deserialize n x s).2) := by
  have h' : (s.read n).2.failbit = false := h
  simp only [Deserialize, read_extend Y s n h']

theorem Deserialize_uchar_snd (c : Byte) (s : IStream) :
    (Deserialize_uchar c s).2 = (s.read 1).2 := by
  unfold Deserialize_uchar
  split <;> rfl

theorem extend_failbit (Y : List Byte) (s : IStream) : (extend Y s).failbit = s.failbit := rfl

theorem Deserialize_uchar_extend (Y : List Byte) (c : Byte) (s : IStream)
    (h : (Deserialize_uchar c s).2.failbit = false) :
    Deserialize_uchar c (extend Y s) =
      ((Deserialize_uchar c s).1, extend Y (Deserialize_uchar c s).2) := by
  rw [Deserialize_uchar_snd] at h
  have := read_extend Y s 1 h
  unfold Deserialize_uchar
  rw [this]
  dsimp only
  generalize (s.read 1).1 = l
  cases l <;> rfl

theorem reader_read_failbit (n : Nat) (r : BinaryReader) (s : IStream)
    (h : s.failbit = true) : (BinaryReader.read n r s).2.2.failbit = true := by
  unfold BinaryReader.read
  dsimp only
  split_ifs
  · exact Deserialize_failbit _ _ _ h
  · exact h

theorem reader_read_extend (Y : List Byte) (n : Nat) (r : BinaryReader) (s : IStream)
    (h : (BinaryReader.read n r s).2.2.failbit = false) :
    BinaryReader.read n r (extend Y s) =
      ((BinaryReader.read n r s).1, (BinaryReader.read n r s).2.1,
        extend Y (BinaryReader.read n r s).2.2) := by
  unfold BinaryReader.read at h ⊢
  by_cases h0 : r.buffer_pos = 0
  · simp only [h0, if_true] at h ⊢
    rw [Deserialize_extend Y n _ s h]
  · simp only [h0, if_false] at h ⊢

theorem read_code_bits_extend (Y : List Byte) (k : Nat) (r : BinaryReader) (s : IStream)
    (acc code : List Bool) (s' : IStream) (h : read_code_bits k r s acc = some (code, s')) :
    read_code_bits k r (extend Y s) acc = some (code, extend Y s') := by
  induction k generalizing r s acc with
  | zero =>
    simp only [read_code_bits, Option.some.injEq, Prod.mk.injEq] at h ⊢
    exact ⟨h.1, by rw [h.2]⟩
  | succ k ih =>
    simp only [read_code_bits] at h ⊢
    split_ifs at h with hf
    have hf' : (BinaryReader.read 1 r s).2.2.failbit = false := by simpa using hf
    rw [reader_read_extend Y 1 r s hf']
    simp only [extend_failbit, hf', Bool.false_eq_true, if_false]
    exact ih _ _ _ h

theorem read_entries_extend (Y : List Byte) (i : Nat) (s : IStream) (codes codes' : Codes)
    (s' : IStream) (h : read_entries i s codes = some (codes', s')) :
    read_entries i (extend Y s) codes = some (codes', extend Y s') := by
  induction i generalizing s codes with
  | zero =>
    simp only [read_entries, Option.some.injEq, Prod.mk.injEq] at h ⊢
    exact ⟨h.1, by rw [h.2]⟩
  | succ i ih =>
    simp only [read_entries] at h ⊢
    split_ifs at h with hf
    simp only [Bool.or_eq_true, decide_eq_true_eq, not_or, Bool.not_eq_true] at hf
    have hc : (Deserialize_uchar 0 s).2.failbit = false := by
      by_contra hne
      have := Deserialize_failbit 8 0 _ (by simpa using hne)
      rw [hf.1] at this
      cases this
    rw [Deserialize_uchar_extend Y 0 s hc]
    dsimp only
    rw [Deserialize_extend Y 8 0 _ hf.1]
    dsimp only
    have hcond : ¬ (((extend Y (Deserialize 8 0 (Deserialize_uchar 0 s).2).2).failbit ||
        decide ((Deserialize 8 0 (Deserialize_uchar 0 s).2).1 > CHAR_MX)) = true) := by
      rw [extend_failbit, hf.1, Bool.false_or, decide_eq_true_eq]
      exact hf.2
    rw [if_neg hcond]
    cases hb : read_code_bits (Deserialize 8 0 (Deserialize_uchar 0 s).2).1 ⟨0, 0⟩
        (Deserialize 8 0 (Deserialize_uchar 0 s).2).2 [] with
    | none => rw [hb] at h; cases h
    | some p =>
      obtain ⟨code, s3⟩ := p
      rw [hb] at h
      rw [read_code_bits_extend Y _ _ _ _ _ _ hb]
      exact ih _ _ h

theorem read_coding_table_extend (Y : List Byte) (s : IStream) (codes codes' : Codes)
    (s' : IStream) (h : read_coding_table s codes = some (codes', s')) :
    read_coding_table (extend Y s) codes = some (codes', extend Y s') := by
  unfold read_coding_table at h ⊢
  dsimp only at h ⊢
  split_ifs at h with hf
  simp only [Bool.or_eq_true, decide_eq_true_eq, not_or, Bool.not_eq_true] at hf
  rw [Deserialize_extend Y 8 0 s hf.1]
  dsimp only
  have hcond : ¬ (((extend Y (Deserialize 8 0 s).2).failbit ||
      decide ((Deserialize 8 0 s).1 > CHAR_MX)) = true) := by
    rw [extend_failbit, hf.1, Bool.false_or, decide_eq_true_eq]
    exact hf.2
  rw [if_neg hcond]
  exact read_entries_extend Y _ _ _ _ _ h

theorem decode_walk_extend (Y : List Byte) (t : NodePtr) (r : BinaryReader) (s : IStream)
    (c : Byte) (r' : BinaryReader) (s' : IStream) (hs : s.failbit = false)
    (h : decode_walk t r s = .leaf c r' s') :
    decode_walk t r (extend Y s) = .leaf c r' (extend Y s') ∧ s'.failbit = false := by
  induction t generalizing r s with
  | null => simp [decode_walk] at h
  | node left right c0 ihl ihr =>
    simp only [decode_walk] at h ⊢
    by_cases hleaf : (left.isNull && right.isNull) = true
    · simp only [hleaf, if_true, Walk.leaf.injEq] at h ⊢
      obtain ⟨rfl, rfl, rfl⟩ := h
      exact ⟨⟨rfl, rfl, rfl⟩, hs⟩
    · simp only [hleaf, if_false] at h ⊢
      by_cases hf : (BinaryReader.read 8 r s).2.2.failbit = true
      · simp [hf] at h
      · have hf' : (BinaryReader.read 8 r s).2.2.failbit = false := by simpa using hf
        simp only [hf, if_false] at h
        rw [reader_read_extend Y 8 r s hf']
        simp only [extend_failbit, hf', Bool.false_eq_true, if_false]
        by_cases hbit : (!(BinaryReader.read 8 r s).1) = true
        · simp only [hbit, if_true] at h ⊢
          exact ihl _ _ hf' h
        · simp only [hbit, if_false] at h ⊢
          exact ihr _ _ hf' h

theorem get_failbit_extend (Y : List Byte) (s : IStream) (hs : s.failbit = false) (hY : Y ≠ []) :
    ((extend Y s).get).failbit = false := by
  obtain ⟨buf, fb⟩ := s
  simp only at hs
  subst hs
  cases buf with
  | nil =>
    cases Y with
    | nil => exact absurd rfl hY
    | cons y Y => rfl
  | cons b buf => rfl

theorem decode_loop_extend (Y : List Byte) (hY : Y ≠ []) (root : NodePtr) (k : Nat)
    (r : BinaryReader) (s : IStream) (out out' : List Byte) (hs : s.failbit = false)
    (h : decode_loop root k r s out = (.done, out')) :
    decode_loop root k r (extend Y s) out = (.DecodeInputException, out') := by
  induction k generalizing r s out with
  | zero =>
    simp only [decode_loop] at h ⊢
    split_ifs at h with hg
    · rw [get_failbit_extend Y s hs hY]
      simp only [Bool.false_eq_true, if_false]
      cases h
      rfl
    · cases h
  | succ k ih =>
    simp only [decode_loop] at h ⊢
    cases hw : decode_walk root r s with
    | leaf c r1 s1 =>
      rw [hw] at h
      obtain ⟨hw', hs1⟩ := decode_walk_extend Y root r s c r1 s1 hs hw
      rw [hw']
      exact ih _ _ _ hs1 h
    | thrown => rw [hw] at h; cases h
    | nullDeref => rw [hw] at h; cases h

theorem decode_input_extend (Y : List Byte) (hY : Y ≠ []) (root : NodePtr) (s : IStream)
    (out out' : List Byte) (h : decode_input s out root = (.done, out')) :
    decode_input (extend Y s) out root = (.DecodeInputException, out') := by
  unfold decode_input at h ⊢
  dsimp only at h ⊢
  split_ifs at h with hf
  · cases h
  · have hf' : (Deserialize 8 0 s).2.failbit = false := by simpa using hf
    rw [Deserialize_extend Y 8 0 s hf']
    dsimp only
    rw [if_neg (by rw [extend_failbit, hf']; simp)]
    exact decode_loop_extend Y hY root _ _ _ out out' hf' h

/-- On a stream that `decompress` accepts, followed by further bytes, `decompress` returns
`MALFORMED_DATA` after writing the same output. -/
theorem decompress_extend (X Y out : List Byte) (hY : Y ≠ [])
    (h : decompress X = (.returned .OK, out)) :
    decompress (X ++ Y) = (.returned .MALFORMED_DATA, out) := by
  unfold decompress at h ⊢
  cases ht : read_coding_table ⟨X, false⟩ (fun _ => none) with
  | none => rw [ht] at h; cases h
  | some p =>
    obtain ⟨codes, s⟩ := p
    rw [ht] at h
    have := read_coding_table_extend Y _ _ _ _ ht
    simp only [extend] at this
    rw [this]
    dsimp only at h ⊢
    cases hd : decode_input s [] (build_trie_by_codes codes) with
    | mk sig o =>
      rw [hd] at h
      cases sig with
      | done =>
        simp only [Prod.mk.injEq, true_and] at h
        subst h
        have := decode_input_extend Y hY _ _ _ _ hd
        simp only [extend] at this
        rw [this]
      | DecodeInputException => simp at h
      | nullDeref => simp at h

end Huffman

namespace Huffman

/-! ## Decoding a stream that lost its last byte -/

theorem bitAt_take (P : List Byte) (m k : Nat) (h : 8 * (k / 64 + 1) ≤ m) :
    bitAt 8 (P.take m) k = bitAt 8 P k := by
  have e : (P.take m).drop (8 * (k / 64)) = (P.drop (8 * (k / 64))).take (m - 8 * (k / 64)) := by
    rw [List.drop_take]
  have hmin : min 8 (m - 8 * (k / 64)) = 8 := by omega
  simp only [bitAt, show 8 * 8 = 64 from rfl, e, List.take_take, hmin]

theorem decode_input_truncated (codes : Codes) (data : List Byte) (h : data.length < 2 ^ 64)
    (hg : GoodCodes codes data) :
    (decode_input
      ⟨(toBytes 8 data.length ++ pack 8 [] (encodeBits codes data)).dropLast, false⟩ []
      (build_trie_by_codes codes)).1 = .DecodeInputException := by
  have hmod : data.length % 256 ^ 8 = data.length := Nat.mod_eq_of_lt (by omega)
  have hlen : (pack 8 [] (encodeBits codes data)).length
      = 8 * (((encodeBits codes data).length + 63) / 64) := by
    have := pack_length 8 (Or.inr rfl) (encodeBits codes data) [] (by simp)
    simpa using this
  by_cases hP : pack 8 [] (encodeBits codes data) = []
  · rw [hP, List.append_nil]
    unfold decode_input
    dsimp only
    rw [Deserialize_short 8 0 _ (by simp [toBytes_length])]
    rfl
  · rw [List.dropLast_append_of_ne_nil _ hP]
    have hpos : 0 < (pack 8 [] (encodeBits codes data)).length := List.length_pos.2 hP
    have hdl : (pack 8 [] (encodeBits codes data)).dropLast.length
        = 8 * (((encodeBits codes data).length + 63) / 64) - 1 := by
      rw [List.length_dropLast, hlen]
    have hloop := decode_loop_codes (pack 8 [] (encodeBits codes data)).dropLast codes
      (build_trie_by_codes codes)
      (fun c code hc => build_trie_by_codes_subtree codes hg.prefixFree c code hc)
      data hg.covers 0 [] (by simp) (by
        intro k hk hav
        rw [List.dropLast_eq_take, bitAt_take _ _ _ (by
          rw [List.dropLast_eq_take] at hav
          simp only [Nat.zero_add] at hav
          rw [List.length_take] at hav
          omega)]
        have := bitAt_pack 8 (Or.inr rfl) (encodeBits codes data) [] [] k (by simp)
          (by simpa using hk)
        simpa using this)
    rw [readerAfter_zero] at hloop
    have h1 := hloop.2 (by rw [hdl]; rw [hlen] at hpos; simp only [Nat.zero_add]; omega)
    unfold decode_input
    rw [Deserialize_toBytes, hmod]
    dsimp only
    rw [if_neg (by simp)]
    exact h1

theorem decompress_truncated (codes : Codes) (data : List Byte) (h : data.length < 2 ^ 64)
    (hg : GoodCodes codes data) :
    (decompress (streamBytes codes data).dropLast).1 = .returned .MALFORMED_DATA := by
  have hne : toBytes 8 data.length ++ pack 8 [] (encodeBits codes data) ≠ [] := by
    intro h0
    have := congrArg List.length h0
    simp [toBytes_length] at this
  unfold decompress streamBytes
  rw [List.dropLast_append_of_ne_nil _ hne, read_coding_table_header codes _ hg.short]
  dsimp only
  have := decode_input_truncated codes data h hg
  cases hd : decode_input
      ⟨(toBytes 8 data.length ++ pack 8 [] (encodeBits codes data)).dropLast, false⟩ []
      (build_trie_by_codes codes) with
  | mk sig o =>
    rw [hd] at this
    simp only at this
    subst this
    rfl

end Huffman

namespace Huffman

/-! ## A stream that ends inside the header -/

theorem read_code_bits_fail (data : List Byte) (k j : Nat) (acc : List Bool)
    (hvalid : (j + 7) / 8 ≤ data.length) (hshort : data.length < (j + k + 7) / 8) :
    read_code_bits k (readerAfter 1 data j).1 (readerAfter 1 data j).2 acc = none := by
  induction k generalizing j acc with
  | zero => omega
  | succ k ih =>
    simp only [read_code_bits]
    by_cases hav : j / 8 + 1 ≤ data.length
    · rw [reader_read_ok 1 (Or.inl rfl) data j (by omega)]
      simp only [readerAfter_failbit, Bool.false_eq_true, if_false]
      exact ih (j + 1) _ (by omega) (by omega)
    · rw [reader_read_fail 1 (Or.inl rfl) data j (by omega) (by omega)]
      simp

theorem read_code_bits_ok (data : List Byte) (k j : Nat) (acc : List Bool)
    (h : (j + k + 7) / 8 ≤ data.length) :
    ∃ bits, read_code_bits k (readerAfter 1 data j).1 (readerAfter 1 data j).2 acc =
      some (bits, (readerAfter 1 data (j + k)).2) := by
  induction k generalizing j acc with
  | zero => exact ⟨acc, rfl⟩
  | succ k ih =>
    simp only [read_code_bits]
    rw [reader_read_ok 1 (Or.inl rfl) data j (by omega)]
    simp only [readerAfter_failbit, Bool.false_eq_true, if_false]
    obtain ⟨bits, hb⟩ := ih (j + 1) (acc ++ [bitAt 1 data j]) (by omega)
    refine ⟨bits, ?_⟩
    rw [hb]
    have : j + 1 + k = j + (k + 1) := by omega
    rw [this]

theorem take_cons_append (k : Nat) (a : List Byte) (R : List Byte) (h : a.length ≤ k) :
    (a ++ R).take k = a ++ R.take (k - a.length) := by
  rw [List.take_append_eq_append_take, List.take_of_length_le h]

theorem read_entries_fail_first (i : Nat) (s : IStream) (codes : Codes)
    (h : (Deserialize 8 0 (Deserialize_uchar 0 s).2).2.failbit = true) :
    read_entries (i + 1) s codes = none := by
  simp only [read_entries, h, Bool.true_or, if_true]

theorem read_entries_short (es : List (Byte × Nat × List Byte)) (codes : Codes) (k : Nat)
    (hwf : ∀ e ∈ es, RawEntryOk e) (hk : k < ((es.map rawEntryBytes).flatten).length) :
    read_entries es.length ⟨((es.map rawEntryBytes).flatten).take k, false⟩ codes = none := by
  induction es generalizing codes k with
  | nil => simp at hk
  | cons e es ih =>
    obtain ⟨c, len, bytes⟩ := e
    obtain ⟨hlen, hbytes⟩ := hwf (c, len, bytes) (by simp)
    simp only at hlen hbytes
    have hE : (((c, len, bytes) :: es).map rawEntryBytes).flatten =
        c :: (toBytes 8 len ++ (bytes ++ (es.map rawEntryBytes).flatten)) := by
      simp [rawEntryBytes]
    rw [hE] at hk ⊢
    simp only [List.length_cons, List.length_append, toBytes_length] at hk
    cases k with
    | zero =>
      apply read_entries_fail_first
      apply Deserialize_failbit
      rfl
    | succ k =>
      rw [List.take_succ_cons]
      by_cases h8 : k < 8
      · apply read_entries_fail_first
        rw [Deserialize_uchar_cons, Deserialize_short]
        simp only [List.length_take, List.length_append, toBytes_length]
        omega
      · rw [take_cons_append k _ _ (by rw [toBytes_length]; omega), toBytes_length]
        have hmod : len % 256 ^ 8 = len := Nat.mod_eq_of_lt (by omega)
        simp only [List.length_cons, read_entries, Deserialize_uchar_cons, Deserialize_toBytes,
          hmod, Bool.false_or, decide_eq_true_eq]
        by_cases hbig : len > CHAR_MX
        · rw [if_pos hbig]
        · rw [if_neg hbig]
          by_cases hm : k - 8 < bytes.length
          · have := read_code_bits_fail
              ((bytes ++ (es.map rawEntryBytes).flatten).take (k - 8)) len 0 []
              (by simp) (by
                simp only [List.length_take, List.length_append]
                omega)
            rw [readerAfter_zero] at this
            rw [this]
          · rw [take_cons_append (k - 8) _ _ (by omega)]
            obtain ⟨bits, hb⟩ := read_code_bits_ok
              (bytes ++ ((es.map rawEntryBytes).flatten).take (k - 8 - bytes.length)) len 0 []
              (by simp only [List.length_append]; omega)
            rw [readerAfter_zero] at hb
            rw [hb]
            have hrest : (readerAfter 1
                (bytes ++ ((es.map rawEntryBytes).flatten).take (k - 8 - bytes.length))
                (0 + len)).2 =
                ⟨((es.map rawEntryBytes).flatten).take (k - 8 - bytes.length), false⟩ := by
              have e : 1 * ((0 + len + 8 * 1 - 1) / (8 * 1)) = bytes.length := by
                rw [hbytes]; omega
              simp only [readerAfter, e, List.drop_left]
            rw [hrest]
            exact ih _ _ (fun x hx => hwf x (by simp [hx])) (by omega)

theorem read_coding_table_short (es : List (Byte × Nat × List Byte)) (k : Nat)
    (hwf : ∀ e ∈ es, RawEntryOk e) (hn : es.length < 2 ^ 64)
    (hk : k < (rawHeader es).length) :
    read_coding_table ⟨(rawHeader es).take k, false⟩ (fun _ => none) = none := by
  unfold rawHeader at hk ⊢
  rw [List.length_append, toBytes_length] at hk
  unfold read_coding_table
  by_cases h8 : k < 8
  · dsimp only
    rw [Deserialize_short 8 0 _ (by
      simp only [List.length_take, List.length_append, toBytes_length]; omega)]
    rfl
  · rw [take_cons_append k _ _ (by rw [toBytes_length]; omega), toBytes_length,
      Deserialize_toBytes]
    have hmod : es.length % 256 ^ 8 = es.length := Nat.mod_eq_of_lt (by omega)
    rw [hmod]
    dsimp only
    by_cases hbig : es.length > CHAR_MX
    · rw [if_pos (by rw [Bool.false_or, decide_eq_true_eq]; exact hbig)]
    · rw [if_neg (by rw [Bool.false_or, decide_eq_true_eq]; exact hbig)]
      exact read_entries_short es _ (k - 8) hwf (by omega)

theorem read_coding_table_few (X : List Byte) (h : X.length < 8) :
    read_coding_table ⟨X, false⟩ (fun _ => none) = none := by
  unfold read_coding_table
  dsimp only
  rw [Deserialize_short 8 0 _ h]
  rfl

end Huffman

namespace Huffman

/-! ## A byte more frequent than all others together -/

theorem toLongLong_eq (x : Int) (h1 : -2 ^ 63 ≤ x) (h2 : x < 2 ^ 63) : toLongLong x = x := by
  unfold toLongLong
  omega

theorem sum_le_of_nonpos (l : List Int) (h : ∀ x ∈ l, x ≤ 0) : ∀ x ∈ l, l.sum ≤ x := by
  induction l with
  | nil => simp
  | cons y l ih =>
    intro x hx
    have hy : y ≤ 0 := h y (by simp)
    have hl : ∀ z ∈ l, z ≤ 0 := fun z hz => h z (by simp [hz])
    have hs : l.sum ≤ 0 := by
      clear ih hx
      induction l with
      | nil => simp
      | cons z l ih2 =>
        have := hl z (by simp)
        have := ih2 (fun w hw => h w (by
          rcases List.mem_cons.1 hw with rfl | hw'
          · simp
          · simp [hw'])) (fun w hw => hl w (by simp [hw]))
        simp only [List.sum_cons]
        omega
    simp only [List.sum_cons]
    rcases List.mem_cons.1 hx with rfl | hx'
    · omega
    · have := ih hl x hx'
      omega

theorem DomInv_step (tie : TieBreak) (f0 : Int) (b0 : Byte) (hf0 : f0 ≤ 2 ^ 63) (q : PQ)
    (h2 : 2 ≤ q.length) (hI : DomInv f0 b0 q) : DomInv f0 b0 (merge_step tie q) := by
  obtain ⟨a, b, q2, hp, hm, ha, hb⟩ := merge_step_spec tie q h2
  rcases hI with ⟨q', hq, hne, hnonpos, hsum⟩ | ⟨p, T, rfl⟩
  · have hgt : ∀ e ∈ q', -f0 < e.1 := by
      intro e he
      have := sum_le_of_nonpos (q'.map Prod.fst) (by
        intro x hx
        obtain ⟨e', he', rfl⟩ := List.mem_map.1 hx
        exact hnonpos e' he') e.1 (List.mem_map.2 ⟨e, he, rfl⟩)
      omega
    obtain ⟨x, hx⟩ := List.exists_mem_of_ne_nil q' hne
    have haq : a ∈ q' := by
      have : a ∈ (-f0, NodePtr.node .null .null b0) :: q' := hq.subset (hp.symm.subset (by simp))
      rcases List.mem_cons.1 this with h | h
      · have h1 := ha x (hq.symm.subset (by simp [hx]))
        have h2 := hgt x hx
        rw [h] at h1
        simp only at h1
        omega
      · exact h
    have hq'1 := pq_erase_perm a q' haq
    have hbq : (b :: q2).Perm ((-f0, NodePtr.node .null .null b0) :: pq_erase a q') := by
      have h1 : (a :: b :: q2).Perm (a :: (-f0, NodePtr.node .null .null b0) :: pq_erase a q') :=
        hp.symm.trans (hq.trans ((List.Perm.cons _ hq'1).trans (List.Perm.swap _ _ _)))
      exact h1.cons_inv
    by_cases h1 : pq_erase a q' = []
    · rw [h1] at hbq
      have := List.perm_singleton.1 hbq
      simp only [List.cons.injEq] at this
      obtain ⟨rfl, rfl⟩ := this
      right
      exact ⟨_, a.2, by rw [hm]; rfl⟩
    · obtain ⟨y, hy⟩ := List.exists_mem_of_ne_nil _ h1
      have hyq : y ∈ q' := hq'1.symm.subset (by simp [hy])
      have hbq1 : b ∈ pq_erase a q' := by
        have : b ∈ (-f0, NodePtr.node .null .null b0) :: pq_erase a q' := hbq.subset (by simp)
        rcases List.mem_cons.1 this with h | h
        · have h3 := hb y (hbq.symm.subset (by simp [hy]))
          have h4 := hgt y hyq
          rw [h] at h3
          simp only at h3
          omega
        · exact h
      have hq'2 := pq_erase_perm b _ hbq1
      have hq2 : q2.Perm ((-f0, NodePtr.node .null .null b0) :: pq_erase b (pq_erase a q')) := by
        have h3 : (b :: q2).Perm
            (b :: (-f0, NodePtr.node .null .null b0) :: pq_erase b (pq_erase a q')) :=
          hbq.trans ((List.Perm.cons _ hq'2).trans (List.Perm.swap _ _ _))
        exact h3.cons_inv
      have hall : q'.Perm (a :: b :: pq_erase b (pq_erase a q')) :=
        hq'1.trans (List.Perm.cons _ hq'2)
      have hsum' : (q'.map Prod.fst).sum
          = a.1 + (b.1 + ((pq_erase b (pq_erase a q')).map Prod.fst).sum) := by
        rw [(hall.map Prod.fst).sum_eq]
        simp
      have hrest : ∀ e ∈ pq_erase b (pq_erase a q'), e.1 ≤ 0 :=
        fun e he => hnonpos e (hall.symm.subset (by simp [he]))
      have hrs : ((pq_erase b (pq_erase a q')).map Prod.fst).sum ≤ 0 := by
        have : ∀ l : List Int, (∀ x ∈ l, x ≤ 0) → l.sum ≤ 0 := by
          intro l hl
          induction l with
          | nil => simp
          | cons z l ih =>
            have := hl z (by simp)
            have := ih (fun w hw => hl w (by simp [hw]))
            simp only [List.sum_cons]
            omega
        apply this
        intro x hx
        obtain ⟨e', he', rfl⟩ := List.mem_map.1 hx
        exact hrest e' he'
      have ha0 : a.1 ≤ 0 := hnonpos a haq
      have hb0 : b.1 ≤ 0 := hnonpos b (hq'1.symm.subset (by simp [hbq1]))
      have hll : toLongLong (a.1 + b.1) = a.1 + b.1 := toLongLong_eq _ (by omega) (by omega)
      left
      refine ⟨pq_erase b (pq_erase a q') ++ [(a.1 + b.1, NodePtr.node a.2 b.2 0)], ?_, by simp,
        ?_, ?_⟩
      · rw [hm, hll]
        exact (List.Perm.append_right _ hq2)
      · intro e he
        rcases List.mem_append.1 he with h | h
        · exact hrest e h
        · rw [List.mem_singleton.1 h]
          simp only
          omega
      · simp only [List.map_append, List.sum_append, List.map_cons, List.map_nil,
          List.sum_cons, List.sum_nil]
        omega
  · simp at h2

/-- When the smallest byte of nonzero frequency is more frequent than all other bytes
together, it sits on the right child of the root, for every tie-break. -/
theorem dominant_root (tie : TieBreak) (freq : Freq) (b0 : Byte) (tl : List Byte)
    (hsup : support freq = b0 :: tl) (htl : tl ≠ []) (hf0 : (freq b0 : Int) ≤ 2 ^ 63)
    (hsum : (tl.map (fun i => (freq i : Int))).sum < freq b0) :
    ∃ T, build_trie_by_freq tie freq = some (.node T (.node .null .null b0) 0) ∧ Full T := by
  have hq0 : initial_queue freq ≠ [] := by
    rw [initial_queue_eq, hsup]; simp
  have hlen : (initial_queue freq).length ≤ CHAR_MX + 1 := by
    rw [initial_queue_eq, List.length_map]
    have := nodup_bytes_length _ (support_nodup freq)
    simp only [CHAR_MX]; omega
  have hnn : ∀ l : List Byte, 0 ≤ (l.map (fun i => (freq i : Int))).sum := by
    intro l
    induction l with
    | nil => simp
    | cons x l ih => simp only [List.map_cons, List.sum_cons]; omega
  have hmemle : ∀ (l : List Byte) (i : Byte), i ∈ l →
      (freq i : Int) ≤ (l.map (fun i => (freq i : Int))).sum := by
    intro l i hi
    induction l with
    | nil => simp at hi
    | cons x l ih =>
      simp only [List.map_cons, List.sum_cons]
      rcases List.mem_cons.1 hi with rfl | h
      · have := hnn l; omega
      · have := ih h; omega
  have hdom : DomInv (freq b0) b0 (initial_queue freq) := by
    left
    refine ⟨tl.map (fun i => (toLongLong (-(freq i : Int)), NodePtr.node .null .null i)),
      ?_, by simpa using htl, ?_, ?_⟩
    · rw [initial_queue_eq, hsup, List.map_cons,
        toLongLong_eq _ (by omega) (by have : (0 : Int) ≤ freq b0 := by positivity
                                       omega)]
    · intro e he
      obtain ⟨i, hi, rfl⟩ := List.mem_map.1 he
      have := hmemle tl i hi
      rw [toLongLong_eq _ (by omega) (by have : (0 : Int) ≤ freq i := by positivity
                                         omega)]
      simp only
      omega
    · have : (tl.map (fun i => (toLongLong (-(freq i : Int)),
          NodePtr.node .null .null i))).map Prod.fst = tl.map (fun i => -(freq i : Int)) := by
        rw [List.map_map]
        apply List.map_congr_left
        intro i hi
        have := hmemle tl i hi
        simp only [Function.comp]
        exact toLongLong_eq _ (by omega) (by have : (0 : Int) ≤ freq i := by positivity
                                             omega)
      rw [this]
      have hneg : ∀ l : List Byte, (l.map (fun i => -(freq i : Int))).sum
          = -(l.map (fun i => (freq i : Int))).sum := by
        intro l
        induction l with
        | nil => simp
        | cons x l ih => simp only [List.map_cons, List.sum_cons, ih]; omega
      rw [hneg]
      omega
  obtain ⟨e, he, ⟨hfull, _⟩, hd⟩ := build_loop_induct tie
    (fun q => ShapeInv freq q ∧ DomInv (freq b0) b0 q)
    (fun q h2 hI => ⟨ShapeInv_step freq tie q h2 hI.1, DomInv_step tie _ b0 hf0 q h2 hI.2⟩)
    CHAR_MX (initial_queue freq) hq0 hlen ⟨ShapeInv_initial freq, hdom⟩
  have htop : pq_top tie [e] = e := by
    have := pq_top_mem tie [e] (by simp)
    simpa using this
  have hem : (initial_queue freq).isEmpty = false := by
    cases h : initial_queue freq with
    | nil => exact absurd h hq0
    | cons _ _ => rfl
  rcases hd with ⟨q', hq, hne, _, _⟩ | ⟨p, T, hpT⟩
  · have := hq.length_eq
    cases q' with
    | nil => exact absurd rfl hne
    | cons _ _ => simp at this
  · simp only [List.cons.injEq, and_true] at hpT
    subst hpT
    refine ⟨T, by simp [build_trie_by_freq, hem, he, htop], ?_⟩
    have := hfull _ (List.mem_singleton_self _)
    simp only [Full] at this
    rcases this with ⟨_, h⟩ | ⟨h, _⟩
    · cases h
    · exact h

end Huffman

namespace Huffman

/-! ## The entry count of a header with its low byte complemented -/

theorem entriesOf_fst_eq_filter (codes : Codes) :
    (entriesOf codes).map Prod.fst = (List.finRange 256).filter (fun i => (codes i).isSome) := by
  unfold entriesOf
  generalize List.finRange 256 = l
  induction l with
  | nil => rfl
  | cons x l ih =>
    cases hx : codes x <;> simp [List.filterMap_cons, List.filter_cons, hx, ih]

theorem entriesOf_fst_support (freq : Freq) (root : NodePtr)
    (hperm : (leaves root).Perm (support freq)) :
    (entriesOf (treeCodes root)).map Prod.fst = support freq := by
  rw [entriesOf_fst_eq_filter, support]
  apply List.filter_congr
  intro i _
  have hnd : (leaves root).Nodup := hperm.symm.nodup (support_nodup freq)
  have h1 := treeCodes_isSome_iff root hnd i
  have h2 := mem_support freq i
  have h3 : i ∈ leaves root ↔ i ∈ support freq := ⟨fun h => hperm.subset h, fun h => hperm.symm.subset h⟩
  by_cases hs : ((treeCodes root) i).isSome = true
  · have := h2.1 (h3.1 (h1.1 hs))
    simp [hs, this]
  · have : ¬ freq i ≠ 0 := fun hne => hs (h1.2 (h3.2 (h2.2 hne)))
    simp only [ne_eq, not_not] at this
    simp [hs, this]

theorem toBytes_snoc (n x : Nat) :
    toBytes (n + 1) x = toBytes n x ++ [Fin.ofNat (x / 256 ^ n % 256)] := by
  induction n generalizing x with
  | zero => simp [toBytes]
  | succ n ih =>
    rw [toBytes, ih (x / 256)]
    simp only [toBytes, List.cons_append, Nat.div_div_eq_div_mul, pow_succ]
    rw [Nat.mul_comm 256 (256 ^ n)]

theorem headerFlipInput_freq : countFreq headerFlipInput = headerFlipFreq := by
  funext i
  have h1 : List.count i (List.finRange 256) = 1 :=
    List.count_eq_one_of_mem (List.nodup_finRange 256) (List.mem_finRange i)
  have hi := i.isLt
  simp only [countFreq, headerFlipInput, headerFlipFreq, List.count_append, List.count_replicate]
  by_cases hp : 1 ≤ i.val ∧ i.val ≤ 253
  · rw [List.count_filter (by simpa using hp), h1]
    have h0 : ¬ ((0 : Byte) == i) = true := by
      simp only [beq_iff_eq]
      intro h
      rw [← h] at hp
      simp at hp
    have h3 : ¬ i.val = 0 := by omega
    simp [h0, h3, hp.2]
  · have hnot : List.count i ((List.finRange 256).filter
        (fun i => decide (1 ≤ i.val ∧ i.val ≤ 253))) = 0 := by
      rw [List.count_eq_zero, List.mem_filter]
      rintro ⟨_, h⟩
      exact hp (by simpa using h)
    rw [hnot]
    by_cases h0 : i.val = 0
    · have : (0 : Byte) = i := Fin.ext h0.symm
      simp [h0, this]
    · have : ¬ ((0 : Byte) == i) = true := by
        simp only [beq_iff_eq]
        intro h
        exact h0 (by rw [← h]; rfl)
      have h3 : ¬ i.val ≤ 253 := by omega
      simp [h0, this, h3]

set_option maxRecDepth 1000000 in
theorem headerFlipFreq_support :
    support headerFlipFreq = 0 :: 1 :: ((List.finRange 256).take 254).drop 2 := by
  decide

set_option maxRecDepth 1000000 in
theorem headerFlipFreq_sum :
    ((1 :: ((List.finRange 256).take 254).drop 2).map (fun i => (headerFlipFreq i : Int))).sum
      < headerFlipFreq 0 := by
  decide

set_option maxRecDepth 1000000 in
theorem headerFlipInput_length : headerFlipInput.length = 507 := by
  decide

end Huffman

namespace Huffman

theorem flipByte_zero_cons (b : Byte) (l : List Byte) :
    flipByte 0 (b :: l) = complement b :: l := by
  simp [flipByte]

set_option maxRecDepth 1000000 in
theorem entriesOf_single :
    entriesOf (storeCodes [((0 : Byte), [true])] (fun _ => none)) = [(0, [true])] := by
  decide

set_option maxRecDepth 1000000 in
theorem build_trie_single :
    build_trie_by_codes (storeCodes [((0 : Byte), [true])] (fun _ => none)) =
      .node .null (.node .null .null 0) 0 := by
  decide

/-- Decoding with a root that has no left child, from a stream of at least 8 bytes whose first
byte is zero, with a nonzero element count: the first bit read is 0 and the walk dereferences
the null left child. -/
theorem decode_loop_null_left (leaf : NodePtr) (hleaf : leaf.isNull = false) (c0 : Byte)
    (k : Nat) (rest : List Byte) (hlen : 7 ≤ rest.length) (out : List Byte) :
    decode_loop (.node .null leaf c0) (k + 1) ⟨0, 0⟩ ⟨0 :: rest, false⟩ out =
      (.nullDeref, out) := by
  have hread := reader_read_ok 8 (Or.inr rfl) (0 :: rest) 0 (by simp; omega)
  rw [readerAfter_zero] at hread
  have hbit : bitAt 8 (0 :: rest) 0 = false := by
    simp only [bitAt, Nat.zero_div, Nat.mul_zero, List.drop_zero, Nat.zero_mod,
      Nat.testBit_zero, List.take_succ_cons, fromBytes]
    simp
    omega
  have hw : decode_walk (.node .null leaf c0) ⟨0, 0⟩ ⟨0 :: rest, false⟩ = .nullDeref := by
    have hn : NodePtr.null.isNull = true := rfl
    simp only [decode_walk, hn, hleaf, Bool.and_false, Bool.false_eq_true, if_false,
      hread, hbit, readerAfter_failbit, Bool.not_false, if_true]
  simp only [decode_loop, hw]

/-- C4 (header corruption), evaluated on the code for every tie-break: for the input made of
the bytes 1 to 253 once each and 254 zero bytes, `compress` returns `OK`, and `decompress` on
its output with byte 0 replaced by its complement reads one header entry instead of 254, then
dereferences the null left child of the root: it does not return a status. -/
theorem C4_header_flip_aborts (tie : TieBreak) :
    ∃ out, compress tie headerFlipInput = some (.returned .OK, out) ∧
      decompress (flipByte 0 out) = (.aborted, []) := by
  have hlen := headerFlipInput_length
  obtain ⟨root, hroot, hshape, hc⟩ := compress_eq tie headerFlipInput (by rw [hlen]; norm_num)
  refine ⟨_, hc, ?_⟩
  have hgood := treeCodes_good root headerFlipInput hshape
  rw [headerFlipInput_freq] at hroot hshape
  obtain ⟨T, hT, hTfull⟩ := dominant_root tie headerFlipFreq 0 _ headerFlipFreq_support
    (by simp) (by decide) headerFlipFreq_sum
  rw [hroot] at hT
  have hrootT : root = .node T (.node .null .null 0) 0 := Option.some.inj hT
  have hsupne : support headerFlipFreq ≠ [] := by rw [headerFlipFreq_support]; simp
  have hperm : (leaves root).Perm (support headerFlipFreq) := by
    rcases hshape with ⟨h, _⟩ | ⟨_, _, h⟩
    · exact absurd h hsupne
    · exact h
  have hnd : (leaves root).Nodup := hperm.symm.nodup (support_nodup _)
  -- the code of the byte 0 is the single bit 1
  have hcode0 : treeCodes root 0 = some [true] := by
    apply (treeCodes_some_iff root hnd 0 [true]).2
    rw [hrootT]
    have hTn : T.isNull = false := by
      cases T with
      | null => exact absurd hTfull (by simp [Full])
      | node _ _ _ => rfl
    simp [codesOf, hTn, NodePtr.isNull]
  -- the entries of the header
  have hfst := entriesOf_fst_support headerFlipFreq root hperm
  rw [headerFlipFreq_support] at hfst
  obtain ⟨e0, es1, he, he0, hfst1⟩ := List.map_eq_cons_iff.1 hfst
  obtain ⟨e1, es2, he1, he1', hfst2⟩ := List.map_eq_cons_iff.1 hfst1
  have hcount : (entriesOf (treeCodes root)).length = 254 := by
    have := congrArg List.length hfst
    simpa using this
  have hx0 : e0 = (0, [true]) := by
    have hm : e0 ∈ entriesOf (treeCodes root) := by rw [he]; simp
    have := (mem_entriesOf (treeCodes root) e0.1 e0.2).1 hm
    rw [he0, hcode0] at this
    have h2 : e0.2 = [true] := (Option.some.inj this).symm
    exact Prod.ext he0 h2
  have hx1 : e1.2.length ≤ 256 := by
    have hm : e1 ∈ entriesOf (treeCodes root) := by rw [he, he1]; simp
    exact hgood.short e1.1 e1.2 ((mem_entriesOf (treeCodes root) e1.1 e1.2).1 hm)
  -- the stream and its corruption
  have hstream : streamBytes (treeCodes root) headerFlipInput =
      (254 : Byte) :: (toBytes 7 0 ++ (entryBytes (0, [true]) ++
        ((e1.1 :: toBytes 7 e1.2.length) ++ ((0 : Byte) :: (pack 1 [] e1.2 ++
          ((es2.map entryBytes).flatten ++ (toBytes 8 headerFlipInput.length ++
            pack 8 [] (encodeBits (treeCodes root) headerFlipInput)))))))) := by
    have hlast : (Fin.ofNat (e1.2.length / 256 ^ 7 % 256) : Byte) = 0 := by
      have : e1.2.length / 256 ^ 7 = 0 := Nat.div_eq_of_lt (by omega)
      rw [this]; rfl
    have h254 : toBytes 8 254 = (254 : Byte) :: toBytes 7 0 := by decide
    unfold streamBytes headerBytes
    rw [hcount, he, he1, hx0, h254]
    simp only [List.map_cons, List.flatten_cons]
    simp only [entryBytes, toBytes_snoc 7 e1.2.length, hlast, List.cons_append,
      List.append_assoc, List.nil_append, List.singleton_append]
  have hflip : flipByte 0 (streamBytes (treeCodes root) headerFlipInput) =
      headerBytes (storeCodes [((0 : Byte), [true])] (fun _ => none)) ++
        ((e1.1 :: toBytes 7 e1.2.length) ++ ((0 : Byte) :: (pack 1 [] e1.2 ++
          ((es2.map entryBytes).flatten ++ (toBytes 8 headerFlipInput.length ++
            pack 8 [] (encodeBits (treeCodes root) headerFlipInput)))))) := by
    have hc254 : complement 254 = 1 := by decide
    have h1 : toBytes 8 1 = (1 : Byte) :: toBytes 7 0 := by decide
    rw [hstream, flipByte_zero_cons, hc254]
    simp only [headerBytes, entriesOf_single, List.length_singleton, h1, List.map_cons,
      List.map_nil, List.flatten_cons, List.flatten_nil, List.append_nil, List.cons_append,
      List.append_assoc]
  rw [hflip]
  unfold decompress
  rw [read_coding_table_header _ _ (by
    intro c x hcx
    have := (mem_entriesOf _ c x).2 hcx
    rw [entriesOf_single] at this
    simp only [List.mem_singleton, Prod.mk.injEq] at this
    rw [this.2]
    simp)]
  dsimp only
  rw [build_trie_single]
  have hdec : decode_input
      ⟨(e1.1 :: toBytes 7 e1.2.length) ++ ((0 : Byte) :: (pack 1 [] e1.2 ++
          ((es2.map entryBytes).flatten ++ (toBytes 8 headerFlipInput.length ++
            pack 8 [] (encodeBits (treeCodes root) headerFlipInput))))), false⟩ []
      (.node .null (.node .null .null 0) 0) = (.nullDeref, []) := by
    unfold decode_input
    rw [Deserialize_exact 8 0 _ _ (by simp [toBytes_length])]
    dsimp only
    rw [if_neg (by simp)]
    have hsz : fromBytes (e1.1 :: toBytes 7 e1.2.length)
        = (e1.1.val + 256 * fromBytes (toBytes 7 e1.2.length) - 1) + 1 := by
      have : (1 : Byte).val = 1 := rfl
      rw [fromBytes, he1', this]
      omega
    rw [hsz]
    exact decode_loop_null_left (.node .null .null 0) rfl 0 _ _ (by
      simp only [List.length_append, toBytes_length]
      omega) []
  rw [hdec]

end Huffman

namespace Huffman

/-! ## Lengths under the Kraft inequality: merging the two smallest weights -/

theorem kraftSum_perm (D : Nat) (ps qs : List (Nat × Nat)) (h : ps.Perm qs) :
    kraftSum D ps = kraftSum D qs :=
  (h.map _).sum_eq

theorem weightedLength_perm (ps qs : List (Nat × Nat)) (h : ps.Perm qs) :
    weightedLength ps = weightedLength qs :=
  (h.map _).sum_eq

theorem KraftOk_perm (D : Nat) (ps qs : List (Nat × Nat)) (h : ps.Perm qs)
    (hk : KraftOk D ps) : KraftOk D qs :=
  ⟨fun p hp => hk.1 p (h.symm.subset hp), by rw [← kraftSum_perm D ps qs h]; exact hk.2⟩

theorem kraftSum_cons (D : Nat) (p : Nat × Nat) (ps : List (Nat × Nat)) :
    kraftSum D (p :: ps) = 2 ^ (D - p.2) + kraftSum D ps := by
  simp [kraftSum]

theorem weightedLength_cons (p : Nat × Nat) (ps : List (Nat × Nat)) :
    weightedLength (p :: ps) = p.1 * p.2 + weightedLength ps := by
  simp [weightedLength]

/-- All Kraft terms of lengths below `L` are multiples of `2 ^ (D - L + 1)`. -/
theorem kraftSum_dvd (D L : Nat) (hL : L ≤ D) (ps : List (Nat × Nat))
    (h : ∀ p ∈ ps, p.2 < L) : ∃ k, kraftSum D ps = 2 ^ (D - L + 1) * k := by
  induction ps with
  | nil => exact ⟨0, by simp [kraftSum]⟩
  | cons p ps ih =>
    obtain ⟨k, hk⟩ := ih (fun q hq => h q (by simp [hq]))
    have hp := h p (by simp)
    refine ⟨2 ^ (L - 1 - p.2) + k, ?_⟩
    rw [kraftSum_cons, hk, Nat.mul_add, ← pow_add]
    congr 2
    omega

/-- When exactly one length is the greatest, it can be shortened by one. -/
theorem KraftOk_shorten (D : Nat) (x L : Nat) (ps : List (Nat × Nat)) (hL : 1 ≤ L)
    (hlt : ∀ p ∈ ps, p.2 < L) (hk : KraftOk D ((x, L) :: ps)) :
    KraftOk D ((x, L - 1) :: ps) := by
  have hLD : L ≤ D := hk.1 (x, L) (by simp)
  obtain ⟨k, hk'⟩ := kraftSum_dvd D L hLD ps hlt
  have h2 := hk.2
  rw [kraftSum_cons, hk'] at h2
  simp only at h2
  refine ⟨?_, ?_⟩
  · intro p hp
    rcases List.mem_cons.1 hp with rfl | h
    · simp only; omega
    · exact hk.1 p (by simp [h])
  · rw [kraftSum_cons, hk']
    simp only
    have e1 : D - (L - 1) = D - L + 1 := by omega
    have e2 : 2 ^ D = 2 ^ (D - L + 1) * 2 ^ (L - 1) := by
      rw [← pow_add]; congr 1; omega
    have e3 : 2 ^ (D - L + 1) = 2 * 2 ^ (D - L) := by
      rw [pow_succ]; ring
    have hu : 0 < 2 ^ (D - L) := by positivity
    rw [e2, e3] at h2
    rw [e1, e2, e3]
    generalize 2 ^ (D - L) = u at h2 hu ⊢
    generalize 2 ^ (L - 1) = m at h2 ⊢
    have h3 : u * (1 + 2 * k) ≤ u * (2 * m) := by
      have e : u * (1 + 2 * k) = u + 2 * u * k := by ring
      have e' : u * (2 * m) = 2 * u * m := by ring
      rw [e, e']; exact h2
    have h4 : 1 + 2 * k ≤ 2 * m := Nat.le_of_mul_le_mul_left h3 hu
    have h5 : k + 1 ≤ m := by omega
    have h6 : 2 * u * (k + 1) ≤ 2 * u * m := Nat.mul_le_mul_left _ h5
    have e : 2 * u * (k + 1) = 2 * u + 2 * u * k := by ring
    rw [e] at h6
    exact h6

theorem swap_weighted (a z l L : Nat) (haz : a ≤ z) (hl : l ≤ L) :
    a * L + z * l ≤ a * l + z * L := by
  obtain ⟨d, rfl⟩ := Nat.exists_eq_add_of_le haz
  obtain ⟨e, rfl⟩ := Nat.exists_eq_add_of_le hl
  have : a * (l + e) + (a + d) * l + d * e = a * l + (a + d) * (l + e) := by ring
  omega

theorem perm_cons_of_mem {α : Type} (z : α) (l : List α) (h : z ∈ l) :
    ∃ l0, l.Perm (z :: l0) := by
  obtain ⟨s, t, rfl⟩ := List.append_of_mem h
  exact ⟨s ++ t, List.perm_middle⟩

/-- Lifting a permutation of the weights to the pairs. -/
theorem perm_lift (ps : List (Nat × Nat)) (a : Nat) (T : List Nat)
    (h : (ps.map Prod.fst).Perm (a :: T)) :
    ∃ l ps0, ps.Perm ((a, l) :: ps0) ∧ (ps0.map Prod.fst).Perm T := by
  have ha : a ∈ ps.map Prod.fst := h.symm.subset (by simp)
  obtain ⟨p, hp, hpa⟩ := List.mem_map.1 ha
  obtain ⟨ps0, h1⟩ := perm_cons_of_mem p ps hp
  refine ⟨p.2, ps0, ?_, ?_⟩
  · have : p = (a, p.2) := Prod.ext hpa rfl
    rw [← this]
    exact h1
  · have h2 : ((p :: ps0).map Prod.fst).Perm (a :: T) := (h1.map _).symm.trans h
    rw [List.map_cons, hpa] at h2
    exact h2.cons_inv

/-- The exchange step of the optimality argument: lengths that satisfy the Kraft inequality
for weights whose two smallest are `a` and `b` give lengths for the weights with `a` and `b`
replaced by `a + b`, with a weighted length smaller by at least `a + b`. -/
theorem merge_lengths (D : Nat) : ∀ (n : Nat) (a la b lb : Nat) (rest : List (Nat × Nat)),
    la + lb + 2 * (rest.map Prod.snd).sum = n →
    KraftOk D ((a, la) :: (b, lb) :: rest) → a ≤ b → (∀ p ∈ rest, b ≤ p.1) →
    ∃ l' rest', (rest'.map Prod.fst).Perm (rest.map Prod.fst) ∧
      KraftOk D ((a + b, l') :: rest') ∧
      weightedLength ((a + b, l') :: rest') + a + b
        ≤ weightedLength ((a, la) :: (b, lb) :: rest) := by
  intro n
  induction n using Nat.strong_induction_on with
  | _ n ih =>
    intro a la b lb rest hn hk hab hrest
    by_cases h1 : ∃ z ∈ rest, la < z.2
    · -- an entry of the rest is longer than the code of `a`: exchange the two lengths
      obtain ⟨z, hz, hlz⟩ := h1
      obtain ⟨rest0, hp⟩ := perm_cons_of_mem z rest hz
      have hsum : (rest.map Prod.snd).sum = z.2 + (rest0.map Prod.snd).sum := by
        rw [(hp.map Prod.snd).sum_eq]; simp
      have hperm1 : ((a, la) :: (b, lb) :: rest).Perm
          ((a, la) :: z :: (b, lb) :: rest0) :=
        List.Perm.cons _ (((List.Perm.cons _ hp)).trans (List.Perm.swap _ _ _))
      have hperm2 : ((a, z.2) :: (z.1, la) :: (b, lb) :: rest0).Perm
          ((a, z.2) :: (b, lb) :: (z.1, la) :: rest0) :=
        List.Perm.cons _ (List.Perm.swap _ _ _)
      have hk1 := KraftOk_perm D _ _ hperm1 hk
      have hk2 : KraftOk D ((a, z.2) :: (z.1, la) :: (b, lb) :: rest0) := by
        refine ⟨?_, ?_⟩
        · intro p hp'
          simp only [List.mem_cons] at hp'
          rcases hp' with rfl | rfl | rfl | h
          · exact hk1.1 z (by simp)
          · exact hk1.1 (a, la) (by simp)
          · exact hk1.1 (b, lb) (by simp)
          · exact hk1.1 p (by simp [h])
        · have := hk1.2
          simp only [kraftSum_cons] at this ⊢
          omega
      obtain ⟨l', rest', hr1, hr2, hr3⟩ := ih (z.2 + lb + 2 * (((z.1, la) :: rest0).map
          Prod.snd).sum) (by simp only [List.map_cons, List.sum_cons]; omega)
        a z.2 b lb ((z.1, la) :: rest0) rfl (KraftOk_perm D _ _ hperm2 hk2) hab (by
          intro p hp'
          rcases List.mem_cons.1 hp' with rfl | h
          · exact hrest z hz
          · exact hrest p (hp.symm.subset (by simp [h])))
      refine ⟨l', rest', ?_, hr2, ?_⟩
      · refine hr1.trans ?_
        exact (hp.map Prod.fst).symm
      · have hw := swap_weighted a z.1 la z.2 (le_trans hab (hrest z hz)) (by omega)
        have e1 := weightedLength_perm _ _ hperm1
        have e2 := weightedLength_perm _ _ hperm2
        simp only [weightedLength_cons] at e1 e2 hr3 ⊢
        omega
    · by_cases h2 : ∃ z ∈ rest, lb < z.2
      · -- an entry of the rest is longer than the code of `b`
        obtain ⟨z, hz, hlz⟩ := h2
        obtain ⟨rest0, hp⟩ := perm_cons_of_mem z rest hz
        have hsum : (rest.map Prod.snd).sum = z.2 + (rest0.map Prod.snd).sum := by
          rw [(hp.map Prod.snd).sum_eq]; simp
        have hperm1 : ((a, la) :: (b, lb) :: rest).Perm
            ((a, la) :: (b, lb) :: z :: rest0) :=
          List.Perm.cons _ (List.Perm.cons _ hp)
        have hk1 := KraftOk_perm D _ _ hperm1 hk
        have hk2 : KraftOk D ((a, la) :: (b, z.2) :: (z.1, lb) :: rest0) := by
          refine ⟨?_, ?_⟩
          · intro p hp'
            simp only [List.mem_cons] at hp'
            rcases hp' with rfl | rfl | rfl | h
            · exact hk1.1 (a, la) (by simp)
            · exact hk1.1 z (by simp)
            · exact hk1.1 (b, lb) (by simp)
            · exact hk1.1 p (by simp [h])
          · have := hk1.2
            simp only [kraftSum_cons] at this ⊢
            omega
        obtain ⟨l', rest', hr1, hr2, hr3⟩ := ih (la + z.2 + 2 * (((z.1, lb) :: rest0).map
            Prod.snd).sum) (by simp only [List.map_cons, List.sum_cons]; omega)
          a la b z.2 ((z.1, lb) :: rest0) rfl hk2 hab (by
            intro p hp'
            rcases List.mem_cons.1 hp' with rfl | h
            · exact hrest z hz
            · exact hrest p (hp.symm.subset (by simp [h])))
        refine ⟨l', rest', ?_, hr2, ?_⟩
        · refine hr1.trans ?_
          exact (hp.map Prod.fst).symm
        · have hw := swap_weighted b z.1 lb z.2 (hrest z hz) (by omega)
          have e1 := weightedLength_perm _ _ hperm1
          simp only [weightedLength_cons] at e1 hr3 ⊢
          omega
      · -- no entry of the rest is longer than the codes of `a` and `b`
        have hr_a : ∀ p ∈ rest, p.2 ≤ la := fun p hp => by
          by_contra hlt; exact h1 ⟨p, hp, by omega⟩
        have hr_b : ∀ p ∈ rest, p.2 ≤ lb := fun p hp => by
          by_contra hlt; exact h2 ⟨p, hp, by omega⟩
        rcases Nat.lt_trichotomy la lb with hlt | heq | hgt
        · -- `b` alone has the greatest length: shorten it
          have hperm : ((a, la) :: (b, lb) :: rest).Perm ((b, lb) :: (a, la) :: rest) :=
            List.Perm.swap _ _ _
          have hk1 := KraftOk_shorten D b lb ((a, la) :: rest) (by omega) (by
            intro p hp
            rcases List.mem_cons.1 hp with rfl | h
            · exact hlt
            · exact lt_of_le_of_lt (hr_a p h) hlt) (KraftOk_perm D _ _ hperm hk)
          obtain ⟨l', rest', hr1, hr2, hr3⟩ := ih (la + (lb - 1) + 2 * (rest.map Prod.snd).sum)
            (by omega) a la b (lb - 1) rest rfl
            (KraftOk_perm D _ _ (List.Perm.swap _ _ _) hk1) hab hrest
          refine ⟨l', rest', hr1, hr2, ?_⟩
          have : b * (lb - 1) ≤ b * lb := Nat.mul_le_mul_left _ (by omega)
          simp only [weightedLength_cons] at hr3 ⊢
          omega
        · -- both have the greatest length: merge them
          subst heq
          have hpos : 1 ≤ la := by
            by_contra h0
            have h0' : la = 0 := by omega
            have := hk.2
            simp only [kraftSum_cons, h0', Nat.sub_zero] at this
            have : 0 < 2 ^ D := by positivity
            omega
          have hlaD : la ≤ D := hk.1 (a, la) (by simp)
          refine ⟨la - 1, rest, List.Perm.refl _, ⟨?_, ?_⟩, ?_⟩
          · intro p hp
            rcases List.mem_cons.1 hp with rfl | h
            · simp only; omega
            · exact hk.1 p (by simp [h])
          · have := hk.2
            simp only [kraftSum_cons] at this ⊢
            have e : 2 ^ (D - (la - 1)) = 2 ^ (D - la) + 2 ^ (D - la) := by
              have : D - (la - 1) = (D - la) + 1 := by omega
              rw [this, pow_succ]; ring
            omega
          · simp only [weightedLength_cons]
            have : (a + b) * (la - 1) + (a + b) = (a + b) * la := by
              have : la = (la - 1) + 1 := by omega
              conv_rhs => rw [this, Nat.mul_add, Nat.mul_one]
            have e2 : (a + b) * la = a * la + b * la := by ring
            omega
        · -- `a` alone has the greatest length: shorten it
          have hk1 := KraftOk_shorten D a la ((b, lb) :: rest) (by omega) (by
            intro p hp
            rcases List.mem_cons.1 hp with rfl | h
            · exact hgt
            · exact lt_of_le_of_lt (hr_b p h) hgt) hk
          obtain ⟨l', rest', hr1, hr2, hr3⟩ := ih ((la - 1) + lb + 2 * (rest.map Prod.snd).sum)
            (by omega) a (la - 1) b lb rest rfl hk1 hab hrest
          refine ⟨l', rest', hr1, hr2, ?_⟩
          have : a * (la - 1) ≤ a * la := Nat.mul_le_mul_left _ (by omega)
          simp only [weightedLength_cons] at hr3 ⊢
          omega

end Huffman

namespace Huffman

/-! ## The Kraft inequality for prefix-free codes -/

theorem codeKraft_cons (D : Nat) (c : List Bool) (cs : List (List Bool)) :
    codeKraft D (c :: cs) = 2 ^ (D - c.length) + codeKraft D cs := by
  simp [codeKraft]

theorem tailsOf_cons_cons (b x : Bool) (t : List Bool) (cs : List (List Bool)) :
    tailsOf b ((x :: t) :: cs) = if x = b then t :: tailsOf b cs else tailsOf b cs := by
  unfold tailsOf
  by_cases h : x = b <;> simp [List.filterMap_cons, h]

theorem mem_tailsOf (b : Bool) (cs : List (List Bool)) (t : List Bool) :
    t ∈ tailsOf b cs ↔ (b :: t) ∈ cs := by
  induction cs with
  | nil => simp [tailsOf]
  | cons c cs ih =>
    cases c with
    | nil =>
      have : tailsOf b ([] :: cs) = tailsOf b cs := by simp [tailsOf, List.filterMap_cons]
      rw [this, ih]
      simp
    | cons x u =>
      rw [tailsOf_cons_cons]
      by_cases h : x = b
      · subst h
        simp [ih]
      · simp only [h, if_false, ih, List.mem_cons, List.cons.injEq]
        constructor
        · intro h1; exact Or.inr h1
        · rintro (⟨h1, _⟩ | h1)
          · exact absurd h1.symm h
          · exact h1

theorem codeKraft_split (D : Nat) (cs : List (List Bool)) (hne : [] ∉ cs) :
    codeKraft (D + 1) cs = codeKraft D (tailsOf false cs) + codeKraft D (tailsOf true cs) := by
  induction cs with
  | nil => simp [codeKraft, tailsOf]
  | cons c cs ih =>
    have ih' := ih (fun h => hne (by simp [h]))
    cases c with
    | nil => exact absurd (by simp) hne
    | cons x t =>
      have e : D + 1 - (x :: t).length = D - t.length := by simp
      rw [codeKraft_cons, ih', e, tailsOf_cons_cons, tailsOf_cons_cons]
      cases x <;> simp [codeKraft_cons] <;> omega

theorem tailsOf_pairwise (b : Bool) (cs : List (List Bool)) (h : cs.Pairwise NoPrefix) :
    (tailsOf b cs).Pairwise NoPrefix := by
  induction cs with
  | nil => simp [tailsOf]
  | cons c cs ih =>
    rw [List.pairwise_cons] at h
    cases c with
    | nil =>
      have : tailsOf b ([] :: cs) = tailsOf b cs := by simp [tailsOf, List.filterMap_cons]
      rw [this]
      exact ih h.2
    | cons x t =>
      rw [tailsOf_cons_cons]
      by_cases hx : x = b
      · subst hx
        simp only [if_true, List.pairwise_cons]
        refine ⟨?_, ih h.2⟩
        intro u hu
        have := h.1 (x :: u) ((mem_tailsOf x cs u).1 hu)
        exact ⟨fun hp => this.1 ((List.prefix_cons_inj x).2 hp),
          fun hp => this.2 ((List.prefix_cons_inj x).2 hp)⟩
      · simp only [hx, if_false]
        exact ih h.2

/-- The Kraft inequality: codes of length at most `D`, none a prefix of another, have a Kraft
sum of at most 1. -/
theorem kraft_inequality (D : Nat) : ∀ (cs : List (List Bool)), (∀ c ∈ cs, c.length ≤ D) →
    cs.Pairwise NoPrefix → codeKraft D cs ≤ 2 ^ D := by
  induction D with
  | zero =>
    intro cs hlen hpw
    match cs, hlen, hpw with
    | [], _, _ => simp [codeKraft]
    | [c], hlen, _ =>
      simp [codeKraft]
    | c1 :: c2 :: cs, hlen, hpw =>
      exfalso
      have h1 : c1 = [] := List.length_eq_zero.1 (Nat.le_zero.1 (hlen c1 (by simp)))
      have h2 : c2 = [] := List.length_eq_zero.1 (Nat.le_zero.1 (hlen c2 (by simp)))
      rw [List.pairwise_cons] at hpw
      have := hpw.1 c2 (by simp)
      rw [h1, h2] at this
      exact this.1 (List.prefix_refl _)
  | succ D ih =>
    intro cs hlen hpw
    by_cases hnil : [] ∈ cs
    · -- the empty code is the only code
      match cs, hlen, hpw, hnil with
      | [c], _, _, hnil =>
        have : c = [] := (List.mem_singleton.1 hnil).symm
        subst this
        simp [codeKraft]
      | c1 :: c2 :: cs, _, hpw, hnil =>
        exfalso
        rw [List.pairwise_cons] at hpw
        by_cases h1 : c1 = []
        · have := hpw.1 c2 (by simp)
          rw [h1] at this
          exact this.1 List.nil_prefix
        · have hmem : [] ∈ c2 :: cs := by
            rcases List.mem_cons.1 hnil with h | h
            · exact absurd h.symm h1
            · exact h
          have := hpw.1 [] hmem
          exact this.2 List.nil_prefix
    · rw [codeKraft_split D cs hnil]
      have h0 := ih (tailsOf false cs) (by
        intro t ht
        have := hlen _ ((mem_tailsOf false cs t).1 ht)
        simp only [List.length_cons] at this
        omega) (tailsOf_pairwise false cs hpw)
      have h1 := ih (tailsOf true cs) (by
        intro t ht
        have := hlen _ ((mem_tailsOf true cs t).1 ht)
        simp only [List.length_cons] at this
        omega) (tailsOf_pairwise true cs hpw)
      rw [pow_succ]
      omega

theorem mem_le_sum (l : List Nat) (x : Nat) (h : x ∈ l) : x ≤ l.sum := by
  induction l with
  | nil => simp at h
  | cons y l ih =>
    simp only [List.sum_cons]
    rcases List.mem_cons.1 h with rfl | h'
    · omega
    · have := ih h'
      omega

/-- The lengths of a prefix-free code for the bytes of nonzero frequency satisfy the Kraft
inequality. -/
theorem prefixCode_KraftOk (freq : Freq) (other : Codes) (h : IsPrefixCodeFor freq other) :
    ∃ D, KraftOk D ((support freq).map (fun b => (freq b, ((other b).getD []).length))) := by
  refine ⟨((support freq).map (fun b => ((other b).getD []).length)).sum, ?_, ?_⟩
  · intro p hp
    obtain ⟨b, hb, rfl⟩ := List.mem_map.1 hp
    exact mem_le_sum _ _ (List.mem_map.2 ⟨b, hb, rfl⟩)
  · have hpw : ((support freq).map (fun b => (other b).getD [])).Pairwise NoPrefix := by
      rw [List.pairwise_map]
      refine (support_nodup freq).imp_of_mem ?_
      intro a b ha hb hab
      have hfa := (mem_support freq a).1 ha
      have hfb := (mem_support freq b).1 hb
      obtain ⟨x, hx⟩ := Option.isSome_iff_exists.1 (h.1 a hfa)
      obtain ⟨y, hy⟩ := Option.isSome_iff_exists.1 (h.1 b hfb)
      rw [hx, hy]
      exact ⟨h.2 a b x y hab hfa hfb hx hy, h.2 b a y x (Ne.symm hab) hfb hfa hy hx⟩
    have := kraft_inequality _ _ (by
      intro c hc
      obtain ⟨b, hb, rfl⟩ := List.mem_map.1 hc
      exact mem_le_sum _ _ (List.mem_map.2 ⟨b, hb, rfl⟩)) hpw
    simpa [kraftSum, codeKraft, List.map_map, Function.comp] using this

end Huffman

namespace Huffman

/-! ## Weights, costs and the merge loop -/

theorem weight_leaf (freq : Freq) (i : Byte) : weight freq (.node .null .null i) = freq i := by
  simp [weight, leaves, NodePtr.isNull]

theorem cost_leaf (freq : Freq) (i : Byte) : cost freq (.node .null .null i) = 0 := by
  simp [cost, NodePtr.isNull]

theorem weight_node (freq : Freq) (l r : NodePtr) (c : Byte) (hl : Full l) :
    weight freq (.node l r c) = weight freq l + weight freq r := by
  simp [weight, leaves_node_full l r c hl]

theorem cost_node (freq : Freq) (l r : NodePtr) (c : Byte) (hl : Full l) :
    cost freq (.node l r c) = cost freq l + cost freq r + weight freq l + weight freq r := by
  cases l with
  | null => exact absurd hl (by simp [Full])
  | node _ _ _ => simp [cost, NodePtr.isNull]

theorem sum_map_filter (l : List Byte) (p : Byte → Bool) (f : Byte → Nat)
    (h : ∀ x, p x = false → f x = 0) : ((l.filter p).map f).sum = (l.map f).sum := by
  induction l with
  | nil => rfl
  | cons x l ih =>
    by_cases hx : p x = true
    · simp [List.filter_cons, hx, ih]
    · have : p x = false := by simpa using hx
      simp [List.filter_cons, this, ih, h x this]

theorem support_sum (freq : Freq) (g : Byte → Nat) :
    ((support freq).map (fun b => freq b * g b)).sum
      = ((List.finRange 256).map (fun b => freq b * g b)).sum := by
  unfold support
  apply sum_map_filter
  intro x hx
  have : freq x = 0 := by simpa using hx
  simp [this]

theorem support_sum_freq (freq : Freq) : ((support freq).map freq).sum = totalFreq freq := by
  unfold support totalFreq
  apply sum_map_filter
  intro x hx
  simpa using hx

theorem queue_weight_sum (freq : Freq) (q : PQ) :
    (q.map (fun e => weight freq e.2)).sum = ((queueLeaves q).map freq).sum := by
  induction q with
  | nil => rfl
  | cons e q ih =>
    simp only [List.map_cons, List.sum_cons, queueLeaves, List.map_append, List.sum_append, ih]
    rfl

theorem queue_weight_total (freq : Freq) (q : PQ) (h : ShapeInv freq q) :
    (q.map (fun e => weight freq e.2)).sum = totalFreq freq := by
  rw [queue_weight_sum, (h.2.map freq).sum_eq, support_sum_freq]

theorem PrioInv_step (freq : Freq) (tie : TieBreak) (htotal : totalFreq freq < 2 ^ 63) (q : PQ)
    (h2 : 2 ≤ q.length) (hs : ShapeInv freq q) (hI : PrioInv freq q) :
    PrioInv freq (merge_step tie q) := by
  obtain ⟨a, b, q2, hp, hm, _, _⟩ := merge_step_spec tie q h2
  have hsum := queue_weight_total freq q hs
  rw [(hp.map (fun e => weight freq e.2)).sum_eq] at hsum
  simp only [List.map_cons, List.sum_cons] at hsum
  have ha := hI a (hp.symm.subset (by simp))
  have hb := hI b (hp.symm.subset (by simp))
  have hfa : Full a.2 := hs.1 a (hp.symm.subset (by simp))
  rw [hm]
  intro e he
  rcases List.mem_append.1 he with h | h
  · exact hI e (hp.symm.subset (by simp [h]))
  · rw [List.mem_singleton.1 h]
    simp only
    rw [weight_node freq _ _ _ hfa, ha, hb, toLongLong_eq _ (by omega) (by omega)]
    push_cast
    ring

theorem OptInv_step (freq : Freq) (tie : TieBreak) (D K : Nat) (q : PQ) (h2 : 2 ≤ q.length)
    (hs : ShapeInv freq q) (hprio : PrioInv freq q) (hI : OptInv freq D K q) :
    OptInv freq D K (merge_step tie q) := by
  obtain ⟨a, b, q2, hp, hm, ha, hb⟩ := merge_step_spec tie q h2
  obtain ⟨ps, hps, hk, hK⟩ := hI
  have hfa : Full a.2 := hs.1 a (hp.symm.subset (by simp))
  have hle : ∀ x y : Int × NodePtr, x ∈ q → y ∈ q → x.1 ≤ y.1 →
      weight freq y.2 ≤ weight freq x.2 := by
    intro x y hx hy hxy
    rw [hprio x hx, hprio y hy] at hxy
    omega
  have haq : a ∈ q := hp.symm.subset (by simp)
  have hbq : b ∈ q := hp.symm.subset (by simp)
  have hab : weight freq a.2 ≤ weight freq b.2 := hle b a hbq haq (ha b hbq)
  have hbr : ∀ e ∈ q2, weight freq b.2 ≤ weight freq e.2 := fun e he =>
    hle e b (hp.symm.subset (by simp [he])) hbq (hb e (by simp [he]))
  -- bring the two smallest weights to the front of the lengths
  have hps' : (ps.map Prod.fst).Perm
      (weight freq a.2 :: weight freq b.2 :: q2.map (fun e => weight freq e.2)) :=
    hps.trans (hp.map _)
  obtain ⟨la, ps0, hps0, hps0'⟩ := perm_lift ps _ _ hps'
  obtain ⟨lb, rest, hrest, hrest'⟩ := perm_lift ps0 _ _ hps0'
  have hperm : ps.Perm ((weight freq a.2, la) :: (weight freq b.2, lb) :: rest) :=
    hps0.trans (List.Perm.cons _ hrest)
  obtain ⟨l', rest', hr1, hr2, hr3⟩ := merge_lengths D _ _ la _ lb rest rfl
    (KraftOk_perm D _ _ hperm hk) hab (by
      intro p hp'
      have : p.1 ∈ q2.map (fun e => weight freq e.2) :=
        hrest'.subset (List.mem_map.2 ⟨p, hp', rfl⟩)
      obtain ⟨e, he, hpe⟩ := List.mem_map.1 this
      rw [← hpe]
      exact hbr e he)
  refine ⟨(weight freq a.2 + weight freq b.2, l') :: rest', ?_, hr2, ?_⟩
  · rw [hm, List.map_append, List.map_cons, List.map_cons, List.map_nil]
    simp only
    rw [weight_node freq _ _ _ hfa]
    exact (List.Perm.cons _ (hr1.trans hrest')).trans (List.perm_append_singleton _ _).symm
  · have hcost : (q.map (fun e => cost freq e.2)).sum
        = cost freq a.2 + (cost freq b.2 + (q2.map (fun e => cost freq e.2)).sum) := by
      rw [(hp.map (fun e => cost freq e.2)).sum_eq]
      simp
    have hwl := weightedLength_perm _ _ hperm
    rw [hm, List.map_append, List.sum_append]
    simp only [List.map_cons, List.map_nil, List.sum_cons, List.sum_nil]
    rw [cost_node freq _ _ _ hfa]
    omega

/-- Induction over `build_trie_by_freq`: a property of the queue that holds of the initial
queue and that every iteration keeps (for queues of full trees over the bytes of nonzero
frequency) holds of the single entry the loop ends with, whose tree is returned. -/
theorem build_trie_by_freq_induct (tie : TieBreak) (freq : Freq) (I : PQ → Prop)
    (hne : support freq ≠ []) (h0 : I (initial_queue freq))
    (hstep : ∀ q, 2 ≤ q.length → ShapeInv freq q → I q → I (merge_step tie q)) :
    ∃ e, build_trie_by_freq tie freq = some e.2 ∧ I [e] ∧ ShapeInv freq [e] := by
  have hq0 : initial_queue freq ≠ [] := by
    rw [initial_queue_eq]; simpa using hne
  have hlen : (initial_queue freq).length ≤ CHAR_MX + 1 := by
    rw [initial_queue_eq, List.length_map]
    have := nodup_bytes_length _ (support_nodup freq)
    simp only [CHAR_MX]; omega
  obtain ⟨e, he, hs, hI⟩ := build_loop_induct tie (fun q => ShapeInv freq q ∧ I q)
    (fun q h2 h => ⟨ShapeInv_step freq tie q h2 h.1, hstep q h2 h.1 h.2⟩)
    CHAR_MX (initial_queue freq) hq0 hlen ⟨ShapeInv_initial freq, h0⟩
  have htop : pq_top tie [e] = e := by
    have := pq_top_mem tie [e] (by simp)
    simpa using this
  have hem : (initial_queue freq).isEmpty = false := by
    cases h : initial_queue freq with
    | nil => exact absurd h hq0
    | cons _ _ => rfl
  exact ⟨e, by simp [build_trie_by_freq, hem, he, htop], hI, hs⟩

theorem codesOf_cost (freq : Freq) (t : NodePtr) (pre : List Bool) :
    ((codesOf t pre).map (fun e => freq e.1 * e.2.length)).sum
      = cost freq t + pre.length * weight freq t := by
  induction t generalizing pre with
  | null => simp [codesOf, cost, weight, leaves]
  | node l r c ihl ihr =>
    simp only [codesOf, cost, weight, leaves]
    split_ifs with h
    · simp [Nat.mul_comm]
    · simp only [List.map_append, List.sum_append, ihl, ihr, List.length_append,
        List.length_singleton, weight]
      ring

/-- The number of payload bits under the code table of a tree is the cost of the tree. -/
theorem codeCost_treeCodes (freq : Freq) (root : NodePtr)
    (hperm : (leaves root).Perm (support freq)) :
    codeCost freq (treeCodes root) = cost freq root := by
  have hnd : (leaves root).Nodup := hperm.symm.nodup (support_nodup freq)
  unfold codeCost
  rw [← support_sum freq (fun b => ((treeCodes root b).getD []).length),
    ← (hperm.map (fun b => freq b * ((treeCodes root b).getD []).length)).sum_eq,
    ← codesOf_fst root [], List.map_map]
  have := codesOf_cost freq root []
  simp only [List.length_nil, Nat.zero_mul, Nat.add_zero] at this
  rw [← this]
  congr 1
  apply List.map_congr_left
  intro e he
  have h1 := (treeCodes_some_iff root hnd e.1 e.2).2 he
  simp only [Function.comp, treeCodes] at h1 ⊢
  rw [h1]
  rfl

end Huffman

namespace Huffman

theorem freq_le_total (freq : Freq) (i : Byte) : freq i ≤ totalFreq freq :=
  mem_le_sum _ _ (List.mem_map.2 ⟨i, List.mem_finRange i, rfl⟩)

theorem PrioInv_initial (freq : Freq) (htotal : totalFreq freq < 2 ^ 63) :
    PrioInv freq (initial_queue freq) := by
  rw [initial_queue_eq]
  intro e he
  obtain ⟨i, _, rfl⟩ := List.mem_map.1 he
  have := freq_le_total freq i
  simp only [weight_leaf]
  exact toLongLong_eq _ (by omega) (by omega)

theorem OptInv_initial (freq : Freq) (other : Codes) (D : Nat)
    (hk : KraftOk D ((support freq).map (fun b => (freq b, ((other b).getD []).length)))) :
    OptInv freq D (codeCost freq other) (initial_queue freq) := by
  refine ⟨_, ?_, hk, ?_⟩
  · rw [initial_queue_eq, List.map_map, List.map_map]
    have : (support freq).map (Prod.fst ∘ fun b => (freq b, ((other b).getD []).length))
        = (support freq).map ((fun e => weight freq e.2) ∘
          fun i => (toLongLong (-(freq i : Int)), NodePtr.node NodePtr.null NodePtr.null i)) := by
      apply List.map_congr_left
      intro b _
      simp [weight_leaf]
    rw [this]
  · have hc : ((initial_queue freq).map (fun e => cost freq e.2)).sum = 0 := by
      rw [initial_queue_eq, List.map_map]
      have : ∀ l : List Byte, (l.map ((fun e => cost freq e.2) ∘
          fun i => (toLongLong (-(freq i : Int)), NodePtr.node NodePtr.null NodePtr.null i))).sum
          = 0 := by
        intro l
        induction l with
        | nil => rfl
        | cons x l ih => simp [cost_leaf, ih]
      exact this _
    rw [hc, Nat.add_zero]
    unfold weightedLength codeCost
    rw [List.map_map, ← support_sum freq (fun b => ((other b).getD []).length)]
    exact le_of_eq rfl

theorem treeCodes_isPrefixCode (freq : Freq) (root : NodePtr)
    (hperm : (leaves root).Perm (support freq)) : IsPrefixCodeFor freq (treeCodes root) := by
  have hnd : (leaves root).Nodup := hperm.symm.nodup (support_nodup freq)
  refine ⟨?_, ?_⟩
  · intro b hb
    exact (treeCodes_isSome_iff root hnd b).2 (hperm.symm.subset ((mem_support freq b).2 hb))
  · intro a b x y hab _ _ hx hy
    exact treeCodes_prefixFree root hnd a b x y hab hx hy

/-- The tree of `build_trie_by_freq` costs no more than any prefix-free code. -/
theorem build_trie_by_freq_optimal (tie : TieBreak) (freq : Freq)
    (htotal : totalFreq freq < 2 ^ 63) :
    ∃ root, build_trie_by_freq tie freq = some root ∧ (leaves root).Perm (support freq) ∧
      ∀ other, IsPrefixCodeFor freq other → cost freq root ≤ codeCost freq other := by
  by_cases hne : support freq = []
  · obtain ⟨root, hroot, hshape⟩ := build_trie_by_freq_spec tie freq
    rcases hshape with ⟨_, rfl⟩ | ⟨h, _⟩
    · refine ⟨.null, hroot, by rw [hne]; exact List.Perm.refl _, ?_⟩
      intro other _
      simp [cost]
    · exact absurd hne h
  · -- the tree does not depend on the competitor: build it first
    obtain ⟨e, he, hprio, hs⟩ := build_trie_by_freq_induct tie freq (PrioInv freq) hne
      (PrioInv_initial freq htotal)
      (fun q h2 hsh h => PrioInv_step freq tie htotal q h2 hsh h)
    refine ⟨e.2, he, by simpa [queueLeaves] using hs.2, ?_⟩
    intro other hother
    obtain ⟨D, hk⟩ := prefixCode_KraftOk freq other hother
    obtain ⟨e', he', ⟨_, ps, hps, _, hK⟩, _⟩ := build_trie_by_freq_induct tie freq
      (fun q => PrioInv freq q ∧ OptInv freq D (codeCost freq other) q) hne
      ⟨PrioInv_initial freq htotal, OptInv_initial freq other D hk⟩
      (fun q h2 hsh h => ⟨PrioInv_step freq tie htotal q h2 hsh h.1,
        OptInv_step freq tie D _ q h2 hsh h.1 h.2⟩)
    rw [he] at he'
    have : e.2 = e'.2 := Option.some.inj he'
    rw [this]
    simp only [List.map_cons, List.map_nil, List.sum_cons, List.sum_nil, Nat.add_zero] at hK
    omega

end Huffman

namespace Huffman

/-! ## The size of the compressed stream -/

theorem sum_ge_length_mul (l : List Nat) (c : Nat) (h : ∀ x ∈ l, c ≤ x) :
    l.length * c ≤ l.sum := by
  induction l with
  | nil => simp
  | cons x l ih =>
    have := ih (fun y hy => h y (by simp [hy]))
    have := h x (by simp)
    simp only [List.length_cons, List.sum_cons, Nat.add_mul, Nat.one_mul]
    omega

theorem sum_le_length_mul {α : Type} (l : List α) (f : α → Nat) (c : Nat)
    (h : ∀ x ∈ l, f x ≤ c) : (l.map f).sum ≤ l.length * c := by
  induction l with
  | nil => simp
  | cons x l ih =>
    have := ih (fun y hy => h y (by simp [hy]))
    have := h x (by simp)
    simp only [List.map_cons, List.length_cons, List.sum_cons, Nat.add_mul, Nat.one_mul]
    omega

theorem harmonicBound_mono (N : Nat) (m n : Nat) (h : m ≤ n) :
    harmonicBound N m ≤ harmonicBound N n := by
  induction n with
  | zero =>
    have : m = 0 := by omega
    rw [this]
  | succ n ih =>
    rcases Nat.eq_or_lt_of_le h with rfl | hlt
    · exact le_refl _
    · have := ih (by omega)
      cases n with
      | zero =>
        have : m = 0 := by omega
        rw [this]; simp [harmonicBound]
      | succ n =>
        simp only [harmonicBound]
        exact le_trans this (Nat.le_add_right _ _)

theorem SizeInv_step (freq : Freq) (tie : TieBreak) (B : Nat) (q : PQ) (h2 : 2 ≤ q.length)
    (hs : ShapeInv freq q) (hprio : PrioInv freq q) (hI : SizeInv freq B q) :
    SizeInv freq B (merge_step tie q) := by
  obtain ⟨a, b, q2, hp, hm, ha, hb⟩ := merge_step_spec tie q h2
  have hfa : Full a.2 := hs.1 a (hp.symm.subset (by simp))
  have hle : ∀ x y : Int × NodePtr, x ∈ q → y ∈ q → x.1 ≤ y.1 →
      weight freq y.2 ≤ weight freq x.2 := by
    intro x y hx hy hxy
    rw [hprio x hx, hprio y hy] at hxy
    omega
  have haq : a ∈ q := hp.symm.subset (by simp)
  have hbq : b ∈ q := hp.symm.subset (by simp)
  have hab : weight freq a.2 ≤ weight freq b.2 := hle b a hbq haq (ha b hbq)
  have hbr : ∀ x ∈ q2.map (fun e => weight freq e.2), weight freq b.2 ≤ x := by
    intro x hx
    obtain ⟨e, he, rfl⟩ := List.mem_map.1 hx
    exact hle e b (hp.symm.subset (by simp [he])) hbq (hb e (by simp [he]))
  have hrest := sum_ge_length_mul _ _ hbr
  rw [List.length_map] at hrest
  have hsum := queue_weight_total freq q hs
  rw [(hp.map (fun e => weight freq e.2)).sum_eq] at hsum
  simp only [List.map_cons, List.sum_cons] at hsum
  have hlen : q.length = q2.length + 2 := by
    rw [hp.length_eq]; simp
  have hcost : (q.map (fun e => cost freq e.2)).sum
      = cost freq a.2 + (cost freq b.2 + (q2.map (fun e => cost freq e.2)).sum) := by
    rw [(hp.map (fun e => cost freq e.2)).sum_eq]
    simp
  -- the two smallest of `m` weights are together at most `2 N / m`
  have hkey : weight freq a.2 + weight freq b.2 ≤ 2 * totalFreq freq / (q2.length + 2) := by
    rw [Nat.le_div_iff_mul_le (by omega)]
    have e1 : (weight freq a.2 + weight freq b.2) * (q2.length + 2)
        = q2.length * weight freq a.2 + q2.length * weight freq b.2
          + 2 * weight freq a.2 + 2 * weight freq b.2 := by ring
    have e2 : q2.length * weight freq a.2 ≤ q2.length * weight freq b.2 :=
      Nat.mul_le_mul_left _ hab
    omega
  unfold SizeInv at hI ⊢
  rw [hm]
  rw [hlen, hcost] at hI
  simp only [harmonicBound] at hI
  simp only [List.map_append, List.sum_append, List.map_cons, List.map_nil, List.sum_cons,
    List.sum_nil, List.length_append, List.length_singleton, cost_node freq _ _ _ hfa]
  omega

/-- The cost of the tree of `build_trie_by_freq` is at most the harmonic bound for the
number of bytes of nonzero frequency. -/
theorem build_trie_by_freq_cost_le (tie : TieBreak) (freq : Freq)
    (htotal : totalFreq freq < 2 ^ 63) :
    ∃ root, build_trie_by_freq tie freq = some root ∧
      cost freq root ≤ harmonicBound (totalFreq freq) (support freq).length := by
  by_cases hne : support freq = []
  · obtain ⟨root, hroot, hshape⟩ := build_trie_by_freq_spec tie freq
    rcases hshape with ⟨_, rfl⟩ | ⟨h, _⟩
    · exact ⟨.null, hroot, Nat.zero_le _⟩
    · exact absurd hne h
  · have hq0 : (initial_queue freq).length = (support freq).length := by
      rw [initial_queue_eq, List.length_map]
    have hc : ((initial_queue freq).map (fun e => cost freq e.2)).sum = 0 := by
      rw [initial_queue_eq, List.map_map]
      have : ∀ l : List Byte, (l.map ((fun e => cost freq e.2) ∘
          fun i => (toLongLong (-(freq i : Int)), NodePtr.node NodePtr.null NodePtr.null i))).sum
          = 0 := by
        intro l
        induction l with
        | nil => rfl
        | cons x l ih => simp [cost_leaf, ih]
      exact this _
    obtain ⟨e, he, ⟨_, hI⟩, _⟩ := build_trie_by_freq_induct tie freq
      (fun q => PrioInv freq q ∧
        SizeInv freq (harmonicBound (totalFreq freq) (support freq).length) q) hne
      ⟨PrioInv_initial freq htotal, by unfold SizeInv; rw [hc, hq0]; omega⟩
      (fun q h2 hsh h => ⟨PrioInv_step freq tie htotal q h2 hsh h.1,
        SizeInv_step freq tie _ q h2 hsh h.1 h.2⟩)
    refine ⟨e.2, he, ?_⟩
    unfold SizeInv at hI
    have h1 : harmonicBound (totalFreq freq) 1 = 0 := rfl
    rw [List.length_singleton, h1] at hI
    simp only [List.map_cons, List.map_nil, List.sum_cons, List.sum_nil] at hI
    omega

theorem sum_indicator (l : List Byte) (hnd : l.Nodup) (c : Byte) (hc : c ∈ l) (g : Byte → Nat) :
    (l.map (fun b => if b = c then g b else 0)).sum = g c := by
  induction l with
  | nil => simp at hc
  | cons x l ih =>
    rw [List.nodup_cons] at hnd
    rw [List.map_cons, List.sum_cons]
    by_cases hx : x = c
    · subst hx
      have : (l.map (fun b => if b = x then g b else 0)).sum = 0 := by
        apply List.sum_eq_zero
        intro y hy
        obtain ⟨b, hb, rfl⟩ := List.mem_map.1 hy
        have : b ≠ x := fun h => hnd.1 (h ▸ hb)
        simp only [this, if_false]
      rw [this, if_pos rfl, Nat.add_zero]
    · have hc' : c ∈ l := by
        rcases List.mem_cons.1 hc with h | h
        · exact absurd h.symm hx
        · exact h
      rw [if_neg hx, ih hnd.2 hc', Nat.zero_add]

theorem countFreq_cons (c : Byte) (data : List Byte) (b : Byte) :
    countFreq (c :: data) b = countFreq data b + (if b = c then 1 else 0) := by
  simp only [countFreq, List.count_cons]
  by_cases hb : b = c
  · subst hb; simp
  · have : ¬ (c == b) = true := by simpa using (Ne.symm hb)
    simp [hb, this]

/-- The number of payload bits is the frequency-weighted sum of the code lengths. -/
theorem encodeBits_length (codes : Codes) (data : List Byte) :
    (encodeBits codes data).length = codeCost (countFreq data) codes := by
  induction data with
  | nil =>
    unfold codeCost
    rw [List.sum_eq_zero]
    · rfl
    · intro y hy
      obtain ⟨b, _, rfl⟩ := List.mem_map.1 hy
      simp [countFreq]
  | cons c data ih =>
    have hsplit : ∀ b, countFreq (c :: data) b * ((codes b).getD []).length
        = countFreq data b * ((codes b).getD []).length
          + (if b = c then ((codes b).getD []).length else 0) := by
      intro b
      rw [countFreq_cons, Nat.add_mul]
      by_cases hb : b = c <;> simp [hb]
    simp only [encodeBits, List.length_append, ih, codeCost]
    rw [List.map_congr_left (fun b _ => hsplit b), List.sum_map_add,
      sum_indicator _ (List.nodup_finRange 256) c (List.mem_finRange c)]
    omega

theorem headerBytes_length (codes : Codes) :
    (headerBytes codes).length
      = 8 + ((entriesOf codes).map (fun e => 9 + (e.2.length + 7) / 8)).sum := by
  have hentry : ∀ e : Byte × List Bool, (entryBytes e).length = 9 + (e.2.length + 7) / 8 := by
    intro e
    have := pack_length 1 (Or.inl rfl) e.2 [] (by simp)
    simp only [entryBytes, List.length_cons, List.length_append, toBytes_length, this]
    simp
    omega
  have hfl : ∀ l : List (Byte × List Bool), ((l.map entryBytes).flatten).length
      = (l.map (fun e => 9 + (e.2.length + 7) / 8)).sum := by
    intro l
    induction l with
    | nil => rfl
    | cons e l ih => simp [hentry, ih]
  rw [headerBytes, List.length_append, toBytes_length, hfl]

theorem support_length_dedup (data : List Byte) :
    (support (countFreq data)).length = data.dedup.length := by
  apply List.Perm.length_eq
  rw [List.perm_ext_iff_of_nodup (support_nodup _) (List.nodup_dedup data)]
  intro a
  rw [mem_support_countFreq, List.mem_dedup]

theorem totalFreq_countFreq (data : List Byte) : totalFreq (countFreq data) = data.length := by
  induction data with
  | nil =>
    unfold totalFreq
    rw [List.sum_eq_zero]
    · rfl
    · intro y hy
      obtain ⟨b, _, rfl⟩ := List.mem_map.1 hy
      simp [countFreq]
  | cons c data ih =>
    unfold totalFreq at ih ⊢
    rw [List.map_congr_left (fun b _ => countFreq_cons c data b), List.sum_map_add,
      sum_indicator _ (List.nodup_finRange 256) c (List.mem_finRange c) (fun _ => 1), ih]
    rfl

end Huffman

namespace Huffman

/-! ## Claims C1 to C3: round trip, trailing bytes, truncation -/

/-- C1 (round trip). For every byte sequence `S` of fewer than `2 ^ 63` bytes (the empty
sequence and sequences with one distinct byte included) and every tie-break of the priority
queue, `compress` returns `OK`, and `decompress` on the bytes `compress` wrote returns `OK`
and writes exactly `S`. -/
theorem C1_round_trip (tie : TieBreak) (S : List Byte) (h : S.length < 2 ^ 63) :
    ∃ out, compress tie S = some (.returned .OK, out) ∧
      decompress out = (.returned .OK, S) := by
  have h64 : S.length < 2 ^ 64 := by omega
  obtain ⟨root, _, hshape, hc⟩ := compress_eq tie S h64
  exact ⟨_, hc, decompress_streamBytes _ S h64 (treeCodes_good root S hshape)⟩

/-- Witness of C1 on the input `aba`. -/
theorem C1_round_trip_witness :
    ([97, 98, 97] : List Byte).length < 2 ^ 63 ∧
      ∃ out, compress (fun _ => 0) [97, 98, 97] = some (.returned .OK, out) ∧
        decompress out = (.returned .OK, [97, 98, 97]) :=
  ⟨by decide, C1_round_trip (fun _ => 0) [97, 98, 97] (by decide)⟩

/-- C2 (trailing bytes are rejected). For every byte stream `X` on which `decompress` returns
`OK` and every non-empty byte sequence `Y`, `decompress` on `X` followed by `Y` returns
`MALFORMED_DATA` (after writing the output it wrote for `X`). -/
theorem C2_trailing_bytes_rejected (X Y out : List Byte)
    (hX : decompress X = (.returned .OK, out)) (hY : Y ≠ []) :
    decompress (X ++ Y) = (.returned .MALFORMED_DATA, out) :=
  decompress_extend X Y out hY hX

set_option maxRecDepth 1000000 in
/-- Witness of C2: the stream of the empty input followed by one byte. -/
theorem C2_trailing_bytes_rejected_witness :
    decompress [0, 0, 0, 0, 0, 0, 0, 0, 0, 0, 0, 0, 0, 0, 0, 0] = (.returned .OK, []) ∧
      ([48] : List Byte) ≠ [] ∧
      decompress ([0, 0, 0, 0, 0, 0, 0, 0, 0, 0, 0, 0, 0, 0, 0, 0] ++ [48]) =
        (.returned .MALFORMED_DATA, []) :=
  ⟨by decide, by decide,
    C2_trailing_bytes_rejected [0, 0, 0, 0, 0, 0, 0, 0, 0, 0, 0, 0, 0, 0, 0, 0] [48] []
      (by decide) (by decide)⟩

/-- C3 (truncation is rejected). For every input `S` of fewer than `2 ^ 63` bytes and every
tie-break, `decompress` on the bytes `compress` wrote for `S`, with the last byte removed,
returns `MALFORMED_DATA`. -/
theorem C3_truncation_rejected (tie : TieBreak) (S : List Byte) (h : S.length < 2 ^ 63) :
    ∃ out, compress tie S = some (.returned .OK, out) ∧
      (decompress out.dropLast).1 = .returned .MALFORMED_DATA := by
  have h64 : S.length < 2 ^ 64 := by omega
  obtain ⟨root, _, hshape, hc⟩ := compress_eq tie S h64
  exact ⟨_, hc, decompress_truncated _ S h64 (treeCodes_good root S hshape)⟩

/-- Witness of C3 on the input `aba`. -/
theorem C3_truncation_rejected_witness :
    ([97, 98, 97] : List Byte).length < 2 ^ 63 ∧
      ∃ out, compress (fun _ => 0) [97, 98, 97] = some (.returned .OK, out) ∧
        (decompress out.dropLast).1 = .returned .MALFORMED_DATA :=
  ⟨by decide, C3_truncation_rejected (fun _ => 0) [97, 98, 97] (by decide)⟩

/-! ## Claims C5 to C7 -/

set_option maxRecDepth 1000000 in
/-- C5 (empty header, nonzero element count), evaluated on the code: on the stream made of a
header entry count of 0 and an element count of 1, `decompress` returns `OK` and writes one
zero byte; it does not return `MALFORMED_DATA`. -/
theorem C5_empty_header_one_element :
    decompress [0, 0, 0, 0, 0, 0, 0, 0, 1, 0, 0, 0, 0, 0, 0, 0] = (.returned .OK, [0]) := by
  decide

set_option maxRecDepth 1000000 in
/-- C6 (`decompress` never aborts), evaluated on the code: on a stream whose header holds the
single code `0` for the byte `a`, with an element count of 1 and a payload word whose first
bit is 1, the decoding walk steps to the missing right child of the root and dereferences a
null pointer. -/
theorem C6_null_child_dereferenced :
    decompress [1, 0, 0, 0, 0, 0, 0, 0, 97, 1, 0, 0, 0, 0, 0, 0, 0, 0,
      1, 0, 0, 0, 0, 0, 0, 0, 1, 0, 0, 0, 0, 0, 0, 0] = (.aborted, []) := by
  decide

/-- C7 (entry count above 256). For every byte stream of at least 8 bytes whose first 8
bytes, read as an unsigned 64-bit integer, are greater than 256, `decompress` returns
`MALFORMED_HEADER` and writes nothing. -/
theorem C7_entry_count_too_large (data : List Byte) (hlen : 8 ≤ data.length)
    (hcount : fromBytes (data.take 8) > 256) :
    decompress data = (.returned .MALFORMED_HEADER, []) := by
  have hsplit : data = data.take 8 ++ data.drop 8 := (List.take_append_drop 8 data).symm
  have hl : (data.take 8).length = 8 := by simp; omega
  have hd := Deserialize_exact 8 0 (data.take 8) (data.drop 8) hl
  rw [← hsplit] at hd
  have hcond : ((Deserialize 8 0 ⟨data, false⟩).2.failbit ||
      decide ((Deserialize 8 0 ⟨data, false⟩).1 > CHAR_MX)) = true := by
    rw [hd]
    simp only [CHAR_MX, Bool.false_or, decide_eq_true_eq]
    exact hcount
  have hr : read_coding_table ⟨data, false⟩ (fun _ => none) = none := by
    unfold read_coding_table
    dsimp only
    rw [if_pos hcond]
  unfold decompress
  rw [hr]

/-- Witness of C7: a stream whose entry count is 257. -/
theorem C7_entry_count_too_large_witness :
    8 ≤ ([1, 1, 0, 0, 0, 0, 0, 0, 7] : List Byte).length ∧
      fromBytes (([1, 1, 0, 0, 0, 0, 0, 0, 7] : List Byte).take 8) > 256 ∧
      decompress [1, 1, 0, 0, 0, 0, 0, 0, 7] = (.returned .MALFORMED_HEADER, []) :=
  ⟨by decide, by decide, C7_entry_count_too_large [1, 1, 0, 0, 0, 0, 0, 0, 7] (by decide)
    (by decide)⟩

end Huffman

namespace Huffman

/-- C8 (stream ends inside the header). For every byte stream that has fewer than 8 bytes, or
that is a proper prefix of a serialized header (entry count, then for each entry the byte,
the 8-byte code length and `ceil(length / 8)` code bytes), `decompress` returns
`MALFORMED_HEADER` and writes nothing. -/
theorem C8_incomplete_header (X : List Byte)
    (h : X.length < 8 ∨ ∃ es k, (∀ e ∈ es, RawEntryOk e) ∧ es.length < 2 ^ 64 ∧
      k < (rawHeader es).length ∧ X = (rawHeader es).take k) :
    decompress X = (.returned .MALFORMED_HEADER, []) := by
  have hr : read_coding_table ⟨X, false⟩ (fun _ => none) = none := by
    rcases h with h | ⟨es, k, hwf, hn, hk, rfl⟩
    · exact read_coding_table_few X h
    · exact read_coding_table_short es k hwf hn hk
  unfold decompress
  rw [hr]

/-- Witness of C8: a header that declares one entry with a code of 9 bits and ends after the
first of its two code bytes. -/
theorem C8_incomplete_header_witness :
    (([1, 0, 0, 0, 0, 0, 0, 0, 97, 9, 0, 0, 0, 0, 0, 0, 0, 5] : List Byte).length < 8 ∨
      ∃ es k, (∀ e ∈ es, RawEntryOk e) ∧ es.length < 2 ^ 64 ∧ k < (rawHeader es).length ∧
        ([1, 0, 0, 0, 0, 0, 0, 0, 97, 9, 0, 0, 0, 0, 0, 0, 0, 5] : List Byte)
          = (rawHeader es).take k) ∧
      decompress [1, 0, 0, 0, 0, 0, 0, 0, 97, 9, 0, 0, 0, 0, 0, 0, 0, 5] =
        (.returned .MALFORMED_HEADER, []) :=
  have hyp : ([1, 0, 0, 0, 0, 0, 0, 0, 97, 9, 0, 0, 0, 0, 0, 0, 0, 5] : List Byte).length < 8 ∨
      ∃ es k, (∀ e ∈ es, RawEntryOk e) ∧ es.length < 2 ^ 64 ∧ k < (rawHeader es).length ∧
        ([1, 0, 0, 0, 0, 0, 0, 0, 97, 9, 0, 0, 0, 0, 0, 0, 0, 5] : List Byte)
          = (rawHeader es).take k :=
    Or.inr ⟨[(97, 9, [5, 1])], 18, by
      intro e he
      rw [List.mem_singleton.1 he]
      exact ⟨by norm_num, rfl⟩, by simp, by decide, by decide⟩
  ⟨hyp, C8_incomplete_header _ hyp⟩

end Huffman

namespace Huffman

/-- C9 (optimality). For every frequency table whose total is below `2 ^ 63` and every
tie-break between equal priorities, the code table that `calculate_codes` derives from the
tree of `build_trie_by_freq` is a prefix-free code for the bytes of nonzero frequency, and
its sum over the bytes of frequency times code length is at most that of every prefix-free
binary code for the bytes of nonzero frequency. -/
theorem C9_optimality (tie : TieBreak) (freq : Freq) (htotal : totalFreq freq < 2 ^ 63) :
    ∃ root, build_trie_by_freq tie freq = some root ∧
      IsPrefixCodeFor freq (calculate_codes root [] (fun _ => none)).2 ∧
      ∀ other, IsPrefixCodeFor freq other →
        codeCost freq (calculate_codes root [] (fun _ => none)).2 ≤ codeCost freq other := by
  obtain ⟨root, hroot, hperm, hopt⟩ := build_trie_by_freq_optimal tie freq htotal
  refine ⟨root, hroot, treeCodes_isPrefixCode freq root hperm, ?_⟩
  intro other hother
  have := codeCost_treeCodes freq root hperm
  unfold treeCodes at this
  rw [this]
  exact hopt other hother

set_option maxRecDepth 1000000 in
/-- Witness of C9: the frequencies of the input `aab`. -/
theorem C9_optimality_witness :
    totalFreq (countFreq [97, 97, 98]) < 2 ^ 63 ∧
      ∃ root, build_trie_by_freq (fun _ => 0) (countFreq [97, 97, 98]) = some root ∧
        IsPrefixCodeFor (countFreq [97, 97, 98]) (calculate_codes root [] (fun _ => none)).2 ∧
        ∀ other, IsPrefixCodeFor (countFreq [97, 97, 98]) other →
          codeCost (countFreq [97, 97, 98]) (calculate_codes root [] (fun _ => none)).2
            ≤ codeCost (countFreq [97, 97, 98]) other :=
  ⟨by decide, C9_optimality (fun _ => 0) (countFreq [97, 97, 98]) (by decide)⟩

end Huffman

namespace Huffman

/-- C10 (compactness). For every input of 100,000 bytes that uses at most 10 distinct byte
values and every tie-break, `compress` returns `OK` and writes fewer bytes than half the
length of the input (fewer than 50,000). -/
theorem C10_compactness (tie : TieBreak) (S : List Byte) (hlen : S.length = 100000)
    (hdistinct : S.dedup.length ≤ 10) :
    ∃ out, compress tie S = some (.returned .OK, out) ∧ 2 * out.length < S.length := by
  obtain ⟨root, hroot, hshape, hc⟩ := compress_eq tie S (by rw [hlen]; norm_num)
  refine ⟨_, hc, ?_⟩
  have htot : totalFreq (countFreq S) = 100000 := by rw [totalFreq_countFreq, hlen]
  have hsup : (support (countFreq S)).length ≤ 10 := by
    rw [support_length_dedup]; exact hdistinct
  have hperm : (leaves root).Perm (support (countFreq S)) := by
    rcases hshape with ⟨h0, rfl⟩ | ⟨_, _, h⟩
    · rw [h0]; exact List.Perm.refl _
    · exact h
  have hnd : (leaves root).Nodup := hperm.symm.nodup (support_nodup _)
  -- the payload
  obtain ⟨root', hroot', hcost⟩ := build_trie_by_freq_cost_le tie (countFreq S)
    (by rw [htot]; norm_num)
  rw [hroot] at hroot'
  have hrr : root = root' := Option.some.inj hroot'
  rw [← hrr, htot] at hcost
  have hbound : harmonicBound 100000 (support (countFreq S)).length ≤ 385792 :=
    le_trans (harmonicBound_mono 100000 _ 10 hsup) (by decide)
  have hbits : (encodeBits (treeCodes root) S).length ≤ 385792 := by
    rw [encodeBits_length, codeCost_treeCodes _ root hperm]
    exact le_trans hcost hbound
  have hpayload := pack_length 8 (Or.inr rfl) (encodeBits (treeCodes root) S) [] (by simp)
  simp only [List.length_nil, Nat.zero_add] at hpayload
  -- the header
  have hn : (entriesOf (treeCodes root)).length ≤ 10 := by
    have := congrArg List.length (entriesOf_fst_support (countFreq S) root hperm)
    rw [List.length_map] at this
    rw [this]; exact hsup
  have hentry : ∀ e ∈ entriesOf (treeCodes root), 9 + (e.2.length + 7) / 8 ≤ 11 := by
    intro e he
    have hsome := (mem_entriesOf (treeCodes root) e.1 e.2).1 he
    rcases hshape with ⟨_, rfl⟩ | ⟨_, hfull, _⟩
    · simp [treeCodes, calculate_codes] at hsome
    · have h1 := treeCodes_length_le root hfull hnd e.1 e.2 hsome
      have h2 := hperm.length_eq
      omega
  have hheader := sum_le_length_mul (entriesOf (treeCodes root))
    (fun e => 9 + (e.2.length + 7) / 8) 11 hentry
  have hmul : (entriesOf (treeCodes root)).length * 11 ≤ 110 := by omega
  rw [hlen]
  simp only [streamBytes, List.length_append, headerBytes_length, toBytes_length, hpayload]
  omega

/-- Witness of C10: 100,000 zero bytes. -/
theorem C10_compactness_witness :
    (List.replicate 100000 (0 : Byte)).length = 100000 ∧
      (List.replicate 100000 (0 : Byte)).dedup.length ≤ 10 ∧
      ∃ out, compress (fun _ => 0) (List.replicate 100000 (0 : Byte))
          = some (.returned .OK, out) ∧
        2 * out.length < (List.replicate 100000 (0 : Byte)).length :=
  ⟨List.length_replicate _ _,
    by rw [List.replicate_dedup (by norm_num)]; exact Nat.le_of_ble_eq_true rfl,
    C10_compactness (fun _ => 0) (List.replicate 100000 (0 : Byte)) (List.length_replicate _ _)
      (by rw [List.replicate_dedup (by norm_num)]; exact Nat.le_of_ble_eq_true rfl)⟩

end Huffman

namespace Huffman

/-- A full tree with a single leaf is that leaf. -/
theorem Full_single_leaf (t : NodePtr) (h : Full t) (b : Byte) (hl : leaves t = [b]) :
    t = .node .null .null b := by
  cases t with
  | null => exact absurd h (by simp [Full])
  | node l r c =>
    rcases h with ⟨rfl, rfl⟩ | ⟨hl1, hr1⟩
    · simp [leaves, NodePtr.isNull] at hl
      rw [hl]
    · have h1 := Full_leaves_pos l hl1
      have h2 := Full_leaves_pos r hr1
      have hne : (l.isNull && r.isNull) = false := by
        cases l with
        | null => exact absurd hl1 (by simp [Full])
        | node _ _ _ => rfl
      have := congrArg List.length hl
      simp only [leaves, hne, Bool.false_eq_true, if_false, List.length_append,
        List.length_singleton] at this
      omega

/-- The tree of a table with at least one nonzero entry: a full tree with the bytes of nonzero
frequency at its leaves; the null tree otherwise. -/
theorem build_trie_by_freq_null_iff (tie : TieBreak) (freq : Freq) (root : NodePtr)
    (h : build_trie_by_freq tie freq = some root) :
    root = .null ↔ ∀ b, freq b = 0 := by
  obtain ⟨root', hroot', hshape⟩ := build_trie_by_freq_spec tie freq
  rw [h] at hroot'
  have hrr : root = root' := Option.some.inj hroot'
  subst hrr
  rcases hshape with ⟨hs, rfl⟩ | ⟨hs, hfull, _⟩
  · refine ⟨fun _ b => ?_, fun _ => rfl⟩
    by_contra hb
    have := (mem_support freq b).2 hb
    rw [hs] at this
    exact absurd this (List.not_mem_nil _)
  · constructor
    · intro hnull
      rw [hnull] at hfull
      exact absurd hfull (by simp [Full])
    · intro hz
      exfalso
      apply hs
      apply List.eq_nil_iff_forall_not_mem.2
      intro b hb
      exact (mem_support freq b).1 hb (hz b)

end Huffman

namespace Huffman

/-! ## Claims C11, C13, C14, C17, C18 -/

set_option maxRecDepth 1000000 in
/-- C11 (empty input). For every tie-break, `compress` on the empty byte sequence returns `OK`
and writes exactly 16 zero bytes (entry count 0, element count 0, no payload), and
`decompress` on those 16 bytes returns `OK` and writes nothing. -/
theorem C11_empty_input (tie : TieBreak) :
    compress tie [] = some (.returned .OK, [0, 0, 0, 0, 0, 0, 0, 0, 0, 0, 0, 0, 0, 0, 0, 0]) ∧
      decompress [0, 0, 0, 0, 0, 0, 0, 0, 0, 0, 0, 0, 0, 0, 0, 0] = (.returned .OK, []) := by
  refine ⟨?_, by decide⟩
  obtain ⟨root, _, hshape, hc⟩ := compress_eq tie [] (by simp)
  have hs : support (countFreq []) = [] := by decide
  rcases hshape with ⟨_, rfl⟩ | ⟨hne, _⟩
  · have hbytes : streamBytes (treeCodes .null) []
        = [0, 0, 0, 0, 0, 0, 0, 0, 0, 0, 0, 0, 0, 0, 0, 0] := by decide
    rw [hc, hbytes]
  · exact absurd hs hne

/-- C13 (prefix-freeness). For every frequency table with at least two nonzero entries and
every tie-break, in the code table that `calculate_codes` derives from the tree of
`build_trie_by_freq` no code is empty, no two distinct bytes have the same code, and the code
of a byte is never a prefix of the code of another byte. -/
theorem C13_prefix_freeness (tie : TieBreak) (freq : Freq)
    (h : ∃ a b, a ≠ b ∧ freq a ≠ 0 ∧ freq b ≠ 0) :
    ∃ root, build_trie_by_freq tie freq = some root ∧
      (∀ b x, (calculate_codes root [] (fun _ => none)).2 b = some x → x ≠ []) ∧
      (∀ a b x y, a ≠ b → (calculate_codes root [] (fun _ => none)).2 a = some x →
        (calculate_codes root [] (fun _ => none)).2 b = some y → x ≠ y) ∧
      (∀ a b x y, a ≠ b → (calculate_codes root [] (fun _ => none)).2 a = some x →
        (calculate_codes root [] (fun _ => none)).2 b = some y → ¬ x <+: y) := by
  obtain ⟨a0, b0, hab, ha, hb⟩ := h
  obtain ⟨root, hroot, hshape⟩ := build_trie_by_freq_spec tie freq
  have ha' := (mem_support freq a0).2 ha
  have hb' := (mem_support freq b0).2 hb
  rcases hshape with ⟨hs, _⟩ | ⟨_, hfull, hperm⟩
  · rw [hs] at ha'
    exact absurd ha' (List.not_mem_nil _)
  have hnd : (leaves root).Nodup := hperm.symm.nodup (support_nodup _)
  have hpf := treeCodes_prefixFree root hnd
  refine ⟨root, hroot, ?_, ?_, hpf⟩
  · intro b x hx hnil
    subst hnil
    obtain ⟨p, hp, hsub⟩ := codesOf_subtree root [] b [] ((treeCodes_some_iff root hnd b []).1 hx)
    rw [List.nil_append] at hp
    rw [← hp, subtree_nil] at hsub
    have hl : leaves root = [b] := by rw [hsub]; simp [leaves, NodePtr.isNull]
    have h1 := hperm.symm.subset ha'
    have h2 := hperm.symm.subset hb'
    rw [hl] at h1 h2
    exact hab ((List.mem_singleton.1 h1).trans (List.mem_singleton.1 h2).symm)
  · intro a b x y hne hx hy hxy
    exact hpf a b x y hne hx hy (hxy ▸ List.prefix_refl x)

/-- Witness of C13: the frequencies of the input `aab`. -/
theorem C13_prefix_freeness_witness :
    (∃ a b, a ≠ b ∧ countFreq [97, 97, 98] a ≠ 0 ∧ countFreq [97, 97, 98] b ≠ 0) ∧
      ∃ root, build_trie_by_freq (fun _ => 0) (countFreq [97, 97, 98]) = some root ∧
        (∀ b x, (calculate_codes root [] (fun _ => none)).2 b = some x → x ≠ []) ∧
        (∀ a b x y, a ≠ b → (calculate_codes root [] (fun _ => none)).2 a = some x →
          (calculate_codes root [] (fun _ => none)).2 b = some y → x ≠ y) ∧
        (∀ a b x y, a ≠ b → (calculate_codes root [] (fun _ => none)).2 a = some x →
          (calculate_codes root [] (fun _ => none)).2 b = some y → ¬ x <+: y) :=
  ⟨⟨97, 98, by decide, by decide, by decide⟩,
    C13_prefix_freeness (fun _ => 0) (countFreq [97, 97, 98])
      ⟨97, 98, by decide, by decide, by decide⟩⟩

/-- C14 (tree shape). For every tie-break and frequency table, `build_trie_by_freq` returns
the null tree exactly when every frequency is zero; otherwise every node of the tree has no
child or two children and every byte of nonzero frequency is on exactly one leaf, every other
byte on none; `calculate_codes` gives the byte `b` a code if and only if `freq[b] > 0`; and
for every input of fewer than `2 ^ 64` bytes the entry count at the start of the stream that
`compress` writes is the number of distinct bytes of the input. -/
theorem C14_tree_shape (tie : TieBreak) :
    (∀ freq : Freq, ∃ root, build_trie_by_freq tie freq = some root ∧
      (root = .null ↔ ∀ b, freq b = 0) ∧
      (root ≠ .null →
        Full root ∧ ∀ b, (leaves root).count b = if freq b = 0 then 0 else 1) ∧
      (∀ b, ((calculate_codes root [] (fun _ => none)).2 b).isSome ↔ 0 < freq b)) ∧
    (∀ S : List Byte, S.length < 2 ^ 64 →
      ∃ out, compress tie S = some (.returned .OK, out) ∧
        out.take 8 = toBytes 8 S.dedup.length) := by
  constructor
  · intro freq
    obtain ⟨root, hroot, hshape⟩ := build_trie_by_freq_spec tie freq
    refine ⟨root, hroot, build_trie_by_freq_null_iff tie freq root hroot, ?_, ?_⟩
    · intro hnn
      rcases hshape with ⟨_, hnull⟩ | ⟨_, hfull, hperm⟩
      · exact absurd hnull hnn
      · refine ⟨hfull, fun b => ?_⟩
        have hnd : (leaves root).Nodup := hperm.symm.nodup (support_nodup _)
        by_cases hb : freq b = 0
        · rw [if_pos hb]
          apply List.count_eq_zero_of_not_mem
          intro hmem
          exact (mem_support freq b).1 (hperm.subset hmem) hb
        · rw [if_neg hb]
          exact List.count_eq_one_of_mem hnd (hperm.symm.subset ((mem_support freq b).2 hb))
    · intro b
      have hperm : (leaves root).Perm (support freq) := by
        rcases hshape with ⟨h0, rfl⟩ | ⟨_, _, h⟩
        · rw [h0]; exact List.Perm.refl _
        · exact h
      have hnd : (leaves root).Nodup := hperm.symm.nodup (support_nodup _)
      rw [treeCodes_isSome_iff root hnd b, hperm.mem_iff, mem_support]
      exact Nat.pos_iff_ne_zero.symm
  · intro S hS
    obtain ⟨root, _, hshape, hc⟩ := compress_eq tie S hS
    refine ⟨_, hc, ?_⟩
    have hperm : (leaves root).Perm (support (countFreq S)) := by
      rcases hshape with ⟨h0, rfl⟩ | ⟨_, _, h⟩
      · rw [h0]; exact List.Perm.refl _
      · exact h
    have hn : (entriesOf (treeCodes root)).length = S.dedup.length := by
      have := congrArg List.length (entriesOf_fst_support (countFreq S) root hperm)
      rw [List.length_map] at this
      rw [this, support_length_dedup]
    unfold streamBytes headerBytes
    rw [hn, List.append_assoc, List.take_left' (toBytes_length 8 _)]

set_option maxRecDepth 1000000 in
/-- Witness of C14 on the input `aba`. -/
theorem C14_tree_shape_witness :
    ([97, 98, 97] : List Byte).length < 2 ^ 64 ∧
      ∃ out, compress (fun _ => 0) [97, 98, 97] = some (.returned .OK, out) ∧
        out.take 8 = toBytes 8 ([97, 98, 97] : List Byte).dedup.length :=
  ⟨by decide, (C14_tree_shape (fun _ => 0)).2 [97, 98, 97] (by decide)⟩

/-- C17 (header round trip). For every code table in which every present code has at most
256 bits, `read_coding_table` on the bytes `write_coding_table` wrote, followed by any further
bytes, succeeds, consumes exactly the bytes `write_coding_table` wrote and yields the original
table. -/
theorem C17_header_round_trip (codes : Codes) (rest : List Byte)
    (hlen : ∀ c x, codes c = some x → x.length ≤ 256) :
    read_coding_table ⟨write_coding_table codes [] ++ rest, false⟩ (fun _ => none) =
      some (codes, ⟨rest, false⟩) := by
  rw [write_coding_table_eq, List.nil_append]
  exact read_coding_table_header codes rest hlen

/-- Witness of C17: the table with the single code `101` for the byte `a`, followed by one
further byte. -/
theorem C17_header_round_trip_witness :
    (∀ c x, (Function.update (fun _ => none) (97 : Byte) (some [true, false, true]) : Codes) c
        = some x → x.length ≤ 256) ∧
      read_coding_table
          ⟨write_coding_table (Function.update (fun _ => none) (97 : Byte)
            (some [true, false, true])) [] ++ [7], false⟩ (fun _ => none) =
        some (Function.update (fun _ => none) (97 : Byte) (some [true, false, true]),
          ⟨[7], false⟩) :=
  have hyp : ∀ c x,
      (Function.update (fun _ => none) (97 : Byte) (some [true, false, true]) : Codes) c
        = some x → x.length ≤ 256 := by
    intro c x hx
    by_cases hc : c = 97
    · subst hc
      rw [Function.update_same] at hx
      cases hx
      decide
    · rw [Function.update_noteq hc] at hx
      cases hx
  ⟨hyp, C17_header_round_trip _ [7] hyp⟩

/-- C18 (depth bound). For every input of fewer than `2 ^ 64` bytes and every tie-break,
every code of the table `compress` derives has a length of at most the number of distinct
byte values of the input, hence of at most 256 bits, and `read_coding_table` accepts the
stream `compress` wrote and yields that table. -/
theorem C18_depth_bound (tie : TieBreak) (S : List Byte) (h : S.length < 2 ^ 64) :
    ∃ root out, build_trie_by_freq tie (countFreq S) = some root ∧
      compress tie S = some (.returned .OK, out) ∧
      (∀ b x, (calculate_codes root [] (fun _ => none)).2 b = some x →
        x.length ≤ S.dedup.length ∧ x.length ≤ 256) ∧
      ∃ s, read_coding_table ⟨out, false⟩ (fun _ => none) =
        some ((calculate_codes root [] (fun _ => none)).2, s) := by
  obtain ⟨root, hroot, hshape, hc⟩ := compress_eq tie S h
  have hlen : ∀ b x, (calculate_codes root [] (fun _ => none)).2 b = some x →
      x.length ≤ S.dedup.length ∧ x.length ≤ 256 := by
    intro b x hx
    rcases hshape with ⟨_, rfl⟩ | ⟨_, hfull, hperm⟩
    · simp [calculate_codes] at hx
    · have hnd : (leaves root).Nodup := hperm.symm.nodup (support_nodup _)
      have h1 := treeCodes_length_le root hfull hnd b x hx
      have h2 := hperm.length_eq
      have h3 := support_length_dedup S
      have h4 : (support (countFreq S)).length ≤ 256 := by
        unfold support
        exact le_trans (List.length_filter_le _ _) (by rw [List.length_finRange])
      omega
  refine ⟨root, _, hroot, hc, hlen, ?_⟩
  exact ⟨_, read_coding_table_header (treeCodes root) _ (fun c x hx => (hlen c x hx).2)⟩

/-- Witness of C18 on the input `aba`. -/
theorem C18_depth_bound_witness :
    ([97, 98, 97] : List Byte).length < 2 ^ 64 ∧
      ∃ root out, build_trie_by_freq (fun _ => 0) (countFreq [97, 98, 97]) = some root ∧
        compress (fun _ => 0) [97, 98, 97] = some (.returned .OK, out) ∧
        (∀ b x, (calculate_codes root [] (fun _ => none)).2 b = some x →
          x.length ≤ ([97, 98, 97] : List Byte).dedup.length ∧ x.length ≤ 256) ∧
        ∃ s, read_coding_table ⟨out, false⟩ (fun _ => none) =
          some ((calculate_codes root [] (fun _ => none)).2, s) :=
  ⟨by decide, C18_depth_bound (fun _ => 0) [97, 98, 97] (by decide)⟩

end Huffman

namespace Huffman

/-- A duplicate-free list whose only possible member is `a`, and which has `a`, is `[a]`. -/
theorem eq_singleton_of_nodup {α : Type} (l : List α) (a : α) (hnd : l.Nodup)
    (hmem : ∀ x, x ∈ l ↔ x = a) : l = [a] := by
  have hperm : l.Perm [a] :=
    (List.perm_ext_iff_of_nodup hnd (List.nodup_singleton a)).2
      (fun x => by rw [hmem x, List.mem_singleton])
  exact List.perm_singleton.1 hperm

theorem singleCode_some (b c : Byte) (x : List Bool) :
    singleCode b c = some x ↔ c = b ∧ x = [] := by
  unfold singleCode
  by_cases hc : c = b
  · subst hc
    rw [Function.update_same]
    constructor
    · intro h
      exact ⟨rfl, (Option.some.inj h).symm⟩
    · rintro ⟨_, rfl⟩
      rfl
  · rw [Function.update_noteq hc]
    constructor
    · intro h
      cases h
    · rintro ⟨h, _⟩
      exact absurd h hc

theorem treeCodes_leaf (b : Byte) : treeCodes (.node .null .null b) = singleCode b := by
  simp [treeCodes, calculate_codes, NodePtr.isNull, singleCode]

theorem entriesOf_singleCode (b : Byte) : entriesOf (singleCode b) = [(b, [])] := by
  apply eq_singleton_of_nodup
  · exact List.Nodup.of_map _ (entriesOf_fst_nodup _)
  · rintro ⟨c, x⟩
    rw [mem_entriesOf, singleCode_some, Prod.mk.injEq]

theorem headerBytes_singleCode (b : Byte) :
    headerBytes (singleCode b) = toBytes 8 1 ++ (b :: toBytes 8 0) := by
  unfold headerBytes
  rw [entriesOf_singleCode]
  simp [entryBytes, pack]

theorem encodeBits_singleCode (b : Byte) (N : Nat) :
    encodeBits (singleCode b) (List.replicate N b) = [] := by
  induction N with
  | zero => rfl
  | succ N ih =>
    rw [List.replicate_succ, encodeBits, ih, (singleCode_some b b []).2 ⟨rfl, rfl⟩]
    rfl

theorem singleCode_prefixFree (b : Byte) : PrefixFree (singleCode b) := by
  intro a c x y hne hx hy
  exact absurd (((singleCode_some b a x).1 hx).1.trans ((singleCode_some b c y).1 hy).1.symm) hne

theorem build_trie_by_codes_singleCode (b : Byte) :
    build_trie_by_codes (singleCode b) = .node .null .null b := by
  have := build_trie_by_codes_subtree (singleCode b) (singleCode_prefixFree b) b []
    ((singleCode_some b b []).2 ⟨rfl, rfl⟩)
  rwa [subtree_nil] at this

theorem support_replicate (b : Byte) (N : Nat) (hN : 1 ≤ N) :
    support (countFreq (List.replicate N b)) = [b] := by
  apply eq_singleton_of_nodup _ _ (support_nodup _)
  intro x
  rw [mem_support_countFreq, List.mem_replicate]
  constructor
  · exact fun h => h.2
  · exact fun h => ⟨by omega, h⟩

end Huffman

namespace Huffman

/-! ## Claim C12: inputs with a single byte value -/

/-- C12 (single-symbol input). For every byte `b`, every `N` with `1 ≤ N < 2 ^ 64` and every
tie-break, `compress` on `N` copies of `b` returns `OK` and writes 25 bytes: the entry count
1, the byte `b`, the code length 0, no code byte, the element count `N`, no payload.  On that
stream `read_coding_table` yields the table whose only entry is the empty code for `b` and
leaves the 8 bytes of the element count; the decoding walk in the tree of that table returns
`b` at once, leaving reader and stream as they are; and `decompress` returns `OK` and writes
`N` copies of `b`. -/
theorem C12_single_symbol (tie : TieBreak) (b : Byte) (N : Nat) (h1 : 1 ≤ N)
    (h2 : N < 2 ^ 64) :
    compress tie (List.replicate N b) =
        some (.returned .OK, toBytes 8 1 ++ ([b] ++ (toBytes 8 0 ++ toBytes 8 N))) ∧
      (toBytes 8 1 ++ ([b] ++ (toBytes 8 0 ++ toBytes 8 N))).length = 25 ∧
      read_coding_table ⟨toBytes 8 1 ++ ([b] ++ (toBytes 8 0 ++ toBytes 8 N)), false⟩
          (fun _ => none) = some (singleCode b, ⟨toBytes 8 N, false⟩) ∧
      (∀ r s, decode_walk (build_trie_by_codes (singleCode b)) r s = .leaf b r s) ∧
      decompress (toBytes 8 1 ++ ([b] ++ (toBytes 8 0 ++ toBytes 8 N))) =
        (.returned .OK, List.replicate N b) := by
  have hlen : (List.replicate N b).length < 2 ^ 64 := by rw [List.length_replicate]; exact h2
  obtain ⟨root, _, hshape, hc⟩ := compress_eq tie (List.replicate N b) hlen
  have hgood := treeCodes_good root _ hshape
  have hsup := support_replicate b N h1
  have hroot : root = .node .null .null b := by
    rcases hshape with ⟨h0, _⟩ | ⟨_, hfull, hperm⟩
    · rw [hsup] at h0
      cases h0
    · rw [hsup] at hperm
      exact Full_single_leaf root hfull b (List.perm_singleton.1 hperm)
  subst hroot
  rw [treeCodes_leaf] at hc hgood
  have hstream : streamBytes (singleCode b) (List.replicate N b)
      = toBytes 8 1 ++ ([b] ++ (toBytes 8 0 ++ toBytes 8 N)) := by
    unfold streamBytes
    rw [headerBytes_singleCode, encodeBits_singleCode, List.length_replicate]
    simp [pack]
  have hhead : toBytes 8 1 ++ ([b] ++ (toBytes 8 0 ++ toBytes 8 N))
      = headerBytes (singleCode b) ++ toBytes 8 N := by
    rw [headerBytes_singleCode]
    simp
  refine ⟨by rw [hc, hstream], by simp [toBytes_length], ?_, ?_, ?_⟩
  · rw [hhead]
    exact read_coding_table_header (singleCode b) _ hgood.short
  · intro r s
    rw [build_trie_by_codes_singleCode]
    simp [decode_walk, NodePtr.isNull]
  · rw [← hstream]
    exact decompress_streamBytes _ _ hlen hgood

/-- Witness of C12: three copies of the byte `a`. -/
theorem C12_single_symbol_witness :
    1 ≤ 3 ∧ 3 < 2 ^ 64 ∧
      compress (fun _ => 0) (List.replicate 3 (97 : Byte)) =
        some (.returned .OK,
          toBytes 8 1 ++ ([(97 : Byte)] ++ (toBytes 8 0 ++ toBytes 8 3))) ∧
      (toBytes 8 1 ++ ([(97 : Byte)] ++ (toBytes 8 0 ++ toBytes 8 3))).length = 25 ∧
      read_coding_table ⟨toBytes 8 1 ++ ([(97 : Byte)] ++ (toBytes 8 0 ++ toBytes 8 3)), false⟩
          (fun _ => none) = some (singleCode 97, ⟨toBytes 8 3, false⟩) ∧
      (∀ r s, decode_walk (build_trie_by_codes (singleCode 97)) r s = .leaf 97 r s) ∧
      decompress (toBytes 8 1 ++ ([(97 : Byte)] ++ (toBytes 8 0 ++ toBytes 8 3))) =
        (.returned .OK, List.replicate 3 97) :=
  ⟨by decide, by decide, C12_single_symbol (fun _ => 0) 97 3 (by decide) (by decide)⟩

end Huffman

namespace Huffman

/-! ## The packed words of a bit sequence -/

theorem packedWords_nil (n : Nat) (hn : 0 < n) : packedWords n [] = [] := by
  have h : (([] : List Bool).length + 8 * n - 1) / (8 * n) = 0 := by
    apply Nat.div_eq_of_lt
    simp only [List.length_nil]
    omega
  unfold packedWords
  rw [h]
  rfl

theorem packedWords_short (n : Nat) (bs : List Bool) (h0 : 0 < bs.length)
    (h : bs.length ≤ 8 * n) : packedWords n bs = toBytes n (bitsToNat bs) := by
  have hc : (bs.length + 8 * n - 1) / (8 * n) = 1 := by
    apply Nat.div_eq_of_lt_le <;> omega
  unfold packedWords
  rw [hc, show List.range 1 = [0] from rfl]
  simp only [List.map_cons, List.map_nil, List.flatten_cons, List.flatten_nil, List.append_nil,
    Nat.mul_zero, List.drop_zero]
  rw [List.take_of_length_le h]

theorem packedWords_word (n : Nat) (hn : 0 < n) (w l : List Bool) (hw : w.length = 8 * n) :
    packedWords n (w ++ l) = toBytes n (bitsToNat w) ++ packedWords n l := by
  have hc : ((w ++ l).length + 8 * n - 1) / (8 * n) = (l.length + 8 * n - 1) / (8 * n) + 1 := by
    rw [List.length_append, hw]
    have : 8 * n + l.length + 8 * n - 1 = (l.length + 8 * n - 1) + 8 * n := by omega
    rw [this, Nat.add_div_right _ (by omega)]
  unfold packedWords
  rw [hc, List.range_succ_eq_map, List.map_cons, List.flatten_cons, List.map_map]
  congr 1
  · rw [Nat.mul_zero, List.drop_zero, ← hw, List.take_left]
  · congr 1
    apply List.map_congr_left
    intro k _
    simp only [Function.comp]
    have : 8 * n * (k + 1) = w.length + 8 * n * k := by rw [hw]; ring
    rw [this, List.drop_append]

theorem pack_eq_packedWords (n : Nat) (hn : 0 < n) (bs cur : List Bool)
    (h : cur.length < 8 * n) : pack n cur bs = packedWords n (cur ++ bs) := by
  induction bs generalizing cur with
  | nil =>
    rw [List.append_nil]
    cases cur with
    | nil => rw [packedWords_nil n hn]; rfl
    | cons c cur =>
      rw [packedWords_short n _ (by simp) (by omega)]
      rfl
  | cons b bs ih =>
    have hsplit : cur ++ b :: bs = (cur ++ [b]) ++ bs := by simp
    simp only [pack]
    split_ifs with h1
    · rw [ih [] (by simp; omega), hsplit,
        packedWords_word n hn (cur ++ [b]) bs (by simp; omega), List.nil_append]
    · rw [ih (cur ++ [b]) (by simp; omega), hsplit]

/-- Past the bits written, the packed bytes hold zeros. -/
theorem bitAt_pack_pad (n : Nat) (hn : n = 1 ∨ n = 8) (bs cur : List Bool) (j : Nat)
    (h : cur.length < 8 * n) (hj : cur.length + bs.length ≤ j) :
    bitAt n (pack n cur bs) j = false := by
  have hnil : ∀ i, bitAt n [] i = false := by
    intro i
    simp [bitAt, fromBytes]
  have hword : ∀ l : List Bool, l.length ≤ 8 * n →
      fromBytes (toBytes n (bitsToNat l)) = bitsToNat l := by
    intro l hl
    rw [fromBytes_toBytes]
    apply Nat.mod_eq_of_lt
    have h1 := bitsToNat_lt l
    have h2 : 2 ^ l.length ≤ 2 ^ (8 * n) := Nat.pow_le_pow_right (by norm_num) hl
    have h3 : (256 : Nat) ^ n = 2 ^ (8 * n) := by
      rw [pow_mul]; norm_num
    omega
  induction bs generalizing cur j with
  | nil =>
    simp only [List.length_nil, Nat.add_zero] at hj
    cases cur with
    | nil => exact hnil j
    | cons c cur =>
      simp only [pack, List.isEmpty_cons, Bool.false_eq_true, if_false]
      rw [← List.append_nil (toBytes n (bitsToNat (c :: cur)))]
      rcases Nat.lt_or_ge j (8 * n) with hlt | hge
      · rw [bitAt_head n hn _ _ j (toBytes_length _ _) hlt, hword _ (by omega),
          testBit_bitsToNat, List.getD_eq_getElem?_getD, List.getElem?_eq_none hj]
        rfl
      · rw [bitAt_tail n hn _ _ j (toBytes_length _ _) hge]
        exact hnil _
  | cons b bs ih =>
    simp only [pack]
    simp only [List.length_cons] at hj
    split_ifs with h1
    · rw [bitAt_tail n hn _ _ j (toBytes_length _ _) (by omega)]
      exact ih [] (j - 8 * n) (by simp; omega) (by simp only [List.length_nil]; omega)
    · exact ih (cur ++ [b]) j (by simp; omega) (by simp; omega)

/-- Every bit position of the packed bytes: the bit of the sequence, or zero past its end. -/
theorem bitAt_pack_all (n : Nat) (hn : n = 1 ∨ n = 8) (bs : List Bool) (j : Nat) :
    bitAt n (pack n [] bs) j = bs.getD j false := by
  have h0 : ([] : List Bool).length < 8 * n := by
    rcases hn with rfl | rfl <;> simp
  rcases Nat.lt_or_ge j bs.length with hlt | hge
  · have := bitAt_pack n hn bs [] [] j h0 (by simpa using hlt)
    simpa using this
  · rw [bitAt_pack_pad n hn bs [] j h0 (by simpa using hge), List.getD_eq_getElem?_getD,
      List.getElem?_eq_none hge]
    rfl

/-! ## Successive reads -/

theorem read_bits_ok (n : Nat) (hn : n = 1 ∨ n = 8) (data : List Byte) (k j : Nat)
    (h : n * ((j + k + 8 * n - 1) / (8 * n)) ≤ data.length) :
    read_bits n k (readerAfter n data j).1 (readerAfter n data j).2 =
      ((List.range k).map (fun i => bitAt n data (j + i)), false,
        (readerAfter n data (j + k)).2) := by
  induction k generalizing j with
  | zero => simp [read_bits]
  | succ k ih =>
    have hread : n * (j / (8 * n) + 1) ≤ data.length := by
      refine le_trans (Nat.mul_le_mul_left n ?_) h
      rcases hn with rfl | rfl <;> omega
    have hnext : n * ((j + 1 + k + 8 * n - 1) / (8 * n)) ≤ data.length := by
      have : j + 1 + k = j + (k + 1) := by omega
      rw [this]; exact h
    unfold read_bits
    rw [reader_read_ok n hn data j hread]
    simp only []
    rw [ih (j + 1) hnext, List.range_succ_eq_map, List.map_cons, List.map_map,
      readerAfter_failbit]
    have e : j + 1 + k = j + (k + 1) := by omega
    simp only [Nat.add_zero, Bool.false_or, e]
    congr 2
    apply List.map_congr_left
    intro i _
    simp only [Function.comp]
    congr 1
    omega

theorem map_getD_range (bs : List Bool) :
    (List.range bs.length).map (fun i => bs.getD i false) = bs := by
  apply List.ext_getElem
  · simp
  · intro i h1 h2
    simp [List.getD_eq_getElem?_getD, List.getElem?_eq_getElem h2]

/-- Reading back what the writer wrote: the bits, no failure, the bytes after them left. -/
theorem read_bits_pack (n : Nat) (hn : n = 1 ∨ n = 8) (bs : List Bool) (rest : List Byte) :
    read_bits n bs.length ⟨0, 0⟩ ⟨pack n [] bs ++ rest, false⟩ = (bs, false, ⟨rest, false⟩) := by
  have h0 : ([] : List Bool).length < 8 * n := by
    rcases hn with rfl | rfl <;> simp
  have hlen := pack_length n hn bs [] h0
  simp only [List.length_nil, Nat.zero_add] at hlen
  have hr := read_bits_ok n hn (pack n [] bs ++ rest) bs.length 0
    (by rw [Nat.zero_add, List.length_append, hlen]; exact Nat.le_add_right _ _)
  rw [readerAfter_zero] at hr
  rw [hr]
  have hbits : (List.range bs.length).map (fun i => bitAt n (pack n [] bs ++ rest) (0 + i))
      = bs := by
    refine Eq.trans ?_ (map_getD_range bs)
    apply List.map_congr_left
    intro i hi
    have hi' : i < bs.length := List.mem_range.1 hi
    rw [Nat.zero_add, bitAt_pack n hn bs [] rest i h0 (by simpa using hi'), List.nil_append]
  rw [hbits]
  simp only [readerAfter, Nat.zero_add]
  rw [← hlen, List.drop_left]

end Huffman

namespace Huffman

/-! ## The stream `compress` writes, in the words of the format description -/

theorem entries_layout (codes : Codes) (S : List Byte) (h : ∀ i, (codes i).isSome ↔ i ∈ S)
    (l : List Byte) :
    (l.filterMap (fun i => (codes i).map (fun code => (i, code)))).map entryBytes =
      (l.filter (fun b => decide (b ∈ S))).map (layoutEntry codes) := by
  induction l with
  | nil => rfl
  | cons i l ih =>
    cases hci : codes i with
    | none =>
      have hi : i ∉ S := by
        intro hmem
        have := (h i).2 hmem
        rw [hci] at this
        cases this
      rw [List.filterMap_cons_none (by rw [hci]; rfl),
        List.filter_cons_of_neg (by simpa using hi), ih]
    | some code =>
      have hi : i ∈ S := (h i).1 (by rw [hci]; rfl)
      rw [List.filterMap_cons_some (b := (i, code)) (by rw [hci]; rfl),
        List.filter_cons_of_pos (by simpa using hi), List.map_cons, List.map_cons, ih]
      congr 1
      unfold entryBytes layoutEntry
      rw [hci, pack_eq_packedWords 1 (by norm_num) code [] (by simp)]
      rfl

theorem encodeBits_eq_flatten (codes : Codes) (S : List Byte) :
    encodeBits codes S = (S.map (fun c => (codes c).getD [])).flatten := by
  induction S with
  | nil => rfl
  | cons c S ih => rw [encodeBits, ih, List.map_cons, List.flatten_cons]

theorem support_eq_filter_mem (S : List Byte) :
    support (countFreq S) = (List.finRange 256).filter (fun b => decide (b ∈ S)) := by
  unfold support
  apply List.filter_congr
  intro b _
  have : countFreq S b ≠ 0 ↔ b ∈ S := by
    rw [← mem_support, mem_support_countFreq]
  by_cases hb : b ∈ S
  · simp [hb, this.2 hb]
  · have h0 : countFreq S b = 0 := by
      by_contra hne
      exact hb (this.1 hne)
    simp [hb, h0]

theorem streamBytes_eq_layoutStream (codes : Codes) (S : List Byte)
    (h : ∀ i, (codes i).isSome ↔ i ∈ S) : streamBytes codes S = layoutStream codes S := by
  have hent := entries_layout codes S h (List.finRange 256)
  have hn : (entriesOf codes).length = S.dedup.length := by
    have := congrArg List.length hent
    rw [List.length_map, List.length_map, ← support_eq_filter_mem, support_length_dedup] at this
    exact this
  unfold streamBytes layoutStream headerBytes
  rw [hn, encodeBits_eq_flatten, pack_eq_packedWords 8 (by norm_num) _ [] (by simp),
    List.nil_append]
  unfold entriesOf at hent ⊢
  rw [hent]
  simp only [List.append_assoc]

end Huffman

namespace Huffman

/-! ## Claims C15 and C16: stream layout and bit streams -/

/-- C15 (stream layout). For every input `S` of fewer than `2 ^ 64` bytes and every tie-break,
`compress` returns `OK` and the bytes it writes are exactly: the number of distinct bytes of
`S` as an 8-byte integer; for each byte value occurring in `S`, in ascending order, that byte,
the length of its code as an 8-byte integer and `ceil(length / 8)` bytes holding the code
bits, lowest bit first, zero-padded; the length of `S` as an 8-byte integer; and the codes of
the bytes of `S` in input order, concatenated and packed lowest bit first into
`ceil(bits / 64)` words of 64 bits, the last zero-padded, none when there are no bits. -/
theorem C15_stream_layout (tie : TieBreak) (S : List Byte) (h : S.length < 2 ^ 64) :
    ∃ root, build_trie_by_freq tie (countFreq S) = some root ∧
      compress tie S =
        some (.returned .OK, layoutStream (calculate_codes root [] (fun _ => none)).2 S) := by
  obtain ⟨root, hroot, hshape, hc⟩ := compress_eq tie S h
  refine ⟨root, hroot, ?_⟩
  have hperm : (leaves root).Perm (support (countFreq S)) := by
    rcases hshape with ⟨h0, rfl⟩ | ⟨_, _, hp⟩
    · rw [h0]; exact List.Perm.refl _
    · exact hp
  have hnd : (leaves root).Nodup := hperm.symm.nodup (support_nodup _)
  have hsome : ∀ i, ((treeCodes root) i).isSome ↔ i ∈ S := by
    intro i
    unfold treeCodes
    rw [treeCodes_isSome_iff root hnd i, hperm.mem_iff, mem_support_countFreq]
  rw [hc, streamBytes_eq_layoutStream _ S hsome]
  rfl

set_option maxRecDepth 1000000 in
/-- Witness of C15 on the input `aba`. -/
theorem C15_stream_layout_witness :
    ([97, 98, 97] : List Byte).length < 2 ^ 64 ∧
      ∃ root, build_trie_by_freq (fun _ => 0) (countFreq [97, 98, 97]) = some root ∧
        compress (fun _ => 0) [97, 98, 97] =
          some (.returned .OK,
            layoutStream (calculate_codes root [] (fun _ => none)).2 [97, 98, 97]) :=
  ⟨by decide, C15_stream_layout (fun _ => 0) [97, 98, 97] (by decide)⟩

/-- C16 (bit stream round trip). For a buffer of `n` bytes, `n = 1` (`uint8_t`) or `n = 8`
(`uint64_t`), and every list of bits `bs`: writing `bs` bit by bit with a `BinaryWriter` and
calling `flush` appends exactly `n * ceil(|bs| / (8 n))` bytes to the output; bit `k` of `bs`
is at bit position `k mod 8 n` of word `k div 8 n`, and every other bit of the words is zero;
and `|bs|` reads with a fresh `BinaryReader` on those bytes, followed by any further bytes,
return `bs` in order, without a read failure, and leave exactly the further bytes. -/
theorem C16_bit_stream_round_trip (n : Nat) (hn : n = 1 ∨ n = 8) (bs : List Bool)
    (out rest : List Byte) :
    ∃ bytes,
      (BinaryWriter.flush n (bs.foldl (BinaryWriter.write n) ⟨out, 0, 0⟩)).out = out ++ bytes ∧
      bytes.length = n * ((bs.length + 8 * n - 1) / (8 * n)) ∧
      (∀ k, (fromBytes ((bytes.drop (n * (k / (8 * n)))).take n)).testBit (k % (8 * n))
        = bs.getD k false) ∧
      read_bits n bs.length ⟨0, 0⟩ ⟨bytes ++ rest, false⟩ = (bs, false, ⟨rest, false⟩) := by
  have hpos : 0 < n := by rcases hn with rfl | rfl <;> norm_num
  have h0 : ([] : List Bool).length < 8 * n := by
    rcases hn with rfl | rfl <;> simp
  refine ⟨pack n [] bs, ?_, ?_, ?_, read_bits_pack n hn bs rest⟩
  · exact writer_spec n hpos bs out [] h0
  · have := pack_length n hn bs [] h0
    simpa using this
  · intro k
    exact bitAt_pack_all n hn bs k

/-- Witness of C16: ten bits through a writer and a reader of one-byte words. -/
theorem C16_bit_stream_round_trip_witness :
    ((1 : Nat) = 1 ∨ (1 : Nat) = 8) ∧
    ∃ bytes,
      (BinaryWriter.flush 1
        ([true, false, true, true, false, false, false, true, true, true].foldl
          (BinaryWriter.write 1) ⟨[7], 0, 0⟩)).out = [7] ++ bytes ∧
      bytes.length = 1 *
        (([true, false, true, true, false, false, false, true, true, true].length + 8 * 1 - 1)
          / (8 * 1)) ∧
      (∀ k, (fromBytes ((bytes.drop (1 * (k / (8 * 1)))).take 1)).testBit (k % (8 * 1))
        = [true, false, true, true, false, false, false, true, true, true].getD k false) ∧
      read_bits 1 [true, false, true, true, false, false, false, true, true, true].length
        ⟨0, 0⟩ ⟨bytes ++ [9], false⟩ =
          ([true, false, true, true, false, false, false, true, true, true], false,
            ⟨[9], false⟩) :=
  ⟨Or.inl rfl, C16_bit_stream_round_trip 1 (Or.inl rfl)
    [true, false, true, true, false, false, false, true, true, true] [7] [9]⟩

end Huffman

namespace Huffman

/-! ## Headers with a declared code length above the limit -/

/-- Entries whose declared lengths are within the limit and whose code bytes are present are
read one after the other. -/
theorem read_entries_raw (es : List (Byte × Nat × List Byte)) (m : Nat) (rest : List Byte)
    (codes : Codes) (hwf : ∀ e ∈ es, RawEntryOk e ∧ e.2.1 ≤ 256) :
    ∃ codes1, read_entries (es.length + m) ⟨(es.map rawEntryBytes).flatten ++ rest, false⟩ codes
      = read_entries m ⟨rest, false⟩ codes1 := by
  induction es generalizing codes with
  | nil => exact ⟨codes, by simp⟩
  | cons e es ih =>
    obtain ⟨c, len, bytes⟩ := e
    obtain ⟨⟨hlen, hbytes⟩, hle⟩ := hwf (c, len, bytes) (by simp)
    simp only at hlen hbytes hle
    have hE : (((c, len, bytes) :: es).map rawEntryBytes).flatten ++ rest =
        c :: (toBytes 8 len ++ (bytes ++ ((es.map rawEntryBytes).flatten ++ rest))) := by
      simp [rawEntryBytes]
    have hcnt : ((c, len, bytes) :: es).length + m = (es.length + m) + 1 := by
      simp only [List.length_cons]; omega
    have hmod : len % 256 ^ 8 = len := Nat.mod_eq_of_lt (by omega)
    have hbig : ¬ len > CHAR_MX := by unfold CHAR_MX; omega
    rw [hE, hcnt]
    simp only [read_entries, Deserialize_uchar_cons, Deserialize_toBytes, hmod, Bool.false_or,
      decide_eq_true_eq]
    rw [if_neg hbig]
    obtain ⟨bits, hb⟩ := read_code_bits_ok
      (bytes ++ ((es.map rawEntryBytes).flatten ++ rest)) len 0 []
      (by simp only [List.length_append]; omega)
    rw [readerAfter_zero] at hb
    rw [hb]
    have hrest : (readerAfter 1 (bytes ++ ((es.map rawEntryBytes).flatten ++ rest))
        (0 + len)).2 = ⟨(es.map rawEntryBytes).flatten ++ rest, false⟩ := by
      have e : 1 * ((0 + len + 8 * 1 - 1) / (8 * 1)) = bytes.length := by
        rw [hbytes]; omega
      simp only [readerAfter, e, List.drop_left]
    rw [hrest]
    exact ih _ (fun x hx => hwf x (by simp [hx]))

/-- An entry that declares a code length above `CHAR_MX` makes `read_coding_table` throw. -/
theorem read_entries_long (m : Nat) (c : Byte) (lenBytes rest : List Byte) (codes : Codes)
    (h8 : lenBytes.length = 8) (hlong : fromBytes lenBytes > 256) :
    read_entries (m + 1) ⟨c :: (lenBytes ++ rest), false⟩ codes = none := by
  have hbig : fromBytes lenBytes > CHAR_MX := hlong
  simp only [read_entries, Deserialize_uchar_cons, Deserialize_exact 8 0 lenBytes rest h8,
    Bool.false_or, decide_eq_true_eq]
  rw [if_pos hbig]

theorem read_coding_table_long (count : Nat) (es : List (Byte × Nat × List Byte)) (c : Byte)
    (lenBytes rest : List Byte) (hcount : count ≤ 256) (hes : es.length < count)
    (hwf : ∀ e ∈ es, RawEntryOk e ∧ e.2.1 ≤ 256) (h8 : lenBytes.length = 8)
    (hlong : fromBytes lenBytes > 256) :
    read_coding_table
      ⟨toBytes 8 count ++ ((es.map rawEntryBytes).flatten ++ (c :: (lenBytes ++ rest))), false⟩
      (fun _ => none) = none := by
  have hmod : count % 256 ^ 8 = count := Nat.mod_eq_of_lt (by omega)
  have hbig : ¬ count > CHAR_MX := by unfold CHAR_MX; omega
  unfold read_coding_table
  rw [Deserialize_toBytes, hmod]
  dsimp only
  rw [if_neg (by rw [Bool.false_or, decide_eq_true_eq]; exact hbig)]
  obtain ⟨m, hm⟩ : ∃ m, count = es.length + (m + 1) := ⟨count - es.length - 1, by omega⟩
  obtain ⟨codes1, h1⟩ := read_entries_raw es (m + 1) (c :: (lenBytes ++ rest)) (fun _ => none) hwf
  rw [hm, h1]
  exact read_entries_long m c lenBytes rest codes1 h8 hlong

/-! ## `Arch::decompress` with arbitrary stream pointers -/

/-- The function `decompress` of this development is `Arch::decompress` on non-null pointers
and an empty output stream. -/
theorem decompress_eq_Arch (data : List Byte) :
    Arch.decompress (some ⟨data, false⟩) (some []) =
      ((decompress data).1, some (decompress data).2) := by
  unfold Arch.decompress decompress
  dsimp only
  generalize read_coding_table ⟨data, false⟩ (fun _ => none) = r
  cases r with
  | none => rfl
  | some r =>
    obtain ⟨codes, s1⟩ := r
    dsimp only
    generalize decode_input s1 [] (build_trie_by_codes codes) = d
    obtain ⟨sig, o1⟩ := d
    cases sig <;> rfl

theorem Arch_decompress_null (inp : Option IStream) (out : Option (List Byte))
    (h : inp = none ∨ out = none) :
    Arch.decompress inp out = (.returned .WRONG_ARGUMENTS, out) := by
  cases inp <;> cases out <;> simp at h <;> rfl

theorem Arch_decompress_header (s : IStream) (o : List Byte)
    (h : read_coding_table s (fun _ => none) = none) :
    Arch.decompress (some s) (some o) = (.returned .MALFORMED_HEADER, some o) := by
  unfold Arch.decompress
  dsimp only
  rw [h]

theorem Arch_decompress_parsed (s : IStream) (o : List Byte) (codes : Codes) (s1 : IStream)
    (h : read_coding_table s (fun _ => none) = some (codes, s1)) :
    (Arch.decompress (some s) (some o)).2
        = some (decode_input s1 o (build_trie_by_codes codes)).2 ∧
      (Arch.decompress (some s) (some o)).1 ≠ .returned .MALFORMED_HEADER ∧
      (Arch.decompress (some s) (some o)).1 ≠ .returned .WRONG_ARGUMENTS := by
  unfold Arch.decompress
  dsimp only
  rw [h]
  dsimp only
  generalize decode_input s1 o (build_trie_by_codes codes) = d
  obtain ⟨sig, o1⟩ := d
  cases sig <;> simp

end Huffman

namespace Huffman

/-! ## Claims C19 and C20: over-long declared code length, no output on a header error -/

/-- C19 (declared code length above 256). For every byte stream that starts with an entry
count of at most 256, continues with fewer entries than that count, each with a declared code
length of at most 256 and the code bytes that length calls for, and then holds an entry whose
8-byte code length is greater than 256, `decompress` returns `MALFORMED_HEADER` and writes
nothing, whatever bytes follow the length (all the bytes it calls for included). -/
theorem C19_code_length_too_large (count : Nat) (es : List (Byte × Nat × List Byte)) (c : Byte)
    (lenBytes rest : List Byte) (hcount : count ≤ 256) (hes : es.length < count)
    (hwf : ∀ e ∈ es, RawEntryOk e ∧ e.2.1 ≤ 256) (h8 : lenBytes.length = 8)
    (hlong : fromBytes lenBytes > 256) :
    decompress (toBytes 8 count ++ ((es.map rawEntryBytes).flatten ++ (c :: (lenBytes ++ rest))))
      = (.returned .MALFORMED_HEADER, []) := by
  unfold decompress
  rw [read_coding_table_long count es c lenBytes rest hcount hes hwf h8 hlong]

/-- Witness of C19: two entries declared; the first is the code `0` for the byte `b`, the
second declares 257 bits for the byte `a` and is followed by the 33 bytes that length calls
for and by an element count. -/
theorem C19_code_length_too_large_witness :
    2 ≤ 256 ∧ ([(98, 1, [0])] : List (Byte × Nat × List Byte)).length < 2 ∧
      (∀ e ∈ ([(98, 1, [0])] : List (Byte × Nat × List Byte)), RawEntryOk e ∧ e.2.1 ≤ 256) ∧
      ([1, 1, 0, 0, 0, 0, 0, 0] : List Byte).length = 8 ∧
      fromBytes [1, 1, 0, 0, 0, 0, 0, 0] > 256 ∧
      decompress (toBytes 8 2 ++ ((([(98, 1, [0])] : List (Byte × Nat × List Byte)).map
          rawEntryBytes).flatten ++ (97 :: ([1, 1, 0, 0, 0, 0, 0, 0] ++ List.replicate 41 0))))
        = (.returned .MALFORMED_HEADER, []) :=
  have hwf : ∀ e ∈ ([(98, 1, [0])] : List (Byte × Nat × List Byte)),
      RawEntryOk e ∧ e.2.1 ≤ 256 := by
    intro e he
    rw [List.mem_singleton.1 he]
    exact ⟨⟨by norm_num, rfl⟩, by norm_num⟩
  ⟨by decide, by decide, hwf, by decide, by decide,
    C19_code_length_too_large 2 [(98, 1, [0])] 97 [1, 1, 0, 0, 0, 0, 0, 0]
      (List.replicate 41 0) (by decide) (by decide) hwf (by decide) (by decide)⟩

/-- C20 (no output on a header error). For all stream pointers and every content of the
output stream: when `Arch::decompress` returns `MALFORMED_HEADER` or `WRONG_ARGUMENTS`, the
output stream is as it was before the call; and when the output stream has changed, both
pointers were non-null, `read_coding_table` had parsed the whole header, and the output stream
is the one `decode_input` left. -/
theorem C20_no_output_on_header_error (inp : Option IStream) (out : Option (List Byte)) :
    (((Arch.decompress inp out).1 = .returned .MALFORMED_HEADER ∨
        (Arch.decompress inp out).1 = .returned .WRONG_ARGUMENTS) →
      (Arch.decompress inp out).2 = out) ∧
    ((Arch.decompress inp out).2 ≠ out →
      ∃ s o codes s1, inp = some s ∧ out = some o ∧
        read_coding_table s (fun _ => none) = some (codes, s1) ∧
        (Arch.decompress inp out).2 = some (decode_input s1 o (build_trie_by_codes codes)).2) := by
  cases inp with
  | none =>
    have h := Arch_decompress_null none out (Or.inl rfl)
    rw [h]
    exact ⟨fun _ => rfl, fun hne => absurd rfl hne⟩
  | some s =>
    cases out with
    | none =>
      have h := Arch_decompress_null (some s) none (Or.inr rfl)
      rw [h]
      exact ⟨fun _ => rfl, fun hne => absurd rfl hne⟩
    | some o =>
      rcases hr : read_coding_table s (fun _ => none) with _ | ⟨codes, s1⟩
      · have h := Arch_decompress_header s o hr
        rw [h]
        exact ⟨fun _ => rfl, fun hne => absurd rfl hne⟩
      · obtain ⟨h2, hmh, hwa⟩ := Arch_decompress_parsed s o codes s1 hr
        refine ⟨fun hst => ?_, fun _ => ⟨s, o, codes, s1, rfl, rfl, hr, h2⟩⟩
        rcases hst with hst | hst
        · exact absurd hst hmh
        · exact absurd hst hwa

set_option maxRecDepth 1000000 in
/-- Witness of C20: a stream of three bytes, on which `read_coding_table` throws, and an
output stream that already holds one byte. -/
theorem C20_no_output_on_header_error_witness :
    ((Arch.decompress (some ⟨[1, 2, 3], false⟩) (some [7])).1 = .returned .MALFORMED_HEADER ∨
        (Arch.decompress (some ⟨[1, 2, 3], false⟩) (some [7])).1 = .returned .WRONG_ARGUMENTS) ∧
      (Arch.decompress (some ⟨[1, 2, 3], false⟩) (some [7])).2 = some [7] :=
  ⟨Or.inl (by decide),
    (C20_no_output_on_header_error (some ⟨[1, 2, 3], false⟩) (some [7])).1
      (Or.inl (by decide))⟩

end Huffman
